import Mathlib

/-!
# MaxLinear MxL692 host protocol engine

A shallow embedding of the transaction engine of
`drivers/media/dvb-frontends/mxl692.c` and of the constants of
`mxl692_defs.h`.

Conventions of the embedding:

* a C byte array is a `List Nat` (the whole underlying array, every element
  below 256), and a pointer into it is the array together with an offset;
* `u32` values are natural numbers below `2 ^ 32`, sums are reduced
  explicitly;
* the host byte order is the parameter `be` (`true` on a big-endian host),
  the value `gIsBigEndian` holds after `detect_endianess`;
* a store outside a fixed-size array, or a read outside the caller's array,
  makes the model return `none`.
-/

namespace Mxl692

/-! ## Constants of `mxl692_defs.h` and errno values -/

def MXL_EAGLE_HOST_MSG_HEADER_SIZE : Nat := 8
def MXL_EAGLE_MAX_I2C_PACKET_SIZE : Nat := 58
def MXL_EAGLE_I2C_MHEADER_SIZE : Nat := 6
def MXL_EAGLE_I2C_PHEADER_SIZE : Nat := 2

/-- Modelled from the spec: the errno value `EINVAL` of the kernel headers, which are
not among the sources. -/
def EINVAL : Int := 22

/-- Modelled from the spec: the errno value `ETIMEDOUT` of the kernel headers, which
are not among the sources. -/
def ETIMEDOUT : Int := 110

/-- Modelled from the spec: the errno value `EREMOTEIO` of the kernel headers, which
are not among the sources. -/
def EREMOTEIO : Int := 121

/-! Values of `enum MXL_EAGLE_OPCODE_E` that have a swap rule. -/

def MXL_EAGLE_OPCODE_DEVICE_INTR_MASK_SET : Nat := 5
def MXL_EAGLE_OPCODE_TUNER_CHANNEL_TUNE_SET : Nat := 10
def MXL_EAGLE_OPCODE_TUNER_AGC_STATUS_GET : Nat := 12
def MXL_EAGLE_OPCODE_ATSC_STATUS_GET : Nat := 15
def MXL_EAGLE_OPCODE_ATSC_ERROR_COUNTERS_GET : Nat := 16
def MXL_EAGLE_OPCODE_ATSC_EQUALIZER_FILTER_FFE_TAPS_GET : Nat := 18
def MXL_EAGLE_OPCODE_QAM_PARAMS_SET : Nat := 19
def MXL_EAGLE_OPCODE_QAM_STATUS_GET : Nat := 21
def MXL_EAGLE_OPCODE_QAM_ERROR_COUNTERS_GET : Nat := 22
def MXL_EAGLE_OPCODE_QAM_CONSTELLATION_VALUE_GET : Nat := 23
def MXL_EAGLE_OPCODE_QAM_EQUALIZER_FILTER_FFE_GET : Nat := 24
def MXL_EAGLE_OPCODE_QAM_EQUALIZER_FILTER_SPUR_START_GET : Nat := 25
def MXL_EAGLE_OPCODE_QAM_EQUALIZER_FILTER_SPUR_END_GET : Nat := 26
def MXL_EAGLE_OPCODE_QAM_EQUALIZER_FILTER_DFE_START_GET : Nat := 28
def MXL_EAGLE_OPCODE_QAM_EQUALIZER_FILTER_DFE_MIDDLE_GET : Nat := 29
def MXL_EAGLE_OPCODE_QAM_EQUALIZER_FILTER_DFE_END_GET : Nat := 30
def MXL_EAGLE_OPCODE_OOB_ERROR_COUNTERS_GET : Nat := 33
def MXL_EAGLE_OPCODE_OOB_STATUS_GET : Nat := 34
def MXL_EAGLE_OPCODE_SMA_TRANSMIT_SET : Nat := 37
def MXL_EAGLE_OPCODE_SMA_RECEIVE_GET : Nat := 38

/-! ## Memory primitives -/

/-- Byte `i` of the array `d`. -/
def rd (d : List Nat) (i : Nat) : Nat := d.getD i 0

/-- Modelled from the spec: the kernel macro `swab32`, which is not among the
sources: the four bytes of a 32-bit value in reverse order. -/
def swab32 (v : Nat) : Nat :=
  (v % 256) * 16777216 + (v / 256 % 256) * 65536 + (v / 65536 % 256) * 256 + v / 16777216 % 256

/-- Modelled from the spec: the kernel macro `cpu_to_be32`, which is not among the
sources: host order to big-endian, the identity on a big-endian host and
`swab32` otherwise. -/
def cpu_to_be32 (be : Bool) (v : Nat) : Nat := if be then v else swab32 v

/-- Modelled from the spec: the kernel macro `be32_to_cpu`, which is not among the
sources: big-endian to host order, the identity on a big-endian host and
`swab32` otherwise. -/
def be32_to_cpu (be : Bool) (v : Nat) : Nat := if be then v else swab32 v

/-- Modelled from the spec: the kernel macro `cpu_to_le32`, which is not among the
sources: host order to little-endian, `swab32` on a big-endian host and the
identity otherwise. -/
def cpu_to_le32 (be : Bool) (v : Nat) : Nat := if be then swab32 v else v

/-- The host load `*(u32 *)(d + off)`. -/
def load32 (be : Bool) (d : List Nat) (off : Nat) : Nat :=
  if be then
    rd d off * 16777216 + rd d (off + 1) * 65536 + rd d (off + 2) * 256 + rd d (off + 3)
  else
    rd d off + rd d (off + 1) * 256 + rd d (off + 2) * 65536 + rd d (off + 3) * 16777216

/-- The host store `*(u32 *)(d + off) = v`. -/
def store32 (be : Bool) (d : List Nat) (off : Nat) (v : Nat) : List Nat :=
  if be then
    (((d.set off (v / 16777216 % 256)).set (off + 1) (v / 65536 % 256)).set (off + 2)
      (v / 256 % 256)).set (off + 3) (v % 256)
  else
    (((d.set off (v % 256)).set (off + 1) (v / 256 % 256)).set (off + 2)
      (v / 65536 % 256)).set (off + 3) (v / 16777216 % 256)

/-- Modelled from the spec: the kernel function `memcpy`, which is not among the
sources: the call `memcpy(dst + off, src, n)` for a source that holds `n`
bytes. -/
def memcpy (dst : List Nat) (off : Nat) (src : List Nat) (n : Nat) : List Nat :=
  (List.range n).foldl (fun d i => d.set (off + i) (rd src i)) dst

/-! ## `convert_endian` and the per-opcode swap rules -/

/-- The three statements `d[a] ^= d[b]; d[b] ^= d[a]; d[a] ^= d[b];`. -/
def xorSwap (d : List Nat) (a b : Nat) : List Nat :=
  let d1 := d.set a (rd d a ^^^ rd d b)
  let d2 := d1.set b (rd d1 b ^^^ rd d1 a)
  d2.set a (rd d2 a ^^^ rd d2 b)

/-- The function `convert_endian(size, d + p)`: the array after the call (the
call returns `size`). -/
def convert_endian (size : Nat) (d : List Nat) (p : Nat) : List Nat :=
  let d1 := (List.range (size / 4)).foldl
    (fun d k => xorSwap (xorSwap d (p + 4 * k + 0) (p + 4 * k + 3)) (p + 4 * k + 1) (p + 4 * k + 2)) d
  let i := 4 * (size / 4)
  match size % 4 with
  | 2 => xorSwap d1 (p + i + 0) (p + i + 1)
  | 3 => xorSwap d1 (p + i + 0) (p + i + 2)
  | _ => d1

/-- The function `convert_endian_n(n, size, d + p)` for `size > 0`: the array
after the call and the returned count. -/
def convert_endian_n (n size : Nat) (d : List Nat) (p : Nat) : List Nat × Nat :=
  let iters := (n + size - 1) / size
  ((List.range iters).foldl (fun d k => convert_endian size d (p + k * size)) d, iters * size)

/-- The function `mxl692_tx_swap(opcode, pBuffer)`. -/
def mxl692_tx_swap (be : Bool) (opcode : Nat) (pBuffer : List Nat) : List Nat :=
  if be then pBuffer
  else
    let p := MXL_EAGLE_HOST_MSG_HEADER_SIZE
    if opcode = MXL_EAGLE_OPCODE_DEVICE_INTR_MASK_SET
        ∨ opcode = MXL_EAGLE_OPCODE_TUNER_CHANNEL_TUNE_SET
        ∨ opcode = MXL_EAGLE_OPCODE_SMA_TRANSMIT_SET then
      convert_endian 4 pBuffer p
    else if opcode = MXL_EAGLE_OPCODE_QAM_PARAMS_SET then
      convert_endian (2 * 4) pBuffer (p + 5)
    else pBuffer

/-- The function `mxl692_rx_swap(opcode, pBuffer)`. -/
def mxl692_rx_swap (be : Bool) (opcode : Nat) (pBuffer : List Nat) : List Nat :=
  if be then pBuffer
  else
    let p := MXL_EAGLE_HOST_MSG_HEADER_SIZE
    if opcode = MXL_EAGLE_OPCODE_TUNER_AGC_STATUS_GET then
      convert_endian (2 * 2) pBuffer (p + 1)
    else if opcode = MXL_EAGLE_OPCODE_ATSC_STATUS_GET then
      let r := convert_endian_n 2 2 pBuffer p
      convert_endian 4 r.1 (p + r.2)
    else if opcode = MXL_EAGLE_OPCODE_ATSC_ERROR_COUNTERS_GET then
      convert_endian (3 * 4) pBuffer p
    else if opcode = MXL_EAGLE_OPCODE_ATSC_EQUALIZER_FILTER_FFE_TAPS_GET then
      (convert_endian_n 24 2 pBuffer p).1
    else if opcode = MXL_EAGLE_OPCODE_QAM_STATUS_GET then
      let r := convert_endian_n 2 2 pBuffer (p + 8)
      convert_endian 4 r.1 (p + 8 + r.2)
    else if opcode = MXL_EAGLE_OPCODE_QAM_ERROR_COUNTERS_GET then
      convert_endian (7 * 4) pBuffer p
    else if opcode = MXL_EAGLE_OPCODE_QAM_CONSTELLATION_VALUE_GET
        ∨ opcode = MXL_EAGLE_OPCODE_QAM_EQUALIZER_FILTER_DFE_START_GET
        ∨ opcode = MXL_EAGLE_OPCODE_QAM_EQUALIZER_FILTER_DFE_MIDDLE_GET
        ∨ opcode = MXL_EAGLE_OPCODE_QAM_EQUALIZER_FILTER_DFE_END_GET
        ∨ opcode = MXL_EAGLE_OPCODE_QAM_EQUALIZER_FILTER_SPUR_START_GET then
      (convert_endian_n 24 2 pBuffer p).1
    else if opcode = MXL_EAGLE_OPCODE_QAM_EQUALIZER_FILTER_SPUR_END_GET then
      (convert_endian_n 8 2 pBuffer p).1
    else if opcode = MXL_EAGLE_OPCODE_QAM_EQUALIZER_FILTER_FFE_GET then
      (convert_endian_n 17 2 pBuffer p).1
    else if opcode = MXL_EAGLE_OPCODE_OOB_ERROR_COUNTERS_GET then
      convert_endian (3 * 4) pBuffer p
    else if opcode = MXL_EAGLE_OPCODE_OOB_STATUS_GET then
      let r := convert_endian_n 2 2 pBuffer p
      convert_endian 4 r.1 (p + r.2)
    else if opcode = MXL_EAGLE_OPCODE_SMA_RECEIVE_GET then
      convert_endian 4 pBuffer p
    else pBuffer

/-! ## Checksum engine -/

/-- The running sum of `mxl692_checksum` after the `for` loop has run `n` times. -/
def checksumLoop (be : Bool) (pBuffer : List Nat) : Nat → Nat
  | 0 => 0
  | n + 1 => (checksumLoop be pBuffer n + cpu_to_be32 be (load32 be pBuffer (n * 4))) % 4294967296

/-- The function `mxl692_checksum(pBuffer, size)`. -/
def mxl692_checksum (be : Bool) (pBuffer : List Nat) (size : Nat) : Nat :=
  let s := checksumLoop be pBuffer (size / 4)
  let remainder := size % 4
  let s := if remainder > 0 then
      (s + cpu_to_be32 be (load32 be pBuffer (size - remainder))) % 4294967296
    else s
  be32_to_cpu be (s ^^^ 0xDEADBEEF)

/-! ## The I2C adapter -/

/-- What the adapter answers to one `i2c_transfer`: the return value and, for a
read, the bytes it puts in the message buffer. -/
structure I2cReply where
  ret : Int
  data : List Nat
deriving DecidableEq

/-- One message handed to `i2c_transfer`. -/
inductive I2cMsg where
  | write (buf : List Nat)
  | read (len : Nat)
deriving DecidableEq

/-- The transport: the replies the adapter will give to the coming transfers,
in order, and the messages issued so far, oldest first. Once the replies are
used up every transfer fails. -/
structure Bus where
  script : List I2cReply
  log : List I2cMsg
deriving DecidableEq

/-- Modelled from the spec: the kernel function `i2c_transfer`, the physical-layer
transport, which is not among the sources: one call with a single message. It
returns the adapter's next reply and records the message. -/
def i2c_transfer (bus : Bus) (msg : I2cMsg) : I2cReply × Bus :=
  match bus.script with
  | [] => (⟨-5, []⟩, ⟨[], bus.log ++ [msg]⟩)
  | r :: rest => (r, ⟨rest, bus.log ++ [msg]⟩)

/-- The function `mxl692_i2c_write(dev, pBuffer, bufferLen)`. -/
def mxl692_i2c_write (bus : Bus) (pBuffer : List Nat) (bufferLen : Nat) : Int × Bus :=
  let r := i2c_transfer bus (I2cMsg.write (pBuffer.take bufferLen))
  (r.1.ret, r.2)

/-- The function `mxl692_i2c_read(dev, pBuffer + off, bufferLen)`: the return
value, the array after the adapter stored its bytes, and the transport. -/
def mxl692_i2c_read (bus : Bus) (pBuffer : List Nat) (off bufferLen : Nat) :
    Int × List Nat × Bus :=
  let r := i2c_transfer bus (I2cMsg.read bufferLen)
  (r.1.ret, memcpy pBuffer off (r.1.data.map (fun b => b % 256)) (min bufferLen r.1.data.length),
    r.2)

/-! ## Pipe access -/

/-- The function `mxl692_opwrite(dev, pBuffer, size)`; `none` when the copy
into the 58-byte `localBuf` would run past it or past `pBuffer`. -/
def mxl692_opwrite (bus : Bus) (pBuffer : List Nat) (size : Nat) : Option (Int × Bus) :=
  let totalLen := (size + 3) / 4 * 4
  if MXL_EAGLE_MAX_I2C_PACKET_SIZE < totalLen + 2 ∨ pBuffer.length < totalLen then none
  else
    let localBuf := List.replicate MXL_EAGLE_MAX_I2C_PACKET_SIZE 0
    let localBuf := (localBuf.set 0 0xFE).set 1 (totalLen % 256)
    let localBuf := memcpy localBuf 2 pBuffer totalLen
    let localBuf := convert_endian totalLen localBuf 2
    let w := mxl692_i2c_write bus localBuf (totalLen + MXL_EAGLE_I2C_PHEADER_SIZE)
    if w.1 < 0 then some (- EREMOTEIO, w.2) else some (0, w.2)

/-- The 4-byte read loop of `mxl692_opread`, `n` iterations from index `ix`;
`none` when a read would store past the end of `pBuffer`. -/
def opreadLoop : Nat → Nat → Bus → List Nat → Option (Int × List Nat × Bus)
  | 0, _, bus, pBuffer => some (0, pBuffer, bus)
  | n + 1, ix, bus, pBuffer =>
    if pBuffer.length < ix + 4 then none
    else
      let r := mxl692_i2c_read bus pBuffer ix 4
      if r.1 < 0 then some (- EREMOTEIO, r.2.1, r.2.2)
      else opreadLoop n (ix + 4) r.2.2 r.2.1

/-- The function `mxl692_opread(dev, pBuffer, size)`: status, the array after
the call and the transport. -/
def mxl692_opread (bus : Bus) (pBuffer : List Nat) (size : Nat) :
    Option (Int × List Nat × Bus) :=
  let w := mxl692_i2c_write bus [0xFD, 0] MXL_EAGLE_I2C_PHEADER_SIZE
  if 0 < w.1 then
    let size := (size + 3) / 4 * 4
    match opreadLoop (size / 4) 0 w.2 pBuffer with
    | none => none
    | some (st, buf, bus2) =>
      if st = 0 then some (0, convert_endian size buf 0, bus2) else some (st, buf, bus2)
  else some (- EREMOTEIO, pBuffer, w.2)

/-! ## Transaction engine -/

/-- The part of `struct mxl692_dev` the transaction engine owns. -/
structure mxl692_dev where
  seqNum : Int
deriving DecidableEq

/-- A C `int` after an arithmetic step (two's complement wrap-around). -/
def int32 (x : Int) : Int := (x + 2147483648) % 4294967296 - 2147483648

/-- The statements `txMsgHeader->seqNum = dev->seqNum++; if (dev->seqNum == 0)
dev->seqNum = 1;`: the byte stored in the header and the new device state. -/
def mxl692_next_seq (dev : mxl692_dev) : Nat × mxl692_dev :=
  let s := int32 (dev.seqNum + 1)
  ((dev.seqNum % 256).toNat, ⟨if s = 0 then 1 else s⟩)

/-- The transmit buffer `txBuffer` of `mxl692_i2c_writeread` at the moment it
is handed to `mxl692_opwrite`, for header sequence byte `seq`. -/
def txFrame (be : Bool) (opcode seq : Nat) (pTxPayload : Option (List Nat))
    (txPayloadSize : Nat) : List Nat :=
  let txBuffer := List.replicate MXL_EAGLE_MAX_I2C_PACKET_SIZE 0
  let txBuffer := store32 be txBuffer 4 0
  let txBuffer := txBuffer.set 0 (opcode % 256)
  let txBuffer := txBuffer.set 2 (txPayloadSize % 256)
  let txBuffer := txBuffer.set 1 (seq % 256)
  let txBuffer := match pTxPayload with
    | some p =>
      if txPayloadSize > 0 then memcpy txBuffer MXL_EAGLE_HOST_MSG_HEADER_SIZE p txPayloadSize
      else txBuffer
    | none => txBuffer
  let txBuffer := mxl692_tx_swap be opcode txBuffer
  let txBuffer := store32 be txBuffer 4 0
  store32 be txBuffer 4
    (mxl692_checksum be txBuffer (MXL_EAGLE_HOST_MSG_HEADER_SIZE + txPayloadSize))

/-- The polling `do ... while` loop of `mxl692_i2c_writeread` entered with
`timeout = n`: the final `timeout`, `status`, `rxBuffer` and transport. -/
def pollLoop (be : Bool) (size : Nat) : Nat → Bus → List Nat →
    Option (Int × Int × List Nat × Bus)
  | 0, bus, rxBuffer =>
    match mxl692_opread bus rxBuffer size with
    | none => none
    | some (st, rx, bus1) => some (-1, st, rx, bus1)
  | n + 1, bus, rxBuffer =>
    match mxl692_opread bus rxBuffer size with
    | none => none
    | some (st, rx, bus1) =>
      if 0 < n ∧ st = 0 ∧ rd rx 1 = 0 ∧ load32 be rx 4 = 0 then pollLoop be size n bus1 rx
      else some ((n : Int), st, rx, bus1)

/-- The validation and delivery part of `mxl692_i2c_writeread` (from the test
of the status field to the copy into the caller's buffer): the status and the
caller's buffer (`none` for a NULL pointer). The result is `none` when the
copy would run past the caller's buffer. -/
def checkResponse (be : Bool) (txBuffer rxBuffer : List Nat) (rxExpectedPayloadSize : Nat)
    (pRxPayload : Option (List Nat)) : Option (Int × Option (List Nat)) :=
  if rd rxBuffer 3 ≠ 0 then some ((rd rxBuffer 3 : Int), pRxPayload)
  else if rd rxBuffer 1 ≠ rd txBuffer 1 ∨ rd rxBuffer 0 ≠ rd txBuffer 0
      ∨ rd rxBuffer 2 ≠ rxExpectedPayloadSize then some (- EREMOTEIO, pRxPayload)
  else
    let responseChecksum := load32 be rxBuffer 4
    let rxBuffer := store32 be rxBuffer 4 0
    let calculatedResponseChecksum :=
      mxl692_checksum be rxBuffer (MXL_EAGLE_HOST_MSG_HEADER_SIZE + rd rxBuffer 2)
    if responseChecksum ≠ calculatedResponseChecksum then some (- EREMOTEIO, pRxPayload)
    else
      let rxBuffer := mxl692_rx_swap be (rd rxBuffer 0) rxBuffer
      if rd rxBuffer 2 > 0 then
        match pRxPayload with
        | none => some (- EREMOTEIO, none)
        | some buf =>
          if buf.length < rd rxBuffer 2 then none
          else some (0, some (memcpy buf 0 (rxBuffer.drop MXL_EAGLE_HOST_MSG_HEADER_SIZE)
            (rd rxBuffer 2)))
      else some (0, pRxPayload)

/-- What a call of `mxl692_i2c_writeread` leaves behind. -/
structure Outcome where
  status : Int
  dev : mxl692_dev
  bus : Bus
  pRxPayload : Option (List Nat)
deriving DecidableEq

/-- The function `mxl692_i2c_writeread(dev, opcode, pTxPayload, txPayloadSize,
pRxPayload, rxExpectedPayloadSize)`. A pointer argument is `none` for NULL and
otherwise the caller's array. -/
def mxl692_i2c_writeread (be : Bool) (dev : mxl692_dev) (bus : Bus) (opcode : Nat)
    (pTxPayload : Option (List Nat)) (txPayloadSize : Nat)
    (pRxPayload : Option (List Nat)) (rxExpectedPayloadSize : Nat) : Option Outcome :=
  if txPayloadSize + MXL_EAGLE_HOST_MSG_HEADER_SIZE >
      MXL_EAGLE_MAX_I2C_PACKET_SIZE - MXL_EAGLE_I2C_PHEADER_SIZE then
    some ⟨- EINVAL, dev, bus, pRxPayload⟩
  else if (pTxPayload.getD []).length < txPayloadSize ∧ pTxPayload ≠ none then none
  else
    let sq := mxl692_next_seq dev
    let txBuffer := txFrame be opcode sq.1 pTxPayload txPayloadSize
    match mxl692_opwrite bus txBuffer (txPayloadSize + MXL_EAGLE_HOST_MSG_HEADER_SIZE) with
    | none => none
    | some (st, bus1) =>
      if st ≠ 0 then some ⟨- EREMOTEIO, sq.2, bus1, pRxPayload⟩
      else
        match pollLoop be (rxExpectedPayloadSize + MXL_EAGLE_HOST_MSG_HEADER_SIZE) 40 bus1
            (List.replicate MXL_EAGLE_MAX_I2C_PACKET_SIZE 0) with
        | none => none
        | some (timeout, st, rxBuffer, bus2) =>
          if timeout = 0 ∨ st ≠ 0 then some ⟨- ETIMEDOUT, sq.2, bus2, pRxPayload⟩
          else
            match checkResponse be txBuffer rxBuffer rxExpectedPayloadSize pRxPayload with
            | none => none
            | some (st, rx) => some ⟨st, sq.2, bus2, rx⟩

/-- The number of pipe-read commands (`FD 00`) among the messages issued. -/
def pollCount (log : List I2cMsg) : Nat :=
  (log.filter (fun m => m = I2cMsg.write [0xFD, 0])).length


/-! ## Reference definitions for the checksum -/

/-- The four bytes at `off` read as one big-endian word. -/
def beWord (d : List Nat) (off : Nat) : Nat :=
  rd d off * 16777216 + rd d (off + 1) * 65536 + rd d (off + 2) * 256 + rd d (off + 3)

/-- The plain sum of the first `n` big-endian words of `d`. -/
def wordSum (d : List Nat) : Nat → Nat
  | 0 => 0
  | n + 1 => wordSum d n + beWord d (n * 4)

/-- The specification's sum: the consecutive 4-byte groups of the buffer, each
read as a big-endian word, added modulo `2 ^ 32`. -/
def beWordSum : List Nat → Nat
  | a :: b :: c :: e :: rest =>
    (a * 16777216 + b * 65536 + c * 256 + e + beWordSum rest) % 4294967296
  | _ => 0

/-- The specification's checksum: the big-endian word sum XOR `0xDEADBEEF`. -/
def specChecksum (buf : List Nat) : Nat := beWordSum buf ^^^ 0xDEADBEEF

/-- Every element of a byte array is below 256. -/
def Bytes (d : List Nat) : Prop := ∀ i, rd d i < 256

/-- Two arrays of the same length that agree from index 8 on. -/
def AgreeFrom8 (x y : List Nat) : Prop := x.length = y.length ∧ ∀ j, 8 ≤ j → rd x j = rd y j


/-! ## Transport behaviours -/

/-- The next `n` pipe reads of `size` bytes all succeed and each shows an empty
header: sequence number 0 and checksum 0. -/
def emptyPolls (be : Bool) (size : Nat) : Nat → Bus → List Nat → Bool
  | 0, _, _ => true
  | n + 1, bus, rxBuffer =>
    match mxl692_opread bus rxBuffer size with
    | none => false
    | some (st, rx, bus1) =>
      decide (st = 0) && decide (rd rx 1 = 0) && decide (load32 be rx 4 = 0)
        && emptyPolls be size n bus1 rx

/-- The next `n` pipe reads of `size` bytes all succeed and each leaves the
frame `G` in the receive buffer. -/
def deliversAll (size : Nat) (G : List Nat) : Nat → Bus → List Nat → Bool
  | 0, _, _ => true
  | n + 1, bus, rxBuffer =>
    match mxl692_opread bus rxBuffer size with
    | none => false
    | some (st, rx, bus1) =>
      decide (st = 0) && decide (rx = G) && deliversAll size G n bus1 rx


/-! ## Concrete transports -/

/-- The opcodes for which `mxl692_rx_swap` has a `case`. -/
def rxRuleOpcodes : List Nat :=
  [MXL_EAGLE_OPCODE_TUNER_AGC_STATUS_GET, MXL_EAGLE_OPCODE_ATSC_STATUS_GET,
   MXL_EAGLE_OPCODE_ATSC_ERROR_COUNTERS_GET, MXL_EAGLE_OPCODE_ATSC_EQUALIZER_FILTER_FFE_TAPS_GET,
   MXL_EAGLE_OPCODE_QAM_STATUS_GET, MXL_EAGLE_OPCODE_QAM_ERROR_COUNTERS_GET,
   MXL_EAGLE_OPCODE_QAM_CONSTELLATION_VALUE_GET,
   MXL_EAGLE_OPCODE_QAM_EQUALIZER_FILTER_DFE_START_GET,
   MXL_EAGLE_OPCODE_QAM_EQUALIZER_FILTER_DFE_MIDDLE_GET,
   MXL_EAGLE_OPCODE_QAM_EQUALIZER_FILTER_DFE_END_GET,
   MXL_EAGLE_OPCODE_QAM_EQUALIZER_FILTER_SPUR_START_GET,
   MXL_EAGLE_OPCODE_QAM_EQUALIZER_FILTER_SPUR_END_GET,
   MXL_EAGLE_OPCODE_QAM_EQUALIZER_FILTER_FFE_GET, MXL_EAGLE_OPCODE_OOB_ERROR_COUNTERS_GET,
   MXL_EAGLE_OPCODE_OOB_STATUS_GET, MXL_EAGLE_OPCODE_SMA_RECEIVE_GET]

/-- The empty 58-byte receive buffer `rxBuffer` at the start of a transaction. -/
def rxBuffer0 : List Nat := List.replicate MXL_EAGLE_MAX_I2C_PACKET_SIZE 0

/-- Adapter replies to one pipe read of 8 bytes that finds an empty header. -/
def emptyPoll : List I2cReply := [⟨1, []⟩, ⟨1, [0, 0, 0, 0]⟩, ⟨1, [0, 0, 0, 0]⟩]

/-- Adapter replies to one pipe read of 8 bytes that finds the valid response
to opcode 8 (`DEVICE_STATUS_GET`), sequence number 1, no payload: the frame
`08 01 00 00 D6 AC BE EF`, each 4-byte group reversed on the wire. -/
def goodPoll : List I2cReply := [⟨1, []⟩, ⟨1, [0, 0, 1, 8]⟩, ⟨1, [0xEF, 0xBE, 0xAC, 0xD6]⟩]

/-- A transport that accepts the request, shows an empty header on the first
`k - 1` polls, the valid response on poll `k`, and empty headers afterwards. -/
def lateBus (k : Nat) : Bus :=
  ⟨⟨1, []⟩ :: ((List.replicate (k - 1) emptyPoll).flatten ++ goodPoll
    ++ (List.replicate (40 - k) emptyPoll).flatten), []⟩

/-- Adapter replies to one pipe read of 12 bytes that finds the frame
`08 00 04 00 00 00 00 00 D6 AD BA EF`. -/
def zeroSeqPoll : List I2cReply :=
  [⟨1, []⟩, ⟨1, [0, 4, 0, 8]⟩, ⟨1, [0, 0, 0, 0]⟩, ⟨1, [0xEF, 0xBA, 0xAD, 0xD6]⟩]

/-- A transport that accepts the request and answers every one of 40 polls with
the frame of `zeroSeqPoll`. -/
def zeroSeqBus : Bus := ⟨⟨1, []⟩ :: (List.replicate 40 zeroSeqPoll).flatten, []⟩

/-- The frame of `zeroSeqPoll` as it stands in `rxBuffer`: opcode 8, sequence
number 0, payload size 4, status 0, checksum field 0. -/
def zeroSeqFrame : List Nat :=
  [8, 0, 4, 0, 0, 0, 0, 0, 0xD6, 0xAD, 0xBA, 0xEF] ++ List.replicate 46 0

/-- Adapter replies to one pipe read of 8 bytes that finds a header with
sequence number 0 and checksum field `00 00 00 01`. -/
def checksumOnlyPoll : List I2cReply := [⟨1, []⟩, ⟨1, [0, 0, 0, 0]⟩, ⟨1, [1, 0, 0, 0]⟩]

/-- A transport that accepts the request and answers every one of 40 polls with
the header of `checksumOnlyPoll`. -/
def checksumOnlyBus : Bus := ⟨⟨1, []⟩ :: (List.replicate 40 checksumOnlyPoll).flatten, []⟩

/-- A transport that accepts the request and answers 40 polls with empty headers. -/
def silentBus : Bus := ⟨⟨1, []⟩ :: (List.replicate 40 emptyPoll).flatten, []⟩

/-- A transport that accepts a request and answers one pipe read of 12 bytes
with the frame `26 01 04 00 F9 AE B9 EB 01 02 03 04`: the valid response to
opcode 38 (`SMA_RECEIVE_GET`), sequence number 1, with payload `01 02 03 04`. -/
def echoBus : Bus :=
  ⟨[⟨1, []⟩, ⟨1, []⟩, ⟨1, [0, 4, 1, 38]⟩, ⟨1, [0xEB, 0xB9, 0xAE, 0xF9]⟩, ⟨1, [4, 3, 2, 1]⟩], []⟩

/-- The response frame of `echoBus` as it stands in `rxBuffer`. -/
def echoFrame : List Nat :=
  [38, 1, 4, 0, 0xF9, 0xAE, 0xB9, 0xEB, 1, 2, 3, 4] ++ List.replicate 46 0

/-- The message that carries the request of opcode 38, sequence number 1, no payload. -/
def echoRequest : I2cMsg := I2cMsg.write [254, 8, 0, 0, 1, 38, 239, 190, 172, 248]

/-- The messages of one pipe read of 12 bytes. -/
def poll12 : List I2cMsg :=
  [I2cMsg.write [253, 0], I2cMsg.read 4, I2cMsg.read 4, I2cMsg.read 4]

/-- A transport that accepts a request of opcode 38 and answers every one of 40
polls with `echoFrame` whose payload byte 0 is changed from `01` to `05`. -/
def corruptBus : Bus :=
  ⟨⟨1, []⟩ :: (List.replicate 40 [(⟨1, []⟩ : I2cReply), ⟨1, [0, 4, 1, 38]⟩,
    ⟨1, [0xEB, 0xB9, 0xAE, 0xF9]⟩, ⟨1, [4, 3, 2, 5]⟩]).flatten, []⟩

/-- A transport that accepts the request of opcode 8 and answers the first poll
with the frame `08 01 00 07 00 00 00 01`: status 7. -/
def statusBus : Bus := ⟨[⟨1, []⟩, ⟨1, []⟩, ⟨1, [7, 0, 1, 8]⟩, ⟨1, [1, 0, 0, 0]⟩], []⟩

/-- A transport that accepts the request of opcode 8 and answers the first poll
with the frame `08 02 00 00 00 00 00 00`: sequence number 2. -/
def mismatchBus : Bus := ⟨[⟨1, []⟩, ⟨1, []⟩, ⟨1, [0, 0, 2, 8]⟩, ⟨1, [0, 0, 0, 0]⟩], []⟩

/-- The message that carries the request of opcode 8, sequence number 1, no payload. -/
def statusRequest : I2cMsg := I2cMsg.write [254, 8, 0, 0, 1, 8, 239, 190, 172, 214]

/-- The messages of one pipe read of 8 bytes. -/
def poll8 : List I2cMsg := [I2cMsg.write [253, 0], I2cMsg.read 4, I2cMsg.read 4]

/-- The engine after `n` transactions issued one after the other from the
initialised engine (`seqNum = 1`), each `DEVICE_STATUS_GET` without payload on
a transport whose transfers all fail: the device state and the messages of the
last transaction. -/
def issueN : Nat → Option (mxl692_dev × List I2cMsg)
  | 0 => some (⟨1⟩, [])
  | n + 1 =>
    match issueN n with
    | none => none
    | some s =>
      match mxl692_i2c_writeread false s.1 ⟨[], []⟩ 8 none 0 none 0 with
      | none => none
      | some o => some (o.dev, o.bus.log)


/-- The frame of `statusBus` as it stands in `rxBuffer`. -/
def statusFrame : List Nat := [8, 1, 0, 7, 0, 0, 0, 1] ++ List.replicate 50 0

/-- The frame of `mismatchBus` as it stands in `rxBuffer`. -/
def mismatchFrame : List Nat := [8, 2, 0, 0, 0, 0, 0, 0] ++ List.replicate 50 0

/-! ## The swap rules as tables of exchanged byte pairs -/

/-- The opcodes for which `mxl692_tx_swap` has a `case`. -/
def txRuleOpcodes : List Nat :=
  [MXL_EAGLE_OPCODE_DEVICE_INTR_MASK_SET, MXL_EAGLE_OPCODE_TUNER_CHANNEL_TUNE_SET,
   MXL_EAGLE_OPCODE_SMA_TRANSMIT_SET, MXL_EAGLE_OPCODE_QAM_PARAMS_SET]

/-- Exchange the two bytes of each pair of indices, one pair after the other. -/
def applyPairs (l : List (Nat × Nat)) (d : List Nat) : List Nat :=
  l.foldl (fun d q => xorSwap d q.1 q.2) d

/-- No index occurs twice in a list of index pairs. -/
def DisjointPairs (l : List (Nat × Nat)) : Prop :=
  l.Pairwise (fun q r => q.1 ≠ r.1 ∧ q.1 ≠ r.2 ∧ q.2 ≠ r.1 ∧ q.2 ≠ r.2) ∧ ∀ q ∈ l, q.1 ≠ q.2

/-- The pairs exchanged when the two bytes at `p` are reversed. -/
def group2 (p : Nat) : List (Nat × Nat) := [(p, p + 1)]

/-- The pairs exchanged when the four bytes at `p` are reversed. -/
def group4 (p : Nat) : List (Nat × Nat) := [(p, p + 3), (p + 1, p + 2)]

/-- The pairs exchanged by the first `n` rounds of the loop of
`convert_endian(size, d + p)`. -/
def ceLoopPairs (p : Nat) : Nat → List (Nat × Nat)
  | 0 => []
  | n + 1 => ceLoopPairs p n ++ [(p + 4 * n + 0, p + 4 * n + 3), (p + 4 * n + 1, p + 4 * n + 2)]

/-- The pairs exchanged by `convert_endian(size, d + p)`. -/
def cePairs (size p : Nat) : List (Nat × Nat) :=
  ceLoopPairs p (size / 4) ++
    match size % 4 with
    | 2 => [(p + 4 * (size / 4) + 0, p + 4 * (size / 4) + 1)]
    | 3 => [(p + 4 * (size / 4) + 0, p + 4 * (size / 4) + 2)]
    | _ => []

/-- The pairs exchanged by the first `k` rounds of the loop of
`convert_endian_n(n, size, d + p)`. -/
def cenLoopPairs (size p : Nat) : Nat → List (Nat × Nat)
  | 0 => []
  | k + 1 => cenLoopPairs size p k ++ cePairs size (p + k * size)

/-- The pairs exchanged by `convert_endian_n(n, size, d + p)`. -/
def cenPairs (n size p : Nat) : List (Nat × Nat) := cenLoopPairs size p ((n + size - 1) / size)

/-- The frame indices `mxl692_tx_swap` exchanges for an opcode. -/
def txPairs (be : Bool) (opcode : Nat) : List (Nat × Nat) :=
  if be then []
  else if opcode = MXL_EAGLE_OPCODE_DEVICE_INTR_MASK_SET
      ∨ opcode = MXL_EAGLE_OPCODE_TUNER_CHANNEL_TUNE_SET
      ∨ opcode = MXL_EAGLE_OPCODE_SMA_TRANSMIT_SET then group4 8
  else if opcode = MXL_EAGLE_OPCODE_QAM_PARAMS_SET then group4 13 ++ group4 17
  else []

/-- The frame indices `mxl692_rx_swap` exchanges for an opcode. -/
def rxPairs (be : Bool) (opcode : Nat) : List (Nat × Nat) :=
  if be then []
  else if opcode = MXL_EAGLE_OPCODE_TUNER_AGC_STATUS_GET then group4 9
  else if opcode = MXL_EAGLE_OPCODE_ATSC_STATUS_GET then group2 8 ++ group4 10
  else if opcode = MXL_EAGLE_OPCODE_ATSC_ERROR_COUNTERS_GET then
    group4 8 ++ group4 12 ++ group4 16
  else if opcode = MXL_EAGLE_OPCODE_ATSC_EQUALIZER_FILTER_FFE_TAPS_GET then
    (List.range 12).flatMap (fun k => group2 (8 + 2 * k))
  else if opcode = MXL_EAGLE_OPCODE_QAM_STATUS_GET then group2 16 ++ group4 18
  else if opcode = MXL_EAGLE_OPCODE_QAM_ERROR_COUNTERS_GET then
    (List.range 7).flatMap (fun k => group4 (8 + 4 * k))
  else if opcode = MXL_EAGLE_OPCODE_QAM_CONSTELLATION_VALUE_GET
      ∨ opcode = MXL_EAGLE_OPCODE_QAM_EQUALIZER_FILTER_DFE_START_GET
      ∨ opcode = MXL_EAGLE_OPCODE_QAM_EQUALIZER_FILTER_DFE_MIDDLE_GET
      ∨ opcode = MXL_EAGLE_OPCODE_QAM_EQUALIZER_FILTER_DFE_END_GET
      ∨ opcode = MXL_EAGLE_OPCODE_QAM_EQUALIZER_FILTER_SPUR_START_GET then
    (List.range 12).flatMap (fun k => group2 (8 + 2 * k))
  else if opcode = MXL_EAGLE_OPCODE_QAM_EQUALIZER_FILTER_SPUR_END_GET then
    (List.range 4).flatMap (fun k => group2 (8 + 2 * k))
  else if opcode = MXL_EAGLE_OPCODE_QAM_EQUALIZER_FILTER_FFE_GET then
    (List.range 9).flatMap (fun k => group2 (8 + 2 * k))
  else if opcode = MXL_EAGLE_OPCODE_OOB_ERROR_COUNTERS_GET then
    group4 8 ++ group4 12 ++ group4 16
  else if opcode = MXL_EAGLE_OPCODE_OOB_STATUS_GET then group2 8 ++ group4 10
  else if opcode = MXL_EAGLE_OPCODE_SMA_RECEIVE_GET then group4 8
  else []

/-! ## The remaining values of `enum MXL_EAGLE_OPCODE_E` -/

def MXL_EAGLE_OPCODE_DEVICE_DEMODULATOR_TYPE_SET : Nat := 0
def MXL_EAGLE_OPCODE_DEVICE_MPEG_OUT_PARAMS_SET : Nat := 1
def MXL_EAGLE_OPCODE_DEVICE_POWERMODE_SET : Nat := 2
def MXL_EAGLE_OPCODE_DEVICE_GPIO_DIRECTION_SET : Nat := 3
def MXL_EAGLE_OPCODE_DEVICE_GPO_LEVEL_SET : Nat := 4
def MXL_EAGLE_OPCODE_DEVICE_IO_MUX_SET : Nat := 6
def MXL_EAGLE_OPCODE_DEVICE_VERSION_GET : Nat := 7
def MXL_EAGLE_OPCODE_DEVICE_STATUS_GET : Nat := 8
def MXL_EAGLE_OPCODE_DEVICE_GPI_LEVEL_GET : Nat := 9
def MXL_EAGLE_OPCODE_TUNER_LOCK_STATUS_GET : Nat := 11
def MXL_EAGLE_OPCODE_ATSC_INIT_SET : Nat := 13
def MXL_EAGLE_OPCODE_ATSC_ACQUIRE_CARRIER_SET : Nat := 14
def MXL_EAGLE_OPCODE_ATSC_EQUALIZER_FILTER_DFE_TAPS_GET : Nat := 17
def MXL_EAGLE_OPCODE_QAM_RESTART_SET : Nat := 20
def MXL_EAGLE_OPCODE_QAM_EQUALIZER_FILTER_DFE_TAPS_NUMBER_GET : Nat := 27
def MXL_EAGLE_OPCODE_OOB_PARAMS_SET : Nat := 31
def MXL_EAGLE_OPCODE_OOB_RESTART_SET : Nat := 32
def MXL_EAGLE_OPCODE_SMA_INIT_SET : Nat := 35
def MXL_EAGLE_OPCODE_SMA_PARAMS_SET : Nat := 36
def MXL_EAGLE_OPCODE_INTERNAL : Nat := 39
def MXL_EAGLE_OPCODE_MAX : Nat := 70

/-- The opcodes of `enum MXL_EAGLE_OPCODE_E` whose name ends in `_GET`. -/
def getOpcodes : List Nat :=
  [MXL_EAGLE_OPCODE_DEVICE_VERSION_GET, MXL_EAGLE_OPCODE_DEVICE_STATUS_GET,
   MXL_EAGLE_OPCODE_DEVICE_GPI_LEVEL_GET, MXL_EAGLE_OPCODE_TUNER_LOCK_STATUS_GET,
   MXL_EAGLE_OPCODE_TUNER_AGC_STATUS_GET, MXL_EAGLE_OPCODE_ATSC_STATUS_GET,
   MXL_EAGLE_OPCODE_ATSC_ERROR_COUNTERS_GET,
   MXL_EAGLE_OPCODE_ATSC_EQUALIZER_FILTER_DFE_TAPS_GET,
   MXL_EAGLE_OPCODE_ATSC_EQUALIZER_FILTER_FFE_TAPS_GET, MXL_EAGLE_OPCODE_QAM_STATUS_GET,
   MXL_EAGLE_OPCODE_QAM_ERROR_COUNTERS_GET, MXL_EAGLE_OPCODE_QAM_CONSTELLATION_VALUE_GET,
   MXL_EAGLE_OPCODE_QAM_EQUALIZER_FILTER_FFE_GET,
   MXL_EAGLE_OPCODE_QAM_EQUALIZER_FILTER_SPUR_START_GET,
   MXL_EAGLE_OPCODE_QAM_EQUALIZER_FILTER_SPUR_END_GET,
   MXL_EAGLE_OPCODE_QAM_EQUALIZER_FILTER_DFE_TAPS_NUMBER_GET,
   MXL_EAGLE_OPCODE_QAM_EQUALIZER_FILTER_DFE_START_GET,
   MXL_EAGLE_OPCODE_QAM_EQUALIZER_FILTER_DFE_MIDDLE_GET,
   MXL_EAGLE_OPCODE_QAM_EQUALIZER_FILTER_DFE_END_GET, MXL_EAGLE_OPCODE_OOB_ERROR_COUNTERS_GET,
   MXL_EAGLE_OPCODE_OOB_STATUS_GET, MXL_EAGLE_OPCODE_SMA_RECEIVE_GET]

/-- The opcodes of `enum MXL_EAGLE_OPCODE_E` whose name ends in `_SET`. -/
def setOpcodes : List Nat :=
  [MXL_EAGLE_OPCODE_DEVICE_DEMODULATOR_TYPE_SET, MXL_EAGLE_OPCODE_DEVICE_MPEG_OUT_PARAMS_SET,
   MXL_EAGLE_OPCODE_DEVICE_POWERMODE_SET, MXL_EAGLE_OPCODE_DEVICE_GPIO_DIRECTION_SET,
   MXL_EAGLE_OPCODE_DEVICE_GPO_LEVEL_SET, MXL_EAGLE_OPCODE_DEVICE_INTR_MASK_SET,
   MXL_EAGLE_OPCODE_DEVICE_IO_MUX_SET, MXL_EAGLE_OPCODE_TUNER_CHANNEL_TUNE_SET,
   MXL_EAGLE_OPCODE_ATSC_INIT_SET, MXL_EAGLE_OPCODE_ATSC_ACQUIRE_CARRIER_SET,
   MXL_EAGLE_OPCODE_QAM_PARAMS_SET, MXL_EAGLE_OPCODE_QAM_RESTART_SET,
   MXL_EAGLE_OPCODE_OOB_PARAMS_SET, MXL_EAGLE_OPCODE_OOB_RESTART_SET,
   MXL_EAGLE_OPCODE_SMA_INIT_SET, MXL_EAGLE_OPCODE_SMA_PARAMS_SET,
   MXL_EAGLE_OPCODE_SMA_TRANSMIT_SET]

/-- A request frame for `TUNER_CHANNEL_TUNE_SET` in the host's memory: the
8-byte header and the 6 payload bytes of `MXL_EAGLE_TUNER_CHANNEL_PARAMS_T`
(`freqInHz` stored as `04 03 02 01`, `tuneMode` 1, `bandWidth` 6). -/
def tuneFrame : List Nat :=
  [10, 1, 6, 0, 0, 0, 0, 0, 4, 3, 2, 1, 1, 6] ++ List.replicate 44 0

/-- A response frame for `SMA_RECEIVE_GET` in the host's memory with the
payload `01 02 03 04`. -/
def smaFrame : List Nat := [38, 1, 4, 0, 0, 0, 0, 0, 1, 2, 3, 4] ++ List.replicate 46 0

/-! ## The request frame as the specification lays it out -/

/-- The 58-byte transmit buffer holding nothing but the first `sz` bytes of the
request payload, at offset 8 (all zero for a NULL payload pointer). -/
def payloadImage (pTxPayload : Option (List Nat)) (sz : Nat) : List Nat :=
  memcpy (List.replicate MXL_EAGLE_MAX_I2C_PACKET_SIZE 0) MXL_EAGLE_HOST_MSG_HEADER_SIZE
    (pTxPayload.getD []) sz

/-- The big-endian encoding of a 32-bit value. -/
def be32Bytes (x : Nat) : List Nat :=
  [x / 16777216 % 256, x / 65536 % 256, x / 256 % 256, x % 256]

/-- The specification's request frame with the checksum field zero: opcode,
sequence number, payload size, status 0, four zero bytes, and from byte 8 the
payload after the outgoing normalisation. -/
def unsealedLayout (be : Bool) (opcode seq : Nat) (pTxPayload : Option (List Nat))
    (sz : Nat) : List Nat :=
  [opcode, seq, sz, 0, 0, 0, 0, 0]
    ++ (mxl692_tx_swap be opcode (payloadImage pTxPayload sz)).drop 8

/-- The specification's request frame: as `unsealedLayout`, with bytes 4..7 the
big-endian encoding of the specification's checksum of the unsealed frame,
taken over 8 plus the payload size rounded up to whole words. -/
def frameLayout (be : Bool) (opcode seq : Nat) (pTxPayload : Option (List Nat))
    (sz : Nat) : List Nat :=
  [opcode, seq, sz, 0]
    ++ be32Bytes (specChecksum
        ((unsealedLayout be opcode seq pTxPayload sz).take ((8 + sz + 3) / 4 * 4)))
    ++ (mxl692_tx_swap be opcode (payloadImage pTxPayload sz)).drop 8

/-- The transmit buffer of `mxl692_i2c_writeread` once the header fields and
the payload are in place, before `mxl692_tx_swap` is applied. -/
def txFilled (be : Bool) (opcode seq : Nat) (pTxPayload : Option (List Nat))
    (txPayloadSize : Nat) : List Nat :=
  let txBuffer := List.replicate MXL_EAGLE_MAX_I2C_PACKET_SIZE 0
  let txBuffer := store32 be txBuffer 4 0
  let txBuffer := txBuffer.set 0 (opcode % 256)
  let txBuffer := txBuffer.set 2 (txPayloadSize % 256)
  let txBuffer := txBuffer.set 1 (seq % 256)
  match pTxPayload with
  | some p =>
    if txPayloadSize > 0 then memcpy txBuffer MXL_EAGLE_HOST_MSG_HEADER_SIZE p txPayloadSize
    else txBuffer
  | none => txBuffer

/-! ## More concrete transports -/

/-- A transport whose next 17 transfers succeed, each read delivering four zero
bytes: enough for the request, one pipe-read command and 15 reads. -/
def overflowBus : Bus := ⟨List.replicate 17 ⟨1, [0, 0, 0, 0]⟩, []⟩

/-- A transport whose first transfer fails with `-EIO`. -/
def deadBus : Bus := ⟨[⟨-5, []⟩, ⟨1, []⟩, ⟨1, [0, 0, 1, 8]⟩, ⟨1, [0xEF, 0xBE, 0xAC, 0xD6]⟩], []⟩

/-- A transport that accepts the request of opcode 38 and answers the first
poll with `echoFrame`, as `echoBus` does. -/
def echoPolled : Bus := ⟨[], echoRequest :: poll12⟩

/-! ## Firmware image validation -/

/-- The plain sum of the `n` image bytes from offset 16 on. -/
def fwByteSum (buffer : List Nat) : Nat → Nat
  | 0 => 0
  | n + 1 => fwByteSum buffer n + rd buffer (16 + n)

/-- The variable `temp` of `mxl692_validate_fw_header` after `n` rounds of the
loop `for (ix = 16; ix < bufferLen; ix++) temp += buffer[ix];`. -/
def fwSumLoop (buffer : List Nat) : Nat → Nat
  | 0 => 0
  | n + 1 => (fwSumLoop buffer n + rd buffer (16 + n)) % 4294967296

/-- The function `mxl692_validate_fw_header(buffer, bufferLen)` for an image
`buffer` that holds `bufferLen` bytes. -/
def mxl692_validate_fw_header (be : Bool) (buffer : List Nat) (bufferLen : Nat) : Int :=
  if rd buffer 0 ≠ 0x4D ∨ rd buffer 1 ≠ 0x31 ∨ rd buffer 2 ≠ 0x10 ∨ rd buffer 3 ≠ 0x02
      ∨ rd buffer 4 ≠ 0x40 ∨ rd buffer 5 ≠ 0x00 ∨ rd buffer 6 ≠ 0x00 ∨ rd buffer 7 ≠ 0x80 then
    - EINVAL
  else
    let temp := cpu_to_be32 be (load32 be buffer 8)
    if (bufferLen + 4294967296 - 16) % 4294967296 ≠ temp / 256 then - EINVAL
    else
      let temp := fwSumLoop buffer (bufferLen - 16)
      if temp % 256 ≠ rd buffer 11 then - EINVAL else 0

/-- The magic prefix of a firmware image. -/
def fwMagic : List Nat := [0x4D, 0x31, 0x10, 0x02, 0x40, 0x00, 0x00, 0x80]

/-- A firmware image of 20 bytes that passes validation: the magic prefix, the
length field `00 00 04`, the checksum byte `0A`, four unchecked header bytes
and the data `01 02 03 04`. -/
def goodImage : List Nat :=
  [0x4D, 0x31, 0x10, 0x02, 0x40, 0x00, 0x00, 0x80, 0, 0, 4, 10, 0, 0, 0, 0, 1, 2, 3, 4]

/-! ## Firmware download -/

def MXL_EAGLE_FW_MAX_SIZE_IN_KB : Nat := 76
def MXL_EAGLE_FW_HEADER_SIZE : Nat := 16
def MXL_EAGLE_FW_SEGMENT_HEADER_SIZE : Nat := 8

/-- The element `pBuffer[ix + k]` of the firmware image, the index computed in
`u32`; `none` outside the array. -/
def fwByte (pBuffer : List Nat) (ix k : Nat) : Option Nat :=
  pBuffer[(ix + k) % 4294967296]?

/-- The `while ((totalLen > 0) && (status == 0))` loop of
`mxl692_write_fw_block`, at most `fuel` rounds: the status, the index `ix` and
the transport. `localBuf` is the 58-byte envelope buffer, which keeps its
contents from one round to the next. The result is `none` when `memcpy` would
read past the image. Every round takes at least one byte off `totalLen`, so
with `fuel ≥ totalLen` the rounds are never used up. -/
def fwBlockLoop (be : Bool) (pBuffer : List Nat) (addr : Nat) :
    Nat → Nat → Nat → Nat → List Nat → Bus → Option (Int × Nat × Bus)
  | 0, totalLen, _, ix, _, bus => if totalLen > 0 then none else some (0, ix, bus)
  | fuel + 1, totalLen, prevChunkLen, ix, localBuf, bus =>
    if totalLen > 0 then
      let payload_max := MXL_EAGLE_MAX_I2C_PACKET_SIZE - MXL_EAGLE_I2C_MHEADER_SIZE
      let chunkLen := if totalLen < payload_max then totalLen else payload_max
      if pBuffer.length < ix + chunkLen then none
      else
        let localBuf := localBuf.set 0 0xFC
        let localBuf := localBuf.set 1 ((chunkLen + 4) % 256)
        let localBuf :=
          store32 be localBuf 2 (cpu_to_le32 be ((addr + prevChunkLen) % 4294967296))
        let localBuf := memcpy localBuf 6 (pBuffer.drop ix) chunkLen
        let localBuf := convert_endian chunkLen localBuf 6
        let w := mxl692_i2c_write bus localBuf (chunkLen + MXL_EAGLE_I2C_MHEADER_SIZE)
        if w.1 < 0 then some (- EREMOTEIO, ix, w.2)
        else
          fwBlockLoop be pBuffer addr fuel (totalLen - chunkLen)
            ((prevChunkLen + chunkLen) % 4294967296) ((ix + chunkLen) % 4294967296) localBuf w.2
    else some (0, ix, bus)

/-- The function `mxl692_write_fw_block(dev, pBuffer, bufferLen, &index)`: the
status, the value left in `*index` and the transport. The function does not
use `bufferLen`. For bytes, `a << 16 | b << 8 | c` is `a * 65536 + b * 256 + c`.
The result is `none` when a byte is read outside the image. -/
def mxl692_write_fw_block (be : Bool) (bus : Bus) (pBuffer : List Nat) (bufferLen : Nat)
    (index : Nat) : Option (Int × Nat × Bus) :=
  match fwByte pBuffer index 0 with
  | none => none
  | some m =>
    if m = 0x53 then do
      let b1 ← fwByte pBuffer index 1
      let b2 ← fwByte pBuffer index 2
      let b3 ← fwByte pBuffer index 3
      let totalLen := b1 * 65536 + b2 * 256 + b3
      let totalLen := (totalLen + 3) / 4 * 4
      let b4 ← fwByte pBuffer index 4
      let b5 ← fwByte pBuffer index 5
      let b6 ← fwByte pBuffer index 6
      let b7 ← fwByte pBuffer index 7
      let addr := b4 * 16777216 + b5 * 65536 + b6 * 256 + b7
      let ix := (index + MXL_EAGLE_FW_SEGMENT_HEADER_SIZE) % 4294967296
      fwBlockLoop be pBuffer addr totalLen totalLen 0 ix
        (List.replicate MXL_EAGLE_MAX_I2C_PACKET_SIZE 0) bus
    else some (- EINVAL, index, bus)

/-- The conversion of a `u32` value to `int` (two's complement). -/
def int_of_u32 (x : Nat) : Int :=
  if x % 4294967296 < 2147483648 then ((x % 4294967296 : Nat) : Int)
  else ((x % 4294967296 : Nat) : Int) - 4294967296

/-- The local `totalLen` of `mxl692_memwrite` after the statements
`totalLen = size; totalLen = (totalLen + 3) & ~3;` on the type `int`: a size of
`2^31` or more is a negative `int`, and the mask rounds down to a multiple of
4. For the three sizes from `2^31 - 3` the sum does not fit an `int`; its value
here is then above 52. -/
def memwrite_totalLen (size : Nat) : Int :=
  let t := int_of_u32 size + 3
  t - t % 4

/-- The function `mxl692_memwrite(dev, addr, pBuffer, size)`: the status and the
transport. The test `totalLen > 52` only prints a message. The result is `none`
when `memcpy` would store past the 58-byte `localBuf` (a negative `totalLen` is
a count above `2^63` for `memcpy`) or read past `pBuffer`. -/
def mxl692_memwrite (be : Bool) (bus : Bus) (addr : Nat) (pBuffer : List Nat) (size : Nat) :
    Option (Int × Bus) :=
  let totalLen := memwrite_totalLen size
  if totalLen < 0 then none
  else
    let totalLen := totalLen.toNat
    if MXL_EAGLE_MAX_I2C_PACKET_SIZE < MXL_EAGLE_I2C_MHEADER_SIZE + totalLen
        ∨ pBuffer.length < totalLen then none
    else
      let localBuf := List.replicate MXL_EAGLE_MAX_I2C_PACKET_SIZE 0
      let localBuf := localBuf.set 0 0xFC
      let localBuf := localBuf.set 1 ((totalLen + 4) % 256)
      let localBuf := store32 be localBuf 2 addr
      let localBuf := memcpy localBuf 6 pBuffer totalLen
      let localBuf := if be then convert_endian (4 + totalLen) localBuf 2 else localBuf
      let w := mxl692_i2c_write bus localBuf (totalLen + MXL_EAGLE_I2C_MHEADER_SIZE)
      if w.1 < 0 then some (- EREMOTEIO, w.2) else some (0, w.2)

/-- The function `mxl692_fwdownload(dev, pFwBuffer, bufferLen)`: the status,
the device state and the transport. The result is `none` when the image array
holds fewer than `bufferLen` bytes or a step reads outside it. -/
def mxl692_fwdownload (be : Bool) (dev : mxl692_dev) (bus : Bus) (pFwBuffer : List Nat)
    (bufferLen : Nat) : Option (Int × mxl692_dev × Bus) :=
  if bufferLen < MXL_EAGLE_FW_HEADER_SIZE ∨ bufferLen > MXL_EAGLE_FW_MAX_SIZE_IN_KB * 1000 then
    some (- EINVAL, dev, bus)
  else if pFwBuffer.length < bufferLen then none
  else
    let status := mxl692_validate_fw_header be pFwBuffer bufferLen
    if status ≠ 0 then some (status, dev, bus)
    else
      match mxl692_write_fw_block be bus pFwBuffer bufferLen 16 with
      | none => none
      | some (status, ix, bus1) =>
        if status ≠ 0 then some (status, dev, bus1)
        else
          match mxl692_write_fw_block be bus1 pFwBuffer bufferLen ix with
          | none => none
          | some (status, _, bus2) =>
            if status ≠ 0 then some (status, dev, bus2)
            else
              let regValue := store32 be [0, 0, 0, 0] 0 0x1
              match mxl692_memwrite be bus2 0x70000018 regValue 4 with
              | none => none
              | some (status, bus3) =>
                if status ≠ 0 then some (status, dev, bus3)
                else
                  match mxl692_i2c_writeread be dev bus3 MXL_EAGLE_OPCODE_DEVICE_STATUS_GET
                      none 0 (some (List.replicate MXL_EAGLE_MAX_I2C_PACKET_SIZE 0)) 4 with
                  | none => none
                  | some o => some (o.status, o.dev, o.bus)

/-! ## The firmware download as the specification lays it out -/

/-- The return value of the `j`-th coming transfer on the transport (`-EIO` once
the replies are used up). -/
def nextRet (bus : Bus) (j : Nat) : Int :=
  match bus.script[j]? with
  | some r => r.ret
  | none => -5

/-- The transport after `n` more transfers that carried the messages `msgs`. -/
def busAfter (bus : Bus) (n : Nat) (msgs : List I2cMsg) : Bus :=
  ⟨bus.script.drop n, bus.log ++ msgs⟩

/-- A length rounded up to a multiple of 4. -/
def align4 (n : Nat) : Nat := (n + 3) / 4 * 4

/-- The declared length of the segment whose sub-header starts at `ix`: the
big-endian 24-bit value in its bytes 1..3. -/
def segLength (pBuffer : List Nat) (ix : Nat) : Nat :=
  rd pBuffer (ix + 1) * 65536 + rd pBuffer (ix + 2) * 256 + rd pBuffer (ix + 3)

/-- The target address of the segment whose sub-header starts at `ix`: the
big-endian 32-bit value in its bytes 4..7. -/
def segAddress (pBuffer : List Nat) (ix : Nat) : Nat := beWord pBuffer (ix + 4)

/-- The specification's chunk count `ceil(len / 52)`. -/
def chunkCount (len : Nat) : Nat := (len + 51) / 52

/-- The payload length of chunk `k` of a segment of `totalLen` data bytes. -/
def chunkSize (totalLen k : Nat) : Nat := min 52 (totalLen - 52 * k)

/-- The little-endian encoding of a 32-bit value. -/
def le32Bytes (x : Nat) : List Nat :=
  [x % 256, x / 256 % 256, x / 65536 % 256, x / 16777216 % 256]

/-- The value whose little-endian encoding stands in bytes 2..5 of an envelope. -/
def envelopeAddress (env : List Nat) : Nat :=
  rd env 2 + rd env 3 * 256 + rd env 4 * 65536 + rd env 5 * 16777216

/-- A byte sequence with every complete 4-byte group reversed. -/
def reverseGroups : List Nat → List Nat
  | a :: b :: c :: e :: rest => e :: c :: b :: a :: reverseGroups rest
  | l => l

/-- The addressed-write envelope of chunk `k` of a segment whose `totalLen` data
bytes start at `start` and go to the address `addr`. -/
def chunkEnvelope (pBuffer : List Nat) (start addr totalLen k : Nat) : List Nat :=
  [0xFC, chunkSize totalLen k + 4] ++ le32Bytes ((addr + 52 * k) % 4294967296)
    ++ reverseGroups ((pBuffer.drop (start + 52 * k)).take (chunkSize totalLen k))

/-- The addressed writes of the segment whose sub-header starts at `ix`, in
order. -/
def segmentWrites (pBuffer : List Nat) (ix : Nat) : List (List Nat) :=
  (List.range (chunkCount (align4 (segLength pBuffer ix)))).map
    (chunkEnvelope pBuffer (ix + 8) (segAddress pBuffer ix) (align4 (segLength pBuffer ix)))

/-- The index of the second segment's sub-header: right after the 4-byte-aligned
data of the segment that starts at 16. -/
def secondSegment (pBuffer : List Nat) : Nat := 16 + 8 + align4 (segLength pBuffer 16)

/-- The addressed write that releases the CPU: the value 1 to `0x70000018`. -/
def cpuRelease : List Nat := [0xFC, 0x08, 0x18, 0x00, 0x00, 0x70, 0x01, 0x00, 0x00, 0x00]

/-- A segment with marker `53`: sub-header and data lie inside the image. -/
def SegmentAt (pBuffer : List Nat) (ix : Nat) : Prop :=
  rd pBuffer ix = 0x53 ∧ ix + 8 + align4 (segLength pBuffer ix) ≤ pBuffer.length

/-! ## A firmware image and transports for it -/

/-- A firmware image of 92 bytes that passes validation: the 16-byte header
(length field `00 00 4C`, checksum byte `27`), a segment of declared length 54
for the address `0xFFFFFFF0` with the data `01 .. 38` (56 bytes with the
padding), and a segment of declared length 4 for the address `0x10000000` with
the data `AA BB CC DD`. -/
def twoSegmentImage : List Nat :=
  [0x4D, 0x31, 0x10, 0x02, 0x40, 0x00, 0x00, 0x80, 0, 0, 0x4C, 0x27, 0, 0, 0, 0]
    ++ [0x53, 0, 0, 54, 0xFF, 0xFF, 0xFF, 0xF0] ++ List.range' 1 56
    ++ [0x53, 0, 0, 4, 0x10, 0, 0, 0] ++ [0xAA, 0xBB, 0xCC, 0xDD]

/-- The three chunk envelopes of `twoSegmentImage`. -/
def twoSegmentChunks : List (List Nat) :=
  [[0xFC, 56, 0xF0, 0xFF, 0xFF, 0xFF, 4, 3, 2, 1, 8, 7, 6, 5, 12, 11, 10, 9, 16, 15, 14, 13,
     20, 19, 18, 17, 24, 23, 22, 21, 28, 27, 26, 25, 32, 31, 30, 29, 36, 35, 34, 33,
     40, 39, 38, 37, 44, 43, 42, 41, 48, 47, 46, 45, 52, 51, 50, 49],
   [0xFC, 8, 0x24, 0, 0, 0, 56, 55, 54, 53],
   [0xFC, 8, 0, 0, 0, 0x10, 0xDD, 0xCC, 0xBB, 0xAA]]

/-- A transport on which the next `n` transfers succeed and the one after
fails with `-EIO`. -/
def failAfter (n : Nat) : Bus := ⟨List.replicate n ⟨1, []⟩ ++ [⟨-5, []⟩, ⟨1, []⟩], []⟩

/-- A transport that accepts six writes (three chunks, the CPU release, the
request, the pipe-read command) and answers the first poll with the frame
`08 01 04 00 D6 A9 BB E5 00 03 01 0A`: the valid response to
`DEVICE_STATUS_GET`, sequence number 1. -/
def aliveBus : Bus :=
  ⟨List.replicate 6 ⟨1, []⟩
    ++ [⟨1, [0, 4, 1, 8]⟩, ⟨1, [0xE5, 0xBB, 0xA9, 0xD6]⟩, ⟨1, [0x0A, 1, 3, 0]⟩], []⟩

/-- A firmware segment of declared length 50 at index 0: sub-header and 52
data bytes. -/
def segment50 : List Nat := [0x53, 0, 0, 50, 0x20, 0, 0, 0] ++ List.replicate 52 7

/-- A response frame for `ATSC_STATUS_GET` in the receive buffer: the header
and the 11 payload bytes `00 F1 | 00 05 | 00 01 86 A0 | 01 01 01` as they come
off the wire. -/
def atscFrame : List Nat :=
  [15, 1, 11, 0, 0, 0, 0, 0, 0x00, 0xF1, 0x00, 0x05, 0x00, 0x01, 0x86, 0xA0, 1, 1, 1]
    ++ List.replicate 39 0

/-! ## The messages of a poll -/

/-- The messages of one poll for an expected response of `r` payload bytes: the
pipe-read command `FD 00` and `ceil((8 + r) / 4)` reads of 4 bytes. -/
def pollMessages (r : Nat) : List I2cMsg :=
  I2cMsg.write [0xFD, 0] :: List.replicate ((8 + r + 3) / 4) (I2cMsg.read 4)

/-- The messages a call has added to the log of the transport. -/
def newMessages (before after : Bus) : List I2cMsg := after.log.drop before.log.length

/-! ## The engine's lock -/

/-- What a call does that other contexts can see: it takes the lock
`dev->i2c_lock`, releases it, or hands a message to the bus. -/
inductive Ev where
  | lock
  | unlock
  | bus (m : I2cMsg)
deriving DecidableEq

/-- Modelled from the spec: the kernel functions `mutex_lock` and `mutex_unlock`,
which are not among the sources: whether the lock is held after a sequence of
events that starts with the lock in the state `held`. The result is `none`
when the sequence takes the lock while it is held or releases it while it is
free. -/
def lockAfter : List Ev → Bool → Option Bool
  | [], held => some held
  | Ev.lock :: rest, held => if held then none else lockAfter rest true
  | Ev.unlock :: rest, held => if held then lockAfter rest false else none
  | Ev.bus _ :: rest, held => lockAfter rest held

/-- Every bus message of the sequence is issued while the lock is held, for a
sequence that starts with the lock in the state `held`. -/
def busUnderLock : List Ev → Bool → Bool
  | [], _ => true
  | Ev.lock :: rest, _ => busUnderLock rest true
  | Ev.unlock :: rest, _ => busUnderLock rest false
  | Ev.bus _ :: rest, held => held && busUnderLock rest held

/-- The bus messages of a sequence of events, in order. -/
def busMessages : List Ev → List I2cMsg
  | [] => []
  | Ev.bus m :: rest => m :: busMessages rest
  | _ :: rest => busMessages rest

/-- The label `err_finish` of `mxl692_i2c_writeread` and of
`mxl692_fwdownload`: `mutex_unlock(&dev->i2c_lock)` and return. -/
def err_finish {α : Type} (ev : List Ev) (result : α) : Option (List Ev × α) :=
  some (ev ++ [Ev.unlock], result)

/-- The function `mxl692_i2c_writeread` with its lock operations: the events of
the call, in order, and what the call leaves behind. Each sub-call contributes
the messages it put on the bus. -/
def mxl692_i2c_writeread_events (be : Bool) (dev : mxl692_dev) (bus : Bus) (opcode : Nat)
    (pTxPayload : Option (List Nat)) (txPayloadSize : Nat)
    (pRxPayload : Option (List Nat)) (rxExpectedPayloadSize : Nat) :
    Option (List Ev × Outcome) :=
  let ev := [Ev.lock]
  if txPayloadSize + MXL_EAGLE_HOST_MSG_HEADER_SIZE >
      MXL_EAGLE_MAX_I2C_PACKET_SIZE - MXL_EAGLE_I2C_PHEADER_SIZE then
    err_finish ev ⟨- EINVAL, dev, bus, pRxPayload⟩
  else if (pTxPayload.getD []).length < txPayloadSize ∧ pTxPayload ≠ none then none
  else
    let sq := mxl692_next_seq dev
    let txBuffer := txFrame be opcode sq.1 pTxPayload txPayloadSize
    match mxl692_opwrite bus txBuffer (txPayloadSize + MXL_EAGLE_HOST_MSG_HEADER_SIZE) with
    | none => none
    | some (st, bus1) =>
      let ev := ev ++ (newMessages bus bus1).map Ev.bus
      if st ≠ 0 then err_finish ev ⟨- EREMOTEIO, sq.2, bus1, pRxPayload⟩
      else
        match pollLoop be (rxExpectedPayloadSize + MXL_EAGLE_HOST_MSG_HEADER_SIZE) 40 bus1
            (List.replicate MXL_EAGLE_MAX_I2C_PACKET_SIZE 0) with
        | none => none
        | some (timeout, st, rxBuffer, bus2) =>
          let ev := ev ++ (newMessages bus1 bus2).map Ev.bus
          if timeout = 0 ∨ st ≠ 0 then err_finish ev ⟨- ETIMEDOUT, sq.2, bus2, pRxPayload⟩
          else
            match checkResponse be txBuffer rxBuffer rxExpectedPayloadSize pRxPayload with
            | none => none
            | some (st, rx) => err_finish ev ⟨st, sq.2, bus2, rx⟩

/-- The function `mxl692_fwdownload` with its lock operations: the events of
the call, in order, and its result. The size test returns before the lock is
taken; after the CPU release the lock is released and `mxl692_i2c_writeread`
takes it again. -/
def mxl692_fwdownload_events (be : Bool) (dev : mxl692_dev) (bus : Bus) (pFwBuffer : List Nat)
    (bufferLen : Nat) : Option (List Ev × (Int × mxl692_dev × Bus)) :=
  if bufferLen < MXL_EAGLE_FW_HEADER_SIZE ∨ bufferLen > MXL_EAGLE_FW_MAX_SIZE_IN_KB * 1000 then
    some ([], (- EINVAL, dev, bus))
  else if pFwBuffer.length < bufferLen then none
  else
    let ev := [Ev.lock]
    let status := mxl692_validate_fw_header be pFwBuffer bufferLen
    if status ≠ 0 then err_finish ev (status, dev, bus)
    else
      match mxl692_write_fw_block be bus pFwBuffer bufferLen 16 with
      | none => none
      | some (status, ix, bus1) =>
        let ev := ev ++ (newMessages bus bus1).map Ev.bus
        if status ≠ 0 then err_finish ev (status, dev, bus1)
        else
          match mxl692_write_fw_block be bus1 pFwBuffer bufferLen ix with
          | none => none
          | some (status, _, bus2) =>
            let ev := ev ++ (newMessages bus1 bus2).map Ev.bus
            if status ≠ 0 then err_finish ev (status, dev, bus2)
            else
              let regValue := store32 be [0, 0, 0, 0] 0 0x1
              match mxl692_memwrite be bus2 0x70000018 regValue 4 with
              | none => none
              | some (status, bus3) =>
                let ev := ev ++ (newMessages bus2 bus3).map Ev.bus
                if status ≠ 0 then err_finish ev (status, dev, bus3)
                else
                  let ev := ev ++ [Ev.unlock]
                  match mxl692_i2c_writeread_events be dev bus3
                      MXL_EAGLE_OPCODE_DEVICE_STATUS_GET none 0
                      (some (List.replicate MXL_EAGLE_MAX_I2C_PACKET_SIZE 0)) 4 with
                  | none => none
                  | some (ev2, o) => some (ev ++ ev2, (o.status, o.dev, o.bus))

/-! ## More frames, images and transports -/

/-- A response frame for `TUNER_AGC_STATUS_GET` in the receive buffer: the
header and the 5 payload bytes `01 | 12 34 | 56 78` as they come off the
wire. -/
def agcFrame : List Nat :=
  [12, 1, 5, 0, 0, 0, 0, 0, 0x01, 0x12, 0x34, 0x56, 0x78] ++ List.replicate 45 0

/-- A request frame for `QAM_PARAMS_SET` in the transmit buffer: the header and
the 13 payload bytes `01 02 03 04 05 | 11 12 13 14 | 21 22 23 24`. -/
def qamFrame : List Nat :=
  [19, 1, 13, 0, 0, 0, 0, 0, 1, 2, 3, 4, 5, 0x11, 0x12, 0x13, 0x14, 0x21, 0x22, 0x23, 0x24]
    ++ List.replicate 37 0

/-- A transport that accepts the request and the first pipe-read command and
fails the first 4-byte read with `-EIO`. -/
def readFailBus : Bus := ⟨[⟨1, []⟩, ⟨1, []⟩, ⟨-5, []⟩, ⟨1, [0, 0, 0, 0]⟩], []⟩

/-- A firmware image of 16 bytes that passes validation: the header alone, with
length field 0 and checksum byte 0. -/
def headerOnlyImage : List Nat :=
  [0x4D, 0x31, 0x10, 0x02, 0x40, 0x00, 0x00, 0x80, 0, 0, 0, 0, 0, 0, 0, 0]

/-- A firmware image of 28 bytes that passes validation: the header (length
field `00 00 0C`, checksum byte `85`) and one segment that declares 8 data
bytes for the address `0x20000000` but is followed by 4 bytes only. -/
def shortImage : List Nat :=
  [0x4D, 0x31, 0x10, 0x02, 0x40, 0x00, 0x00, 0x80, 0, 0, 0x0C, 0x85, 0, 0, 0, 0]
    ++ [0x53, 0, 0, 8, 0x20, 0, 0, 0] ++ [1, 2, 3, 4]

/-- A firmware image of 28 bytes that passes validation: the header (length
field `00 00 0C`, checksum byte `81`) and one segment of 4 data bytes
`01 02 03 04` for the address `0x20000000`. -/
def oneSegmentImage : List Nat :=
  [0x4D, 0x31, 0x10, 0x02, 0x40, 0x00, 0x00, 0x80, 0, 0, 0x0C, 0x81, 0, 0, 0, 0]
    ++ [0x53, 0, 0, 4, 0x20, 0, 0, 0] ++ [1, 2, 3, 4]

/-! # Theorems -/

/-! ## Arrays: reading, writing, extensionality -/

theorem rd_set (d : List Nat) (i j v : Nat) :
    rd (d.set i v) j = if i = j ∧ i < d.length then v else rd d j := by
  unfold rd
  simp only [List.getD_eq_getElem?_getD, List.getElem?_set]
  by_cases h : i = j
  · subst h
    by_cases hl : i < d.length
    · simp [hl]
    · simp [hl, List.getElem?_eq_none (Nat.le_of_not_lt hl)]
  · simp [h]

theorem rd_set_ne (d : List Nat) (i j v : Nat) (h : i ≠ j) : rd (d.set i v) j = rd d j := by
  rw [rd_set]; simp [h]

theorem rd_set_eq (d : List Nat) (i v : Nat) (h : i < d.length) : rd (d.set i v) i = v := by
  rw [rd_set]; simp [h]

theorem rd_of_le (d : List Nat) (i : Nat) (h : d.length ≤ i) : rd d i = 0 := by
  unfold rd
  simp [List.getD_eq_getElem?_getD, List.getElem?_eq_none h]

theorem ext_rd (d1 d2 : List Nat) (hl : d1.length = d2.length)
    (h : ∀ i, i < d1.length → rd d1 i = rd d2 i) : d1 = d2 := by
  apply List.ext_getElem hl
  intro i h1 h2
  have := h i h1
  unfold rd at this
  simpa [List.getD_eq_getElem?_getD, List.getElem?_eq_getElem h1,
    List.getElem?_eq_getElem h2] using this

theorem rd_replicate (n i : Nat) : rd (List.replicate n 0) i = 0 := by
  unfold rd
  by_cases h : i < n
  · simp [List.getD_eq_getElem?_getD, List.getElem?_replicate, h]
  · simp [List.getD_eq_getElem?_getD, List.getElem?_replicate, h]

theorem rd_drop (d : List Nat) (k i : Nat) : rd (d.drop k) i = rd d (k + i) := by
  unfold rd
  simp [List.getD_eq_getElem?_getD, List.getElem?_drop]

theorem rd_take (d : List Nat) (k i : Nat) (h : i < k) : rd (d.take k) i = rd d i := by
  unfold rd
  simp [List.getD_eq_getElem?_getD, List.getElem?_take, h]

@[simp] theorem length_store32 (be : Bool) (d : List Nat) (off v : Nat) :
    (store32 be d off v).length = d.length := by
  unfold store32; split <;> simp

theorem rd_store32_other (be : Bool) (d : List Nat) (off v i : Nat)
    (h : i < off ∨ off + 4 ≤ i) : rd (store32 be d off v) i = rd d i := by
  unfold store32
  split <;> (repeat rw [rd_set_ne _ _ _ _ (by omega)])

theorem load32_lt (be : Bool) (d : List Nat) (off : Nat) (h : ∀ i, rd d i < 256) :
    load32 be d off < 4294967296 := by
  have h0 := h off
  have h1 := h (off + 1)
  have h2 := h (off + 2)
  have h3 := h (off + 3)
  unfold load32
  split <;> omega

theorem load32_store32 (be : Bool) (d : List Nat) (off v : Nat) (hl : off + 3 < d.length)
    (hv : v < 4294967296) : load32 be (store32 be d off v) off = v := by
  unfold load32 store32
  cases be
  · simp only [Bool.false_eq_true, if_false]
    rw [rd_set_ne _ _ _ _ (by omega), rd_set_ne _ _ _ _ (by omega), rd_set_ne _ _ _ _ (by omega),
      rd_set_eq _ _ _ (by omega),
      rd_set_ne _ _ _ _ (by omega), rd_set_ne _ _ _ _ (by omega), rd_set_eq _ _ _ (by simp; omega),
      rd_set_ne _ _ _ _ (by omega), rd_set_eq _ _ _ (by simp; omega),
      rd_set_eq _ _ _ (by simp; omega)]
    omega
  · simp only [if_true]
    rw [rd_set_ne _ _ _ _ (by omega), rd_set_ne _ _ _ _ (by omega), rd_set_ne _ _ _ _ (by omega),
      rd_set_eq _ _ _ (by omega),
      rd_set_ne _ _ _ _ (by omega), rd_set_ne _ _ _ _ (by omega), rd_set_eq _ _ _ (by simp; omega),
      rd_set_ne _ _ _ _ (by omega), rd_set_eq _ _ _ (by simp; omega),
      rd_set_eq _ _ _ (by simp; omega)]
    omega

/-- Storing twice at the same place keeps the second value. -/
theorem store32_store32 (be : Bool) (d : List Nat) (off v w : Nat) :
    store32 be (store32 be d off v) off w = store32 be d off w := by
  apply ext_rd
  · simp
  · intro i _
    have hc : i < off ∨ i = off ∨ i = off + 1 ∨ i = off + 2 ∨ i = off + 3 ∨ off + 4 ≤ i := by
      omega
    rcases hc with h | h | h | h | h | h
    · rw [rd_store32_other _ _ _ _ _ (Or.inl h), rd_store32_other _ _ _ _ _ (Or.inl h),
        rd_store32_other _ _ _ _ _ (Or.inl h)]
    all_goals first
      | (rw [rd_store32_other _ _ _ _ _ (Or.inr h), rd_store32_other _ _ _ _ _ (Or.inr h),
          rd_store32_other _ _ _ _ _ (Or.inr h)])
      | (subst h
         unfold store32
         cases be <;> simp [rd_set] <;> split <;> rfl)


/-! ## The checksum as a sum of big-endian words -/

theorem swab32_lt (v : Nat) : swab32 v < 4294967296 := by
  unfold swab32; omega

theorem swab32_bytes (a b c e : Nat) (ha : a < 256) (hb : b < 256) (hc : c < 256)
    (he : e < 256) :
    swab32 (a + b * 256 + c * 65536 + e * 16777216) = e + c * 256 + b * 65536 + a * 16777216 := by
  unfold swab32; omega

theorem swab32_swab32 (v : Nat) (h : v < 4294967296) : swab32 (swab32 v) = v := by
  have e1 : v = v % 256 + (v / 256 % 256) * 256 + (v / 65536 % 256) * 65536
      + (v / 16777216 % 256) * 16777216 := by omega
  rw [e1, swab32_bytes _ _ _ _ (by omega) (by omega) (by omega) (by omega),
    swab32_bytes _ _ _ _ (by omega) (by omega) (by omega) (by omega)]

theorem swab32_inj (v w : Nat) (hv : v < 4294967296) (hw : w < 4294967296)
    (h : swab32 v = swab32 w) : v = w := by
  rw [← swab32_swab32 v hv, ← swab32_swab32 w hw, h]

theorem cpu_to_be32_load32 (be : Bool) (d : List Nat) (off : Nat) (h : Bytes d) :
    cpu_to_be32 be (load32 be d off) = beWord d off := by
  have h0 := h off
  have h1 := h (off + 1)
  have h2 := h (off + 2)
  have h3 := h (off + 3)
  unfold cpu_to_be32 load32 beWord
  cases be
  · simp only [Bool.false_eq_true, if_false]
    unfold swab32
    omega
  · simp only [if_true]

theorem checksumLoop_eq (be : Bool) (d : List Nat) (h : Bytes d) (n : Nat) :
    checksumLoop be d n = wordSum d n % 4294967296 := by
  induction n with
  | zero => rfl
  | succ n ih =>
    unfold checksumLoop wordSum
    rw [ih, cpu_to_be32_load32 be d _ h]
    omega

/-- The checksum reads whole words: `(size + 3) / 4` of them. -/
theorem mxl692_checksum_eq (be : Bool) (d : List Nat) (h : Bytes d) (size : Nat) :
    mxl692_checksum be d size
      = be32_to_cpu be ((wordSum d ((size + 3) / 4) % 4294967296) ^^^ 0xDEADBEEF) := by
  unfold mxl692_checksum
  simp only [checksumLoop_eq be d h, cpu_to_be32_load32 be d _ h]
  by_cases hr : size % 4 > 0
  · have e1 : (size + 3) / 4 = size / 4 + 1 := by omega
    have e2 : size - size % 4 = size / 4 * 4 := by omega
    simp only [hr, if_true, e1, e2, wordSum]
    congr 2
    omega
  · have e1 : (size + 3) / 4 = size / 4 := by omega
    simp only [hr, if_false, e1]

theorem mxl692_checksum_lt (be : Bool) (d : List Nat) (size : Nat) :
    mxl692_checksum be d size < 4294967296 := by
  unfold mxl692_checksum be32_to_cpu
  have hx : ∀ s, s < 4294967296 → s ^^^ 0xDEADBEEF < 4294967296 := by
    intro s hs
    exact Nat.xor_lt_two_pow (n := 32) hs (by norm_num)
  have hs : (if size % 4 > 0 then
      (checksumLoop be d (size / 4) + cpu_to_be32 be (load32 be d (size - size % 4)))
        % 4294967296
    else checksumLoop be d (size / 4)) < 4294967296 := by
    split
    · omega
    · cases hq : size / 4 with
      | zero => simp [checksumLoop]
      | succ k => unfold checksumLoop; omega
  split
  · exact hx _ hs
  · exact swab32_lt _

/-- The checksum depends only on the words it reads. -/
theorem wordSum_congr (d1 d2 : List Nat) (n : Nat)
    (h : ∀ i, i < n * 4 → rd d1 i = rd d2 i) : wordSum d1 n = wordSum d2 n := by
  induction n with
  | zero => rfl
  | succ n ih =>
    unfold wordSum beWord
    rw [ih (fun i hi => h i (by omega)), h (n * 4) (by omega), h (n * 4 + 1) (by omega),
      h (n * 4 + 2) (by omega), h (n * 4 + 3) (by omega)]

theorem checksumLoop_congr (be : Bool) (d1 d2 : List Nat) (n : Nat)
    (h : ∀ i, i < n * 4 → rd d1 i = rd d2 i) : checksumLoop be d1 n = checksumLoop be d2 n := by
  induction n with
  | zero => rfl
  | succ n ih =>
    unfold checksumLoop load32
    rw [ih (fun i hi => h i (by omega)), h (n * 4) (by omega), h (n * 4 + 1) (by omega),
      h (n * 4 + 2) (by omega), h (n * 4 + 3) (by omega)]

theorem mxl692_checksum_congr (be : Bool) (d1 d2 : List Nat) (size : Nat)
    (h : ∀ i, i < (size + 3) / 4 * 4 → rd d1 i = rd d2 i) :
    mxl692_checksum be d1 size = mxl692_checksum be d2 size := by
  unfold mxl692_checksum
  rw [checksumLoop_congr be d1 d2 (size / 4) (fun i hi => h i (by omega))]
  by_cases hr : size % 4 > 0
  · simp only [hr, if_true]
    unfold load32
    rw [h (size - size % 4) (by omega), h (size - size % 4 + 1) (by omega),
      h (size - size % 4 + 2) (by omega), h (size - size % 4 + 3) (by omega)]
  · simp only [hr, if_false]

/-- Rounding the size up to the next multiple of 4 does not change the checksum. -/
theorem mxl692_checksum_round (be : Bool) (d : List Nat) (size : Nat) :
    mxl692_checksum be d size = mxl692_checksum be d ((size + 3) / 4 * 4) := by
  unfold mxl692_checksum
  by_cases hr : size % 4 > 0
  · have e1 : (size + 3) / 4 * 4 / 4 = size / 4 + 1 := by omega
    have e2 : (size + 3) / 4 * 4 % 4 = 0 := by omega
    have e3 : size - size % 4 = size / 4 * 4 := by omega
    simp only [hr, if_true, e1, e2, e3, checksumLoop, gt_iff_lt, Nat.lt_irrefl, if_false]
  · have e1 : (size + 3) / 4 * 4 = size := by omega
    rw [e1]

theorem beWord_set_other (d : List Nat) (i v off : Nat) (h : i < off ∨ off + 4 ≤ i) :
    beWord (d.set i v) off = beWord d off := by
  unfold beWord
  rw [rd_set_ne _ _ _ _ (by omega), rd_set_ne _ _ _ _ (by omega), rd_set_ne _ _ _ _ (by omega),
    rd_set_ne _ _ _ _ (by omega)]

/-- Changing one byte shifts the word that holds it by the byte's weight. -/
theorem beWord_set_in (d : List Nat) (i v off : Nat) (h1 : off ≤ i) (h2 : i < off + 4)
    (hl : i < d.length) :
    beWord (d.set i v) off + rd d i * 256 ^ (3 - (i - off))
      = beWord d off + v * 256 ^ (3 - (i - off)) := by
  have hc : i = off ∨ i = off + 1 ∨ i = off + 2 ∨ i = off + 3 := by omega
  unfold beWord
  rcases hc with h | h | h | h
  · subst h
    rw [rd_set_eq _ _ _ hl, rd_set_ne _ _ _ _ (by omega), rd_set_ne _ _ _ _ (by omega),
      rd_set_ne _ _ _ _ (by omega)]
    simp only [Nat.sub_self, Nat.sub_zero]
    norm_num
    omega
  · subst h
    rw [rd_set_eq _ _ _ hl, rd_set_ne _ _ _ _ (by omega), rd_set_ne _ _ _ _ (by omega),
      rd_set_ne _ _ _ _ (by omega)]
    simp only [Nat.add_sub_cancel_left]
    norm_num
    omega
  · subst h
    rw [rd_set_eq _ _ _ hl, rd_set_ne _ _ _ _ (by omega), rd_set_ne _ _ _ _ (by omega),
      rd_set_ne _ _ _ _ (by omega)]
    simp only [Nat.add_sub_cancel_left]
    norm_num
    omega
  · subst h
    rw [rd_set_eq _ _ _ hl, rd_set_ne _ _ _ _ (by omega), rd_set_ne _ _ _ _ (by omega),
      rd_set_ne _ _ _ _ (by omega)]
    simp only [Nat.add_sub_cancel_left]
    norm_num
    omega

theorem wordSum_set (d : List Nat) (i v n : Nat) (hi : i < n * 4) (hl : i < d.length) :
    wordSum (d.set i v) n + rd d i * 256 ^ (3 - i % 4)
      = wordSum d n + v * 256 ^ (3 - i % 4) := by
  induction n with
  | zero => omega
  | succ n ih =>
    unfold wordSum
    by_cases hc : i < n * 4
    · have := ih hc
      rw [beWord_set_other d i v (n * 4) (Or.inl hc)]
      omega
    · have hw : wordSum (d.set i v) n = wordSum d n :=
        wordSum_congr _ _ _ (fun j hj => rd_set_ne _ _ _ _ (by omega))
      have hb := beWord_set_in d i v (n * 4) (by omega) (by omega) hl
      have e : i - n * 4 = i % 4 := by omega
      rw [e] at hb
      rw [hw]
      omega

/-- A single changed byte inside the summed words changes the checksum. -/
theorem mxl692_checksum_set_ne (be : Bool) (d : List Nat) (hd : Bytes d) (i v size : Nat)
    (hi : i < size) (hl : i < d.length) (hv : v < 256) (hne : v ≠ rd d i) :
    mxl692_checksum be (d.set i v) size ≠ mxl692_checksum be d size := by
  have hd2 : Bytes (d.set i v) := by
    intro j
    rw [rd_set]
    split
    · exact hv
    · exact hd j
  rw [mxl692_checksum_eq be _ hd2, mxl692_checksum_eq be _ hd]
  intro h
  have hx : wordSum (d.set i v) ((size + 3) / 4) % 4294967296
      = wordSum d ((size + 3) / 4) % 4294967296 := by
    unfold be32_to_cpu at h
    cases be
    · simp only [Bool.false_eq_true, if_false] at h
      have h2 := swab32_inj _ _
        (Nat.xor_lt_two_pow (n := 32) (Nat.mod_lt _ (by norm_num)) (by norm_num))
        (Nat.xor_lt_two_pow (n := 32) (Nat.mod_lt _ (by norm_num)) (by norm_num)) h
      exact Nat.xor_left_injective h2
    · simp only [if_true] at h
      exact Nat.xor_left_injective h
  have hs := wordSum_set d i v ((size + 3) / 4) (by omega) hl
  have hb := hd i
  have hc : i % 4 = 0 ∨ i % 4 = 1 ∨ i % 4 = 2 ∨ i % 4 = 3 := by omega
  rcases hc with e | e | e | e <;> rw [e] at hs <;> norm_num at hs <;> omega


/-! ## Locality of the buffer operations -/

theorem foldl_range_inv {α : Type} (P : α → Prop) (f : α → Nat → α)
    (h : ∀ d k, P d → P (f d k)) (d : α) (n : Nat) (h0 : P d) :
    P ((List.range n).foldl f d) := by
  induction n with
  | zero => simpa using h0
  | succ n ih =>
    rw [List.range_succ, List.foldl_append]
    exact h _ _ ih

theorem bytes_of_forall (d : List Nat) (h : ∀ b ∈ d, b < 256) : Bytes d := by
  intro i
  unfold rd
  rw [List.getD_eq_getElem?_getD]
  by_cases hi : i < d.length
  · rw [List.getElem?_eq_getElem hi]
    exact h _ (List.getElem_mem hi)
  · rw [List.getElem?_eq_none (Nat.le_of_not_lt hi)]
    simp

theorem bytes_replicate (n : Nat) : Bytes (List.replicate n 0) := by
  intro i; rw [rd_replicate]; omega

theorem bytes_set (d : List Nat) (i v : Nat) (hd : Bytes d) (hv : v < 256) :
    Bytes (d.set i v) := by
  intro j
  rw [rd_set]
  split
  · exact hv
  · exact hd j

theorem bytes_store32 (be : Bool) (d : List Nat) (off v : Nat) (hd : Bytes d) :
    Bytes (store32 be d off v) := by
  unfold store32
  split <;>
    exact bytes_set _ _ _ (bytes_set _ _ _ (bytes_set _ _ _ (bytes_set _ _ _ hd
      (by omega)) (by omega)) (by omega)) (by omega)

@[simp] theorem length_memcpy (dst : List Nat) (off : Nat) (src : List Nat) (n : Nat) :
    (memcpy dst off src n).length = dst.length := by
  unfold memcpy
  exact foldl_range_inv (fun d : List Nat => d.length = dst.length)
    (fun d i => d.set (off + i) (rd src i))
    (fun d k hd => by simpa using hd) dst n rfl

theorem rd_memcpy (dst : List Nat) (off : Nat) (src : List Nat) (n j : Nat) :
    rd (memcpy dst off src n) j
      = if off ≤ j ∧ j < off + n ∧ j < dst.length then rd src (j - off) else rd dst j := by
  unfold memcpy
  induction n with
  | zero =>
    have : ¬ (off ≤ j ∧ j < off + 0 ∧ j < dst.length) := by omega
    rw [if_neg this]
    rfl
  | succ n ih =>
    rw [List.range_succ, List.foldl_append]
    simp only [List.foldl_cons, List.foldl_nil]
    rw [rd_set, ih]
    have hlen : ((List.range n).foldl (fun d i => d.set (off + i) (rd src i)) dst).length
        = dst.length := length_memcpy dst off src n
    rw [hlen]
    by_cases h1 : off + n = j
    · subst h1
      by_cases h2 : off + n < dst.length
      · simp [h2]
      · simp [h2]
    · by_cases h3 : off ≤ j ∧ j < off + n ∧ j < dst.length
      · have h4 : off ≤ j ∧ j < off + (n + 1) ∧ j < dst.length := by omega
        simp [h1, h3, h4]
      · have h4 : ¬ (off ≤ j ∧ j < off + (n + 1) ∧ j < dst.length) := by omega
        simp [h1, h3, h4]

theorem bytes_memcpy (dst : List Nat) (off : Nat) (src : List Nat) (n : Nat)
    (hd : Bytes dst) (hs : Bytes src) : Bytes (memcpy dst off src n) := by
  intro j
  rw [rd_memcpy]
  split
  · exact hs _
  · exact hd _

/-- Copying to the start of a large enough array replaces exactly its first `n` bytes. -/
theorem memcpy_zero (dst src : List Nat) (n : Nat) (h1 : n ≤ dst.length) (h2 : n ≤ src.length) :
    memcpy dst 0 src n = src.take n ++ dst.drop n := by
  apply ext_rd
  · simp; omega
  · intro i _
    rw [rd_memcpy]
    unfold rd
    simp only [List.getD_eq_getElem?_getD]
    by_cases hi : i < n
    · have : 0 ≤ i ∧ i < 0 + n ∧ i < dst.length := by omega
      rw [if_pos this, List.getElem?_append_left (by simp; omega), List.getElem?_take]
      simp [hi]
    · have : ¬ (0 ≤ i ∧ i < 0 + n ∧ i < dst.length) := by omega
      rw [if_neg this, List.getElem?_append_right (by simp; omega), List.getElem?_drop]
      simp only [List.length_take]
      congr 2
      omega

@[simp] theorem length_xorSwap (d : List Nat) (a b : Nat) : (xorSwap d a b).length = d.length := by
  unfold xorSwap; simp

theorem rd_xorSwap_other (d : List Nat) (a b j : Nat) (ha : j ≠ a) (hb : j ≠ b) :
    rd (xorSwap d a b) j = rd d j := by
  unfold xorSwap
  simp only
  rw [rd_set_ne _ _ _ _ (Ne.symm ha), rd_set_ne _ _ _ _ (Ne.symm hb),
    rd_set_ne _ _ _ _ (Ne.symm ha)]

theorem xor_byte_lt (x y : Nat) (hx : x < 256) (hy : y < 256) : x ^^^ y < 256 :=
  Nat.xor_lt_two_pow (n := 8) hx hy

theorem bytes_xorSwap (d : List Nat) (a b : Nat) (hd : Bytes d) : Bytes (xorSwap d a b) := by
  unfold xorSwap
  simp only
  have h1 : Bytes (d.set a (rd d a ^^^ rd d b)) :=
    bytes_set _ _ _ hd (xor_byte_lt _ _ (hd _) (hd _))
  have h2 := bytes_set _ b _ h1 (xor_byte_lt _ _ (h1 b) (h1 a))
  exact bytes_set _ a _ h2 (xor_byte_lt _ _ (h2 a) (h2 b))

@[simp] theorem length_convert_endian (size : Nat) (d : List Nat) (p : Nat) :
    (convert_endian size d p).length = d.length := by
  unfold convert_endian
  simp only
  have h1 := foldl_range_inv (fun x : List Nat => x.length = d.length)
    (fun d k => xorSwap (xorSwap d (p + 4 * k + 0) (p + 4 * k + 3)) (p + 4 * k + 1)
      (p + 4 * k + 2))
    (fun x k hx => by simpa using hx) d (size / 4) rfl
  split
  · rw [length_xorSwap]; exact h1
  · rw [length_xorSwap]; exact h1
  · exact h1

theorem bytes_convert_endian (size : Nat) (d : List Nat) (p : Nat) (hd : Bytes d) :
    Bytes (convert_endian size d p) := by
  unfold convert_endian
  simp only
  have h1 := foldl_range_inv Bytes
    (fun d k => xorSwap (xorSwap d (p + 4 * k + 0) (p + 4 * k + 3)) (p + 4 * k + 1)
      (p + 4 * k + 2))
    (fun x k hx => bytes_xorSwap _ _ _ (bytes_xorSwap _ _ _ hx)) d (size / 4) hd
  split
  · exact bytes_xorSwap _ _ _ h1
  · exact bytes_xorSwap _ _ _ h1
  · exact h1

/-- The call `convert_endian(size, d + p)` leaves every byte outside
`p .. p + size - 1` alone. -/
theorem rd_convert_endian_other (size : Nat) (d : List Nat) (p j : Nat)
    (h : j < p ∨ p + size ≤ j) : rd (convert_endian size d p) j = rd d j := by
  unfold convert_endian
  simp only
  have h1 := foldl_range_inv (fun x : List Nat => rd x j = rd d j)
    (fun d k => if k < size / 4 then
      xorSwap (xorSwap d (p + 4 * k + 0) (p + 4 * k + 3)) (p + 4 * k + 1) (p + 4 * k + 2)
      else d)
    (fun x k hx => by
      show rd (if k < size / 4 then _ else x) j = rd d j
      split
      · rw [rd_xorSwap_other _ _ _ _ (by omega) (by omega),
          rd_xorSwap_other _ _ _ _ (by omega) (by omega), hx]
      · exact hx) d (size / 4) rfl
  have h2 : (List.range (size / 4)).foldl
      (fun d k => if k < size / 4 then
        xorSwap (xorSwap d (p + 4 * k + 0) (p + 4 * k + 3)) (p + 4 * k + 1) (p + 4 * k + 2)
        else d) d
      = (List.range (size / 4)).foldl
      (fun d k => xorSwap (xorSwap d (p + 4 * k + 0) (p + 4 * k + 3)) (p + 4 * k + 1)
        (p + 4 * k + 2)) d := by
    apply List.foldl_ext
    intro a b hb
    simp [List.mem_range.mp hb]
  rw [h2] at h1
  split
  · rw [rd_xorSwap_other _ _ _ _ (by omega) (by omega), h1]
  · rw [rd_xorSwap_other _ _ _ _ (by omega) (by omega), h1]
  · exact h1


/-! ## The swap rules touch the payload only -/

@[simp] theorem length_convert_endian_n (n size : Nat) (d : List Nat) (p : Nat) :
    (convert_endian_n n size d p).1.length = d.length := by
  unfold convert_endian_n
  exact foldl_range_inv (fun x : List Nat => x.length = d.length)
    (fun d k => convert_endian size d (p + k * size))
    (fun x k hx => by simpa using hx) d _ rfl

theorem bytes_convert_endian_n (n size : Nat) (d : List Nat) (p : Nat) (hd : Bytes d) :
    Bytes (convert_endian_n n size d p).1 := by
  unfold convert_endian_n
  exact foldl_range_inv Bytes (fun d k => convert_endian size d (p + k * size))
    (fun x k hx => bytes_convert_endian _ _ _ hx) d _ hd

theorem rd_convert_endian_n_lt (n size : Nat) (d : List Nat) (p j : Nat) (h : j < p) :
    rd (convert_endian_n n size d p).1 j = rd d j := by
  unfold convert_endian_n
  exact foldl_range_inv (fun x : List Nat => rd x j = rd d j)
    (fun d k => convert_endian size d (p + k * size))
    (fun x k hx => by
      show rd (convert_endian size x (p + k * size)) j = rd d j
      rw [rd_convert_endian_other _ _ _ _ (Or.inl (by omega)), hx]) d _ rfl

theorem ite_pres {α : Type} (P : α → Prop) (c : Prop) [Decidable c] (a b : α)
    (ha : P a) (hb : P b) : P (if c then a else b) := by
  split <;> assumption

/-- Whatever `convert_endian` at or after the payload start preserves,
`mxl692_tx_swap` preserves. -/
theorem tx_swap_pres (P : List Nat → Prop) (be : Bool) (opcode : Nat) (d : List Nat)
    (h1 : ∀ size x q, 8 ≤ q → P x → P (convert_endian size x q)) (h0 : P d) :
    P (mxl692_tx_swap be opcode d) := by
  unfold mxl692_tx_swap
  refine ite_pres P _ _ _ h0 ?_
  refine ite_pres P _ _ _ (h1 _ _ _ (Nat.le_refl _) h0) ?_
  exact ite_pres P _ _ _ (h1 _ _ _ (Nat.le_add_right _ _) h0) h0

/-- Whatever `convert_endian` and `convert_endian_n` at or after the payload
start preserve, `mxl692_rx_swap` preserves. -/
theorem rx_swap_pres (P : List Nat → Prop) (be : Bool) (opcode : Nat) (d : List Nat)
    (h1 : ∀ size x q, 8 ≤ q → P x → P (convert_endian size x q))
    (h2 : ∀ n size x q, 8 ≤ q → P x → P (convert_endian_n n size x q).1) (h0 : P d) :
    P (mxl692_rx_swap be opcode d) := by
  have e8 : ∀ k, 8 ≤ MXL_EAGLE_HOST_MSG_HEADER_SIZE + k := fun k => Nat.le_add_right 8 k
  have e9 : ∀ k, 8 ≤ MXL_EAGLE_HOST_MSG_HEADER_SIZE + 8 + k := fun k => by
    unfold MXL_EAGLE_HOST_MSG_HEADER_SIZE; omega
  have e0 : 8 ≤ MXL_EAGLE_HOST_MSG_HEADER_SIZE := Nat.le_refl 8
  unfold mxl692_rx_swap
  refine ite_pres P _ _ _ h0 ?_
  refine ite_pres P _ _ _ (h1 _ _ _ (e8 _) h0) ?_
  refine ite_pres P _ _ _ (h1 _ _ _ (e8 _) (h2 _ _ _ _ e0 h0)) ?_
  refine ite_pres P _ _ _ (h1 _ _ _ e0 h0) ?_
  refine ite_pres P _ _ _ (h2 _ _ _ _ e0 h0) ?_
  refine ite_pres P _ _ _ (h1 _ _ _ (e9 _) (h2 _ _ _ _ (e8 _) h0)) ?_
  refine ite_pres P _ _ _ (h1 _ _ _ e0 h0) ?_
  refine ite_pres P _ _ _ (h2 _ _ _ _ e0 h0) ?_
  refine ite_pres P _ _ _ (h2 _ _ _ _ e0 h0) ?_
  refine ite_pres P _ _ _ (h2 _ _ _ _ e0 h0) ?_
  refine ite_pres P _ _ _ (h1 _ _ _ e0 h0) ?_
  refine ite_pres P _ _ _ (h1 _ _ _ (e8 _) (h2 _ _ _ _ e0 h0)) ?_
  exact ite_pres P _ _ _ (h1 _ _ _ e0 h0) h0

@[simp] theorem length_tx_swap (be : Bool) (opcode : Nat) (d : List Nat) :
    (mxl692_tx_swap be opcode d).length = d.length :=
  tx_swap_pres (fun x => x.length = d.length) be opcode d
    (fun _ _ _ _ hx => by simpa using hx) rfl

theorem bytes_tx_swap (be : Bool) (opcode : Nat) (d : List Nat) (hd : Bytes d) :
    Bytes (mxl692_tx_swap be opcode d) :=
  tx_swap_pres Bytes be opcode d (fun _ _ _ _ hx => bytes_convert_endian _ _ _ hx) hd

theorem rd_tx_swap_header (be : Bool) (opcode : Nat) (d : List Nat) (j : Nat) (h : j < 8) :
    rd (mxl692_tx_swap be opcode d) j = rd d j :=
  tx_swap_pres (fun x => rd x j = rd d j) be opcode d
    (fun size x q hq hx => by
      show rd (convert_endian size x q) j = rd d j
      rw [rd_convert_endian_other _ _ _ _ (Or.inl (by omega)), hx]) rfl

@[simp] theorem length_rx_swap (be : Bool) (opcode : Nat) (d : List Nat) :
    (mxl692_rx_swap be opcode d).length = d.length :=
  rx_swap_pres (fun x => x.length = d.length) be opcode d
    (fun _ _ _ _ hx => by simpa using hx) (fun _ _ _ _ _ hx => by simpa using hx) rfl

theorem bytes_rx_swap (be : Bool) (opcode : Nat) (d : List Nat) (hd : Bytes d) :
    Bytes (mxl692_rx_swap be opcode d) :=
  rx_swap_pres Bytes be opcode d (fun _ _ _ _ hx => bytes_convert_endian _ _ _ hx)
    (fun _ _ _ _ _ hx => bytes_convert_endian_n _ _ _ _ hx) hd

theorem rd_rx_swap_header (be : Bool) (opcode : Nat) (d : List Nat) (j : Nat) (h : j < 8) :
    rd (mxl692_rx_swap be opcode d) j = rd d j :=
  rx_swap_pres (fun x => rd x j = rd d j) be opcode d
    (fun size x q hq hx => by
      show rd (convert_endian size x q) j = rd d j
      rw [rd_convert_endian_other _ _ _ _ (Or.inl (by omega)), hx])
    (fun n size x q hq hx => by
      show rd (convert_endian_n n size x q).1 j = rd d j
      rw [rd_convert_endian_n_lt _ _ _ _ _ (by omega), hx]) rfl

/-! ## The request frame -/

@[simp] theorem length_txFrame (be : Bool) (opcode seq : Nat) (p : Option (List Nat))
    (sz : Nat) : (txFrame be opcode seq p sz).length = 58 := by
  unfold txFrame MXL_EAGLE_MAX_I2C_PACKET_SIZE
  cases p with
  | none => simp
  | some q => by_cases h : sz > 0 <;> simp [h]

theorem rd_txFrame_header (be : Bool) (opcode seq : Nat) (p : Option (List Nat)) (sz : Nat) :
    rd (txFrame be opcode seq p sz) 0 = opcode % 256
      ∧ rd (txFrame be opcode seq p sz) 1 = seq % 256
      ∧ rd (txFrame be opcode seq p sz) 2 = sz % 256
      ∧ rd (txFrame be opcode seq p sz) 3 = 0 := by
  have key : ∀ j, j < 4 → rd (txFrame be opcode seq p sz) j
      = rd ((((store32 be (List.replicate 58 0) 4 0).set 0 (opcode % 256)).set 2
          (sz % 256)).set 1 (seq % 256)) j := by
    intro j hj
    unfold txFrame MXL_EAGLE_MAX_I2C_PACKET_SIZE MXL_EAGLE_HOST_MSG_HEADER_SIZE
    simp only
    rw [rd_store32_other _ _ _ _ _ (Or.inl (by omega)),
      rd_store32_other _ _ _ _ _ (Or.inl (by omega)), rd_tx_swap_header _ _ _ _ (by omega)]
    cases p with
    | none => rfl
    | some q =>
      simp only
      split
      · rw [rd_memcpy, if_neg (by omega)]
      · rfl
  refine ⟨?_, ?_, ?_, ?_⟩
  · rw [key 0 (by omega), rd_set_ne _ _ _ _ (by omega), rd_set_ne _ _ _ _ (by omega),
      rd_set_eq _ _ _ (by simp)]
  · rw [key 1 (by omega), rd_set_eq _ _ _ (by simp)]
  · rw [key 2 (by omega), rd_set_ne _ _ _ _ (by omega), rd_set_eq _ _ _ (by simp)]
  · rw [key 3 (by omega), rd_set_ne _ _ _ _ (by omega), rd_set_ne _ _ _ _ (by omega),
      rd_set_ne _ _ _ _ (by omega), rd_store32_other _ _ _ _ _ (Or.inl (by omega)),
      rd_replicate]

/-- The frame is its own unsealed form with the checksum stored in the field. -/
theorem txFrame_seal (be : Bool) (opcode seq : Nat) (p : Option (List Nat)) (sz : Nat) :
    load32 be (txFrame be opcode seq p sz) 4
        = mxl692_checksum be (store32 be (txFrame be opcode seq p sz) 4 0) (8 + sz) := by
  have hlen := length_txFrame be opcode seq p sz
  unfold txFrame at hlen ⊢
  simp only [MXL_EAGLE_HOST_MSG_HEADER_SIZE] at hlen ⊢
  simp only [length_store32] at hlen
  rw [store32_store32, store32_store32,
    load32_store32 _ _ _ _ (by omega) (mxl692_checksum_lt _ _ _)]


/-! ## Pipe reads and the polling loop -/

theorem log_i2c_transfer (bus : Bus) (msg : I2cMsg) :
    (i2c_transfer bus msg).2.log = bus.log ++ [msg] := by
  unfold i2c_transfer
  split <;> rfl

theorem pollCount_append (l1 l2 : List I2cMsg) :
    pollCount (l1 ++ l2) = pollCount l1 + pollCount l2 := by
  unfold pollCount; simp

theorem length_i2c_read (bus : Bus) (d : List Nat) (off len : Nat) :
    (mxl692_i2c_read bus d off len).2.1.length = d.length := by
  unfold mxl692_i2c_read; simp

theorem bytes_i2c_read (bus : Bus) (d : List Nat) (off len : Nat) (hd : Bytes d) :
    Bytes (mxl692_i2c_read bus d off len).2.1 := by
  unfold mxl692_i2c_read
  apply bytes_memcpy _ _ _ _ hd
  apply bytes_of_forall
  intro b hb
  rw [List.mem_map] at hb
  obtain ⟨a, _, rfl⟩ := hb
  omega

theorem pollCount_i2c_read (bus : Bus) (d : List Nat) (off len : Nat) :
    pollCount (mxl692_i2c_read bus d off len).2.2.log = pollCount bus.log := by
  unfold mxl692_i2c_read
  simp only [log_i2c_transfer, pollCount_append]
  simp [pollCount]

theorem opreadLoop_inv (n ix : Nat) (bus : Bus) (d : List Nat) (st : Int) (buf : List Nat)
    (bus1 : Bus) (h : opreadLoop n ix bus d = some (st, buf, bus1)) :
    buf.length = d.length ∧ (Bytes d → Bytes buf) ∧ pollCount bus1.log = pollCount bus.log := by
  induction n generalizing ix bus d with
  | zero =>
    simp only [opreadLoop, Option.some.injEq, Prod.mk.injEq] at h
    obtain ⟨_, rfl, rfl⟩ := h
    exact ⟨rfl, id, rfl⟩
  | succ n ih =>
    unfold opreadLoop at h
    split at h
    · exact absurd h (by simp)
    · simp only at h
      split at h
      · simp only [Option.some.injEq, Prod.mk.injEq] at h
        obtain ⟨_, rfl, rfl⟩ := h
        exact ⟨length_i2c_read _ _ _ _, bytes_i2c_read _ _ _ _, pollCount_i2c_read _ _ _ _⟩
      · have := ih _ _ _ h
        refine ⟨?_, ?_, ?_⟩
        · rw [this.1, length_i2c_read]
        · exact fun hd => this.2.1 (bytes_i2c_read _ _ _ _ hd)
        · rw [this.2.2, pollCount_i2c_read]

theorem opread_inv (bus : Bus) (d : List Nat) (size : Nat) (st : Int) (buf : List Nat)
    (bus1 : Bus) (h : mxl692_opread bus d size = some (st, buf, bus1)) :
    buf.length = d.length ∧ (Bytes d → Bytes buf)
      ∧ pollCount bus1.log = pollCount bus.log + 1 := by
  have hw : pollCount (mxl692_i2c_write bus [0xFD, 0] MXL_EAGLE_I2C_PHEADER_SIZE).2.log
      = pollCount bus.log + 1 := by
    unfold mxl692_i2c_write
    simp only [log_i2c_transfer, pollCount_append]
    simp [pollCount, MXL_EAGLE_I2C_PHEADER_SIZE]
  unfold mxl692_opread at h
  simp only at h
  split at h
  · split at h
    · exact absurd h (by simp)
    · rename_i st2 buf2 bus2 hloop
      have hi := opreadLoop_inv _ _ _ _ _ _ _ hloop
      split at h
      · simp only [Option.some.injEq, Prod.mk.injEq] at h
        obtain ⟨_, rfl, rfl⟩ := h
        refine ⟨?_, ?_, ?_⟩
        · rw [length_convert_endian, hi.1]
        · exact fun hd => bytes_convert_endian _ _ _ (hi.2.1 hd)
        · rw [hi.2.2, hw]
      · simp only [Option.some.injEq, Prod.mk.injEq] at h
        obtain ⟨_, rfl, rfl⟩ := h
        exact ⟨hi.1, hi.2.1, by rw [hi.2.2, hw]⟩
  · simp only [Option.some.injEq, Prod.mk.injEq] at h
    obtain ⟨_, rfl, rfl⟩ := h
    exact ⟨rfl, id, hw⟩

theorem pollLoop_inv (be : Bool) (size n : Nat) (bus : Bus) (d : List Nat) (t st : Int)
    (buf : List Nat) (bus1 : Bus) (h : pollLoop be size n bus d = some (t, st, buf, bus1)) :
    buf.length = d.length ∧ (Bytes d → Bytes buf) := by
  induction n generalizing bus d with
  | zero =>
    unfold pollLoop at h
    split at h
    · exact absurd h (by simp)
    · rename_i st2 rx2 bus2 hr
      simp only [Option.some.injEq, Prod.mk.injEq] at h
      obtain ⟨_, _, rfl, _⟩ := h
      have := opread_inv _ _ _ _ _ _ hr
      exact ⟨this.1, this.2.1⟩
  | succ n ih =>
    unfold pollLoop at h
    split at h
    · exact absurd h (by simp)
    · rename_i st2 rx2 bus2 hr
      have ho := opread_inv _ _ _ _ _ _ hr
      split at h
      · have := ih _ _ h
        exact ⟨by rw [this.1, ho.1], fun hd => this.2 (ho.2.1 hd)⟩
      · simp only [Option.some.injEq, Prod.mk.injEq] at h
        obtain ⟨_, _, rfl, _⟩ := h
        exact ⟨ho.1, ho.2.1⟩

/-- While every poll shows an empty header the loop runs to the end of its
budget: `n + 1` polls, final `timeout` 0. -/
theorem pollLoop_empty (be : Bool) (size n : Nat) (bus : Bus) (d : List Nat)
    (h : emptyPolls be size (n + 1) bus d = true) :
    ∃ buf bus1, pollLoop be size (n + 1) bus d = some (0, 0, buf, bus1)
      ∧ pollCount bus1.log = pollCount bus.log + (n + 1) := by
  induction n generalizing bus d with
  | zero =>
    unfold emptyPolls at h
    unfold pollLoop
    cases hr : mxl692_opread bus d size with
    | none => rw [hr] at h; exact absurd h (by simp)
    | some r =>
      obtain ⟨st, rx, bus1⟩ := r
      rw [hr] at h
      simp only [Bool.and_eq_true, decide_eq_true_eq] at h
      refine ⟨rx, bus1, ?_, (opread_inv _ _ _ _ _ _ hr).2.2⟩
      simp [h.1.1.1]
  | succ n ih =>
    unfold emptyPolls at h
    unfold pollLoop
    cases hr : mxl692_opread bus d size with
    | none => rw [hr] at h; exact absurd h (by simp)
    | some r =>
      obtain ⟨st, rx, bus1⟩ := r
      rw [hr] at h
      simp only [Bool.and_eq_true, decide_eq_true_eq] at h
      obtain ⟨buf, bus2, h2, h3⟩ := ih bus1 rx h.2
      refine ⟨buf, bus2, ?_, ?_⟩
      · simp only [h.1.1.1, h.1.1.2, h.1.2, and_self, and_true, Nat.succ_pos, if_true]
        simpa using h2
      · rw [h3, (opread_inv _ _ _ _ _ _ hr).2.2]; omega

/-- When every poll delivers the same frame the loop either stops at a frame
that has arrived or runs out of budget. -/
theorem pollLoop_delivers (be : Bool) (size n : Nat) (G : List Nat) (bus : Bus) (d : List Nat)
    (h : deliversAll size G (n + 1) bus d = true) :
    ∃ t bus1, pollLoop be size (n + 1) bus d = some (t, 0, G, bus1) := by
  induction n generalizing bus d with
  | zero =>
    unfold deliversAll at h
    unfold pollLoop
    cases hr : mxl692_opread bus d size with
    | none => rw [hr] at h; exact absurd h (by simp)
    | some r =>
      obtain ⟨st, rx, bus1⟩ := r
      rw [hr] at h
      simp only [Bool.and_eq_true, decide_eq_true_eq] at h
      exact ⟨0, bus1, by simp [h.1.1, h.1.2]⟩
  | succ n ih =>
    unfold deliversAll at h
    unfold pollLoop
    cases hr : mxl692_opread bus d size with
    | none => rw [hr] at h; exact absurd h (by simp)
    | some r =>
      obtain ⟨st, rx, bus1⟩ := r
      rw [hr] at h
      simp only [Bool.and_eq_true, decide_eq_true_eq] at h
      obtain ⟨t, bus2, h2⟩ := ih bus1 rx h.2
      simp only
      split
      · exact ⟨t, bus2, h2⟩
      · exact ⟨_, bus1, by rw [h.1.1, h.1.2]⟩


/-! ## The transaction, step by step -/

theorem next_seq_lt (dev : mxl692_dev) : (mxl692_next_seq dev).1 < 256 := by
  unfold mxl692_next_seq
  simp only
  omega

/-- An accepted call whose request was written and whose polling loop ended:
the rest of `mxl692_i2c_writeread` is the timeout test and the validation. -/
theorem writeread_polled (be : Bool) (dev : mxl692_dev) (bus bus1 bus2 : Bus) (opcode : Nat)
    (pTx : Option (List Nat)) (sz : Nat) (pRx : Option (List Nat)) (r : Nat)
    (t st : Int) (F : List Nat)
    (hsz : sz ≤ 48) (htx : ∀ p, pTx = some p → sz ≤ p.length)
    (hw : mxl692_opwrite bus (txFrame be opcode (mxl692_next_seq dev).1 pTx sz) (sz + 8)
      = some (0, bus1))
    (hp : pollLoop be (r + 8) 40 bus1 rxBuffer0 = some (t, st, F, bus2)) :
    mxl692_i2c_writeread be dev bus opcode pTx sz pRx r
      = if t = 0 ∨ st ≠ 0 then some ⟨- ETIMEDOUT, (mxl692_next_seq dev).2, bus2, pRx⟩
        else (checkResponse be (txFrame be opcode (mxl692_next_seq dev).1 pTx sz) F r pRx).map
          (fun x => ⟨x.1, (mxl692_next_seq dev).2, bus2, x.2⟩) := by
  unfold mxl692_i2c_writeread
  have h1 : ¬ (sz + MXL_EAGLE_HOST_MSG_HEADER_SIZE
      > MXL_EAGLE_MAX_I2C_PACKET_SIZE - MXL_EAGLE_I2C_PHEADER_SIZE) := by
    unfold MXL_EAGLE_HOST_MSG_HEADER_SIZE MXL_EAGLE_MAX_I2C_PACKET_SIZE
      MXL_EAGLE_I2C_PHEADER_SIZE
    omega
  have h2 : ¬ ((pTx.getD []).length < sz ∧ pTx ≠ none) := by
    cases pTx with
    | none => simp
    | some p => have := htx p rfl; simp; omega
  rw [if_neg h1, if_neg h2]
  unfold rxBuffer0 at hp
  simp only [MXL_EAGLE_HOST_MSG_HEADER_SIZE] at hw hp ⊢
  rw [hw]
  simp only [ne_eq, not_true_eq_false, if_false]
  rw [hp]
  simp only
  split
  · rfl
  · cases checkResponse be (txFrame be opcode (mxl692_next_seq dev).1 pTx sz) F r pRx with
    | none => rfl
    | some x => rfl

/-! ## C8, C9, C10: the checksum -/

theorem wordSum_cons4 (a b c e : Nat) (rest : List Nat) (n : Nat) :
    wordSum (a :: b :: c :: e :: rest) (n + 1)
      = a * 16777216 + b * 65536 + c * 256 + e + wordSum rest n := by
  induction n with
  | zero => simp [wordSum, beWord, rd]
  | succ n ih =>
    rw [wordSum, ih]
    have hb : beWord (a :: b :: c :: e :: rest) ((n + 1) * 4) = beWord rest (n * 4) := by
      have e1 : (n + 1) * 4 = n * 4 + 4 := by omega
      unfold beWord rd
      rw [e1]
      rfl
    rw [hb]
    conv_rhs => rw [wordSum]
    omega

theorem wordSum_eq_beWordSum (n : Nat) (buf : List Nat) (h : buf.length = n * 4) :
    wordSum buf n % 4294967296 = beWordSum buf := by
  induction n generalizing buf with
  | zero =>
    have : buf = [] := List.length_eq_zero.mp (by omega)
    subst this
    rfl
  | succ n ih =>
    match buf, h with
    | a :: b :: c :: e :: rest, h =>
      have hl : rest.length = n * 4 := by simp at h; omega
      rw [wordSum_cons4, beWordSum, ← ih rest hl]
      omega
    | [], h => simp at h
    | [_], h => simp at h; omega
    | [_, _], h => simp at h; omega
    | [_, _, _], h => simp at h; omega

/-- C8 as stated fails on a little-endian host: for the aligned buffer
`00 00 00 01` the function returns `0xEEBEADDE`, while the sum of the
big-endian words XOR `0xDEADBEEF` is `0xDEADBEEE`. -/
theorem C8_little_endian_return_is_swapped :
    mxl692_checksum false [0, 0, 0, 1] 4 = 0xEEBEADDE
      ∧ specChecksum [0, 0, 0, 1] = 0xDEADBEEE := by
  decide

/-- C8 (amended): for every byte buffer whose length is a multiple of 4,
`mxl692_checksum` over the whole buffer returns, on a big-endian host, the sum
modulo `2 ^ 32` of the buffer's big-endian words XOR `0xDEADBEEF`, and on a
little-endian host that value with its four bytes reversed. -/
theorem C8_checksum_of_aligned_buffer (be : Bool) (buf : List Nat)
    (hb : ∀ b ∈ buf, b < 256) (hl : buf.length % 4 = 0) :
    mxl692_checksum be buf buf.length
      = if be then specChecksum buf else swab32 (specChecksum buf) := by
  rw [mxl692_checksum_eq be buf (bytes_of_forall buf hb)]
  have e1 : (buf.length + 3) / 4 = buf.length / 4 := by omega
  rw [e1, wordSum_eq_beWordSum (buf.length / 4) buf (by omega)]
  rfl

/-- Witness for C8: the 8-byte header `08 01 04 00 00 00 00 00` on a big-endian host. -/
theorem C8_checksum_of_aligned_buffer_witness :
    (∀ b ∈ [8, 1, 4, 0, 0, 0, 0, 0], b < 256) ∧ [8, 1, 4, 0, 0, 0, 0, 0].length % 4 = 0
      ∧ mxl692_checksum true [8, 1, 4, 0, 0, 0, 0, 0] [8, 1, 4, 0, 0, 0, 0, 0].length
        = if true then specChecksum [8, 1, 4, 0, 0, 0, 0, 0]
          else swab32 (specChecksum [8, 1, 4, 0, 0, 0, 0, 0]) :=
  ⟨by decide, by decide,
    C8_checksum_of_aligned_buffer true [8, 1, 4, 0, 0, 0, 0, 0] (by decide) (by decide)⟩

/-- C9 as stated fails: with size 5 the bytes at indices 5, 6 and 7 enter the
sum. The checksum of `01 .. 08` over 5 bytes differs from the checksum of
`01 02 03 04 05 00 00 00`, and two buffers that agree below index 5 get
different checksums. -/
theorem C9_trailing_word_is_read_whole :
    mxl692_checksum false [1, 2, 3, 4, 5, 6, 7, 8] 5
        ≠ mxl692_checksum false ([1, 2, 3, 4, 5] ++ [0, 0, 0]) 8
      ∧ mxl692_checksum false [1, 2, 3, 4, 5, 6, 7, 8] 5
        ≠ mxl692_checksum false [1, 2, 3, 4, 5, 0, 0, 0] 5 := by
  decide

/-- C9 (amended): for a size with `size mod 4 = r` in 1..3 the checksum over
`size` bytes is the checksum over the first `size + 4 - r` bytes of the buffer
(the last word is read whole); it equals the checksum of the first `size`
bytes followed by `4 - r` zero bytes when the buffer holds zeros at the indices
`size .. size + 3 - r`; and it depends on no byte at index `size + 4 - r` or
above. -/
theorem C9_checksum_of_unaligned_size (be : Bool) (buf : List Nat) (size : Nat)
    (hr : size % 4 ≠ 0) :
    mxl692_checksum be buf size
        = mxl692_checksum be (buf.take (size + (4 - size % 4))) (size + (4 - size % 4))
      ∧ (size ≤ buf.length → (∀ i, size ≤ i → i < size + (4 - size % 4) → rd buf i = 0) →
          mxl692_checksum be buf size
            = mxl692_checksum be (buf.take size ++ List.replicate (4 - size % 4) 0)
                (size + (4 - size % 4)))
      ∧ (∀ buf2 : List Nat, (∀ i, i < size + (4 - size % 4) → rd buf2 i = rd buf i) →
          mxl692_checksum be buf2 size = mxl692_checksum be buf size) := by
  have e1 : (size + 3) / 4 * 4 = size + (4 - size % 4) := by omega
  have e2 : (size + (4 - size % 4) + 3) / 4 * 4 = size + (4 - size % 4) := by omega
  refine ⟨?_, ?_, ?_⟩
  · rw [mxl692_checksum_round be buf size, e1]
    apply mxl692_checksum_congr
    intro i hi
    rw [e2] at hi
    rw [rd_take _ _ _ hi]
  · intro hlen hz
    rw [mxl692_checksum_round be buf size, e1]
    apply mxl692_checksum_congr
    intro i hi
    rw [e2] at hi
    by_cases hlt : i < size
    · unfold rd
      rw [List.getD_eq_getElem?_getD, List.getD_eq_getElem?_getD,
        List.getElem?_append_left (by simp; omega), List.getElem?_take]
      simp [hlt]
    · rw [hz i (by omega) hi]
      unfold rd
      rw [List.getD_eq_getElem?_getD, List.getElem?_append_right (by simp; omega)]
      simp only [List.getElem?_replicate]
      split <;> rfl
  · intro buf2 h
    apply mxl692_checksum_congr
    intro i hi
    rw [e1] at hi
    exact h i hi

/-- Witness for C9: size 5 in a 9-byte buffer on a little-endian host. -/
theorem C9_checksum_of_unaligned_size_witness :
    5 % 4 ≠ 0
      ∧ mxl692_checksum false [1, 2, 3, 4, 5, 0, 0, 0, 9] 5
        = mxl692_checksum false ([1, 2, 3, 4, 5, 0, 0, 0, 9].take (5 + (4 - 5 % 4)))
            (5 + (4 - 5 % 4)) :=
  ⟨by decide, (C9_checksum_of_unaligned_size false [1, 2, 3, 4, 5, 0, 0, 0, 9] 5 (by decide)).1⟩

/-- C10: the request frame built by an accepted call carries its payload size
in byte 2 and passes the receive-side check: the stored checksum field equals
`mxl692_checksum` of the frame with the field zeroed, over 8 plus the payload
size found in the header. -/
theorem C10_seal_and_verify_agree (be : Bool) (dev : mxl692_dev) (opcode : Nat)
    (pTx : Option (List Nat)) (sz : Nat) (hsz : sz ≤ 48) :
    rd (txFrame be opcode (mxl692_next_seq dev).1 pTx sz) 2 = sz
      ∧ load32 be (txFrame be opcode (mxl692_next_seq dev).1 pTx sz) 4
        = mxl692_checksum be (store32 be (txFrame be opcode (mxl692_next_seq dev).1 pTx sz) 4 0)
            (8 + rd (store32 be (txFrame be opcode (mxl692_next_seq dev).1 pTx sz) 4 0) 2) := by
  have h2 : rd (txFrame be opcode (mxl692_next_seq dev).1 pTx sz) 2 = sz := by
    rw [(rd_txFrame_header be opcode _ pTx sz).2.2.1]
    omega
  refine ⟨h2, ?_⟩
  rw [rd_store32_other _ _ _ _ _ (Or.inl (by omega)), h2]
  exact txFrame_seal be opcode _ pTx sz

/-- Witness for C10: opcode 10 with the payload `01 02 03 04` on a little-endian host. -/
theorem C10_seal_and_verify_agree_witness :
    4 ≤ 48
      ∧ rd (txFrame false 10 (mxl692_next_seq ⟨1⟩).1 (some [1, 2, 3, 4]) 4) 2 = 4
      ∧ load32 false (txFrame false 10 (mxl692_next_seq ⟨1⟩).1 (some [1, 2, 3, 4]) 4) 4
        = mxl692_checksum false
            (store32 false (txFrame false 10 (mxl692_next_seq ⟨1⟩).1 (some [1, 2, 3, 4]) 4) 4 0)
            (8 + rd (store32 false
              (txFrame false 10 (mxl692_next_seq ⟨1⟩).1 (some [1, 2, 3, 4]) 4) 4 0) 2) :=
  ⟨by decide, C10_seal_and_verify_agree false ⟨1⟩ 10 (some [1, 2, 3, 4]) 4 (by decide)⟩


/-! ## C5, C6, C7: timeout, device status, correlation -/

theorem pollCount_opwrite (bus bus1 : Bus) (d : List Nat) (size : Nat) (st : Int)
    (h : mxl692_opwrite bus d size = some (st, bus1)) :
    pollCount bus1.log = pollCount bus.log := by
  unfold mxl692_opwrite at h
  simp only at h
  split at h
  · exact absurd h (by simp)
  · rename_i hc
    have hlog : ∀ b : List Nat, rd b 0 = 0xFE →
        pollCount (mxl692_i2c_write bus b
          ((size + 3) / 4 * 4 + MXL_EAGLE_I2C_PHEADER_SIZE)).2.log = pollCount bus.log := by
      intro b hb
      unfold mxl692_i2c_write
      simp only [log_i2c_transfer, pollCount_append]
      have hne : I2cMsg.write (b.take ((size + 3) / 4 * 4 + MXL_EAGLE_I2C_PHEADER_SIZE))
          ≠ I2cMsg.write [0xFD, 0] := by
        intro he
        injection he with he
        have h0 : rd (b.take ((size + 3) / 4 * 4 + MXL_EAGLE_I2C_PHEADER_SIZE)) 0 = 0xFD := by
          rw [he]; rfl
        rw [rd_take _ _ _ (by unfold MXL_EAGLE_I2C_PHEADER_SIZE; omega), hb] at h0
        omega
      simp [pollCount, hne]
    have hb0 : rd (convert_endian ((size + 3) / 4 * 4)
        (memcpy (((List.replicate MXL_EAGLE_MAX_I2C_PACKET_SIZE 0).set 0 0xFE).set 1
          ((size + 3) / 4 * 4 % 256)) 2 d ((size + 3) / 4 * 4)) 2) 0 = 0xFE := by
      rw [rd_convert_endian_other _ _ _ _ (Or.inl (by omega)), rd_memcpy,
        if_neg (by omega), rd_set_ne _ _ _ _ (by omega),
        rd_set_eq _ _ _ (by simp [MXL_EAGLE_MAX_I2C_PACKET_SIZE])]
    split at h
    · simp only [Option.some.injEq, Prod.mk.injEq] at h
      rw [← h.2]
      exact hlog _ hb0
    · simp only [Option.some.injEq, Prod.mk.injEq] at h
      rw [← h.2]
      exact hlog _ hb0

/-- C5 as stated fails: every transfer of `checksumOnlyBus` succeeds and every
header it delivers has sequence number 0, yet the call ends after a single
poll with `-EREMOTEIO`, because the header's checksum field is not 0. -/
theorem C5_nonzero_checksum_ends_polling :
    (∀ rep ∈ checksumOnlyBus.script, rep.ret = 1)
      ∧ ((mxl692_opwrite checksumOnlyBus (txFrame false 8 (mxl692_next_seq ⟨1⟩).1 none 0) 8).bind
          (fun w => mxl692_opread w.2 rxBuffer0 (0 + 8))).map
            (fun x => (x.1, rd x.2.1 1, load32 false x.2.1 4)) = some (0, 0, 16777216)
      ∧ (mxl692_i2c_writeread false ⟨1⟩ checksumOnlyBus 8 none 0 none 0).map
          (fun o => (o.status, pollCount o.bus.log)) = some (- EREMOTEIO, 1) := by
  decide

/-- C5 (amended): when the request is written and each of the 40 polls succeeds
and shows a header whose sequence number and checksum field are both 0,
`mxl692_i2c_writeread` returns `-ETIMEDOUT` after exactly 40 polls. -/
theorem C5_timeout_after_forty_empty_polls (be : Bool) (dev : mxl692_dev) (bus bus1 : Bus)
    (opcode : Nat) (pTx : Option (List Nat)) (sz : Nat) (pRx : Option (List Nat)) (r : Nat)
    (hsz : sz ≤ 48) (htx : ∀ p, pTx = some p → sz ≤ p.length)
    (hw : mxl692_opwrite bus (txFrame be opcode (mxl692_next_seq dev).1 pTx sz) (sz + 8)
      = some (0, bus1))
    (he : emptyPolls be (r + 8) 40 bus1 rxBuffer0 = true) :
    ∃ o, mxl692_i2c_writeread be dev bus opcode pTx sz pRx r = some o
      ∧ o.status = - ETIMEDOUT ∧ pollCount o.bus.log = pollCount bus.log + 40
      ∧ o.pRxPayload = pRx := by
  obtain ⟨buf, bus2, hp, hc⟩ := pollLoop_empty be (r + 8) 39 bus1 rxBuffer0 he
  have hwr := writeread_polled be dev bus bus1 bus2 opcode pTx sz pRx r 0 0 buf hsz htx hw hp
  rw [if_pos (Or.inl rfl)] at hwr
  refine ⟨_, hwr, rfl, ?_, rfl⟩
  show pollCount bus2.log = pollCount bus.log + 40
  rw [hc, pollCount_opwrite _ _ _ _ _ hw]

/-- Witness for C5: opcode 8 on a transport that shows 40 empty headers. -/
theorem C5_timeout_after_forty_empty_polls_witness :
    ∃ o, mxl692_i2c_writeread false ⟨1⟩ silentBus 8 none 0 none 0 = some o
      ∧ o.status = - ETIMEDOUT ∧ pollCount o.bus.log = pollCount silentBus.log + 40
      ∧ o.pRxPayload = none :=
  C5_timeout_after_forty_empty_polls false ⟨1⟩ silentBus ⟨silentBus.script.tail, [statusRequest]⟩
    8 none 0 none 0 (by decide) (by intro p h; cases h) (by decide) (by decide)

/-- C6: when the request is written and the polling loop ends before its budget
is used up on a frame that was read successfully and whose status byte `s` is
not 0, `mxl692_i2c_writeread` returns exactly `s`, a value in 1..255, whatever
the other bytes of the frame are, and leaves the caller's buffer alone. -/
theorem C6_device_status_is_returned (be : Bool) (dev : mxl692_dev) (bus bus1 bus2 : Bus)
    (opcode : Nat) (pTx : Option (List Nat)) (sz : Nat) (pRx : Option (List Nat)) (r : Nat)
    (t : Int) (F : List Nat)
    (hsz : sz ≤ 48) (htx : ∀ p, pTx = some p → sz ≤ p.length)
    (hw : mxl692_opwrite bus (txFrame be opcode (mxl692_next_seq dev).1 pTx sz) (sz + 8)
      = some (0, bus1))
    (hp : pollLoop be (r + 8) 40 bus1 rxBuffer0 = some (t, 0, F, bus2))
    (ht : t ≠ 0) (hs : rd F 3 ≠ 0) :
    ∃ o, mxl692_i2c_writeread be dev bus opcode pTx sz pRx r = some o
      ∧ o.status = (rd F 3 : Int) ∧ 1 ≤ o.status ∧ o.status ≤ 255 ∧ o.pRxPayload = pRx := by
  have hb : Bytes F := (pollLoop_inv _ _ _ _ _ _ _ _ _ hp).2 (bytes_replicate _)
  have h3 := hb 3
  have hcr : checkResponse be (txFrame be opcode (mxl692_next_seq dev).1 pTx sz) F r pRx
      = some ((rd F 3 : Int), pRx) := by
    unfold checkResponse
    rw [if_pos hs]
  have hwr := writeread_polled be dev bus bus1 bus2 opcode pTx sz pRx r t 0 F hsz htx hw hp
  rw [if_neg (by simp [ht]), hcr, Option.map_some'] at hwr
  refine ⟨_, hwr, rfl, ?_, ?_, rfl⟩
  · show (1 : Int) ≤ (rd F 3 : Int)
    omega
  · show (rd F 3 : Int) ≤ 255
    omega

/-- Witness for C6: opcode 8 answered by a frame with status 7. -/
theorem C6_device_status_is_returned_witness :
    ∃ o, mxl692_i2c_writeread false ⟨1⟩ statusBus 8 none 0 none 0 = some o
      ∧ o.status = (rd statusFrame 3 : Int) ∧ 1 ≤ o.status ∧ o.status ≤ 255
      ∧ o.pRxPayload = none :=
  C6_device_status_is_returned false ⟨1⟩ statusBus ⟨statusBus.script.tail, [statusRequest]⟩
    ⟨[], statusRequest :: poll8⟩ 8 none 0 none 0 39 statusFrame (by decide)
    (by intro p h; cases h) (by decide) (by decide) (by decide) (by decide)

/-- C7: when the request is written and the polling loop ends before its budget
is used up on a frame that was read successfully, whose status byte is 0 and
whose sequence number, opcode or payload size differs from the request's
sequence number, the request's opcode or the expected response size,
`mxl692_i2c_writeread` returns `-EREMOTEIO` and leaves the caller's buffer
alone; the verdict is the same whatever is stored in the checksum field. -/
theorem C7_correlation_mismatch_is_rejected (be : Bool) (dev : mxl692_dev)
    (bus bus1 bus2 : Bus) (opcode : Nat) (pTx : Option (List Nat)) (sz : Nat)
    (pRx : Option (List Nat)) (r : Nat) (t : Int) (F : List Nat)
    (hop : opcode < 256) (hsz : sz ≤ 48) (htx : ∀ p, pTx = some p → sz ≤ p.length)
    (hw : mxl692_opwrite bus (txFrame be opcode (mxl692_next_seq dev).1 pTx sz) (sz + 8)
      = some (0, bus1))
    (hp : pollLoop be (r + 8) 40 bus1 rxBuffer0 = some (t, 0, F, bus2))
    (ht : t ≠ 0) (hs : rd F 3 = 0)
    (hm : rd F 1 ≠ (mxl692_next_seq dev).1 ∨ rd F 0 ≠ opcode ∨ rd F 2 ≠ r) :
    (∃ o, mxl692_i2c_writeread be dev bus opcode pTx sz pRx r = some o
        ∧ o.status = - EREMOTEIO ∧ o.pRxPayload = pRx)
      ∧ ∀ c, checkResponse be (txFrame be opcode (mxl692_next_seq dev).1 pTx sz)
          (store32 be F 4 c) r pRx = some (- EREMOTEIO, pRx) := by
  have hh := rd_txFrame_header be opcode (mxl692_next_seq dev).1 pTx sz
  have hq := next_seq_lt dev
  have hm2 : ∀ G : List Nat, rd G 0 = rd F 0 → rd G 1 = rd F 1 → rd G 2 = rd F 2 →
      rd G 3 = rd F 3 →
      checkResponse be (txFrame be opcode (mxl692_next_seq dev).1 pTx sz) G r pRx
        = some (- EREMOTEIO, pRx) := by
    intro G g0 g1 g2 g3
    unfold checkResponse
    rw [if_neg (by rw [g3, hs]; simp), if_pos]
    rw [g0, g1, g2, hh.1, hh.2.1, Nat.mod_eq_of_lt hop, Nat.mod_eq_of_lt hq]
    exact hm
  have hwr := writeread_polled be dev bus bus1 bus2 opcode pTx sz pRx r t 0 F hsz htx hw hp
  rw [if_neg (by simp [ht]), hm2 F rfl rfl rfl rfl, Option.map_some'] at hwr
  refine ⟨⟨_, hwr, rfl, rfl⟩, ?_⟩
  · intro c
    exact hm2 _ (rd_store32_other _ _ _ _ _ (Or.inl (by omega)))
      (rd_store32_other _ _ _ _ _ (Or.inl (by omega)))
      (rd_store32_other _ _ _ _ _ (Or.inl (by omega)))
      (rd_store32_other _ _ _ _ _ (Or.inl (by omega)))

/-- Witness for C7: the request with sequence byte 1 answered by a frame with
sequence number 2. -/
theorem C7_correlation_mismatch_is_rejected_witness :
    (∃ o, mxl692_i2c_writeread false ⟨1⟩ mismatchBus 8 none 0 none 0 = some o
        ∧ o.status = - EREMOTEIO ∧ o.pRxPayload = none)
      ∧ ∀ c, checkResponse false (txFrame false 8 (mxl692_next_seq ⟨1⟩).1 none 0)
          (store32 false mismatchFrame 4 c) 0 none = some (- EREMOTEIO, none) :=
  C7_correlation_mismatch_is_rejected false ⟨1⟩ mismatchBus
    ⟨mismatchBus.script.tail, [statusRequest]⟩ ⟨[], statusRequest :: poll8⟩ 8 none 0 none 0 39
    mismatchFrame (by decide) (by decide) (by intro p h; cases h) (by decide) (by decide)
    (by decide) (by decide) (by decide)

/-! ## C3, C4: the sequence counter and the last poll -/

/-- C3 fails on the code (evaluation): `dev->seqNum` is an `int`, so after 255
transactions from the initialised engine it holds 256, the 256th request
carries sequence byte 0 in its header (wire bytes `FE 08 00 00 00 08 ..`), and
the counter moves on to 257 instead of wrapping to 1. -/
theorem C3_sequence_byte_zero_is_sent :
    (issueN 255).map (fun s => s.1) = some ⟨256⟩
      ∧ rd (txFrame false 8 (mxl692_next_seq ⟨256⟩).1 none 0) 1 = 0
      ∧ issueN 256
        = some (⟨257⟩, [I2cMsg.write [0xFE, 8, 0, 0, 0, 8, 0xEF, 0xBE, 0xAD, 0xD6]]) := by
  decide!

/-- C4 fails on the code (evaluation): when the valid response arrives on the
40th poll the call returns `-ETIMEDOUT` after 40 polls, although the same
response is accepted on the 39th poll. -/
theorem C4_response_on_last_poll_times_out :
    (mxl692_i2c_writeread false ⟨1⟩ (lateBus 40) 8 none 0 none 0).map
        (fun o => (o.status, pollCount o.bus.log)) = some (- ETIMEDOUT, 40)
      ∧ (mxl692_i2c_writeread false ⟨1⟩ (lateBus 39) 8 none 0 none 0).map
        (fun o => (o.status, pollCount o.bus.log)) = some (0, 39) := by
  decide!


/-! ## More on stores -/

/-- The four bytes a store writes depend on the array only through its length. -/
theorem rd_store32_in (be : Bool) (d d2 : List Nat) (off v j : Nat)
    (hlen : d.length = d2.length) (h1 : off ≤ j) (h2 : j < off + 4) :
    rd (store32 be d off v) j = rd (store32 be d2 off v) j := by
  have hc : j = off ∨ j = off + 1 ∨ j = off + 2 ∨ j = off + 3 := by omega
  rcases hc with h | h | h | h <;> subst h <;> unfold store32 <;> cases be <;>
    simp [rd_set, hlen] <;> (repeat split) <;> first | rfl | omega | simp_all [rd_of_le]

theorem store32_set_in (be : Bool) (d : List Nat) (off w i v : Nat) (h1 : off ≤ i)
    (h2 : i < off + 4) : store32 be (d.set i v) off w = store32 be d off w := by
  apply ext_rd
  · simp
  · intro j _
    by_cases hj : off ≤ j ∧ j < off + 4
    · exact rd_store32_in be _ _ off w j (by simp) hj.1 hj.2
    · rw [rd_store32_other _ _ _ _ _ (by omega), rd_store32_other _ _ _ _ _ (by omega),
        rd_set_ne _ _ _ _ (by omega)]

theorem store32_set_comm (be : Bool) (d : List Nat) (off w i v : Nat)
    (h : i < off ∨ off + 4 ≤ i) :
    store32 be (d.set i v) off w = (store32 be d off w).set i v := by
  apply ext_rd
  · simp
  · intro j _
    by_cases hj : off ≤ j ∧ j < off + 4
    · rw [rd_set_ne _ _ _ _ (by omega)]
      exact rd_store32_in be _ _ off w j (by simp) hj.1 hj.2
    · rw [rd_store32_other _ _ _ _ _ (by omega), rd_set, rd_set, length_store32]
      by_cases hij : i = j
      · subst hij
        simp only [true_and]
        split
        · rfl
        · rw [rd_store32_other _ _ _ _ _ (by omega)]
      · simp only [hij, false_and, if_false]
        rw [rd_store32_other _ _ _ _ _ (by omega)]

/-- A changed byte inside a 32-bit field changes the value loaded from it. -/
theorem load32_set_ne (be : Bool) (d : List Nat) (hd : Bytes d) (off i v : Nat)
    (h1 : off ≤ i) (h2 : i < off + 4) (hl : i < d.length) (hne : v ≠ rd d i) :
    load32 be (d.set i v) off ≠ load32 be d off := by
  have b0 := hd off
  have b1 := hd (off + 1)
  have b2 := hd (off + 2)
  have b3 := hd (off + 3)
  have hc : i = off ∨ i = off + 1 ∨ i = off + 2 ∨ i = off + 3 := by omega
  unfold load32
  rcases hc with h | h | h | h <;> subst h <;>
    rw [rd_set_eq _ _ _ hl, rd_set_ne _ _ _ _ (by omega), rd_set_ne _ _ _ _ (by omega),
      rd_set_ne _ _ _ _ (by omega)] <;>
    split <;> omega

/-! ## The swap rules act on the payload alone -/

theorem agree_xorSwap (x y : List Nat) (a b : Nat) (ha : 8 ≤ a) (hb : 8 ≤ b)
    (h : AgreeFrom8 x y) : AgreeFrom8 (xorSwap x a b) (xorSwap y a b) := by
  refine ⟨by simp [h.1], ?_⟩
  intro j hj
  unfold xorSwap
  simp only [rd_set, List.length_set, h.1, h.2 a ha, h.2 b hb, h.2 j hj]

theorem agree_foldl (f : List Nat → Nat → List Nat)
    (hf : ∀ x y k, AgreeFrom8 x y → AgreeFrom8 (f x k) (f y k)) (n : Nat) (x y : List Nat)
    (h : AgreeFrom8 x y) :
    AgreeFrom8 ((List.range n).foldl f x) ((List.range n).foldl f y) := by
  induction n with
  | zero => simpa using h
  | succ n ih =>
    rw [List.range_succ, List.foldl_append, List.foldl_append]
    exact hf _ _ _ ih

theorem agree_convert_endian (size : Nat) (x y : List Nat) (p : Nat) (hp : 8 ≤ p)
    (h : AgreeFrom8 x y) : AgreeFrom8 (convert_endian size x p) (convert_endian size y p) := by
  unfold convert_endian
  simp only
  have h1 := agree_foldl
    (fun d k => xorSwap (xorSwap d (p + 4 * k + 0) (p + 4 * k + 3)) (p + 4 * k + 1)
      (p + 4 * k + 2))
    (fun x y k hxy => agree_xorSwap _ _ _ _ (by omega) (by omega)
      (agree_xorSwap _ _ _ _ (by omega) (by omega) hxy)) (size / 4) x y h
  split
  · exact agree_xorSwap _ _ _ _ (by omega) (by omega) h1
  · exact agree_xorSwap _ _ _ _ (by omega) (by omega) h1
  · exact h1

theorem agree_convert_endian_n (n size : Nat) (x y : List Nat) (p : Nat) (hp : 8 ≤ p)
    (h : AgreeFrom8 x y) :
    AgreeFrom8 (convert_endian_n n size x p).1 (convert_endian_n n size y p).1 := by
  unfold convert_endian_n
  exact agree_foldl (fun d k => convert_endian size d (p + k * size))
    (fun x y k hxy => agree_convert_endian _ _ _ _ (by omega) hxy) _ x y h

theorem ite_rel {α : Type} (R : α → α → Prop) (c : Prop) [Decidable c] (a b a2 b2 : α)
    (ha : R a a2) (hb : R b b2) : R (if c then a else b) (if c then a2 else b2) := by
  split <;> assumption

theorem convert_endian_n_snd (n size : Nat) (x y : List Nat) (p : Nat) :
    (convert_endian_n n size x p).2 = (convert_endian_n n size y p).2 := rfl

/-- The receive rule gives the same payload whatever the header holds. -/
theorem agree_rx_swap (be : Bool) (opcode : Nat) (x y : List Nat) (h0 : AgreeFrom8 x y) :
    AgreeFrom8 (mxl692_rx_swap be opcode x) (mxl692_rx_swap be opcode y) := by
  have e8 : ∀ k, 8 ≤ MXL_EAGLE_HOST_MSG_HEADER_SIZE + k := fun k => Nat.le_add_right 8 k
  have e9 : ∀ k, 8 ≤ MXL_EAGLE_HOST_MSG_HEADER_SIZE + 8 + k := fun k => by
    unfold MXL_EAGLE_HOST_MSG_HEADER_SIZE; omega
  have e0 : 8 ≤ MXL_EAGLE_HOST_MSG_HEADER_SIZE := Nat.le_refl 8
  have h1 := fun size x y q (hq : 8 ≤ q) (hxy : AgreeFrom8 x y) =>
    agree_convert_endian size x y q hq hxy
  have h2 := fun n size x y q (hq : 8 ≤ q) (hxy : AgreeFrom8 x y) =>
    agree_convert_endian_n n size x y q hq hxy
  unfold mxl692_rx_swap
  refine ite_rel AgreeFrom8 _ _ _ _ _ h0 ?_
  refine ite_rel AgreeFrom8 _ _ _ _ _ (h1 _ _ _ _ (e8 _) h0) ?_
  refine ite_rel AgreeFrom8 _ _ _ _ _ (h1 _ _ _ _ (e8 _) (h2 _ _ _ _ _ e0 h0)) ?_
  refine ite_rel AgreeFrom8 _ _ _ _ _ (h1 _ _ _ _ e0 h0) ?_
  refine ite_rel AgreeFrom8 _ _ _ _ _ (h2 _ _ _ _ _ e0 h0) ?_
  refine ite_rel AgreeFrom8 _ _ _ _ _ (h1 _ _ _ _ (e9 _) (h2 _ _ _ _ _ (e8 _) h0)) ?_
  refine ite_rel AgreeFrom8 _ _ _ _ _ (h1 _ _ _ _ e0 h0) ?_
  refine ite_rel AgreeFrom8 _ _ _ _ _ (h2 _ _ _ _ _ e0 h0) ?_
  refine ite_rel AgreeFrom8 _ _ _ _ _ (h2 _ _ _ _ _ e0 h0) ?_
  refine ite_rel AgreeFrom8 _ _ _ _ _ (h2 _ _ _ _ _ e0 h0) ?_
  refine ite_rel AgreeFrom8 _ _ _ _ _ (h1 _ _ _ _ e0 h0) ?_
  refine ite_rel AgreeFrom8 _ _ _ _ _ (h1 _ _ _ _ (e8 _) (h2 _ _ _ _ _ e0 h0)) ?_
  exact ite_rel AgreeFrom8 _ _ _ _ _ (h1 _ _ _ _ e0 h0) h0

theorem drop8_of_agree (x y : List Nat) (h : AgreeFrom8 x y) : x.drop 8 = y.drop 8 := by
  apply ext_rd
  · simp [h.1]
  · intro i _
    rw [rd_drop, rd_drop, h.2 _ (by omega)]

theorem rx_swap_no_rule (be : Bool) (opcode : Nat) (d : List Nat)
    (h : be = true ∨ opcode ∉ rxRuleOpcodes) : mxl692_rx_swap be opcode d = d := by
  unfold mxl692_rx_swap
  by_cases hbe : be = true
  · rw [if_pos hbe]
  · have h := h.resolve_left hbe
    rw [if_neg hbe]
    simp only [rxRuleOpcodes, List.mem_cons, List.mem_singleton, not_or, List.mem_nil_iff,
      or_false] at h
    obtain ⟨h1, h2, h3, h4, h5, h6, h7, h8, h9, h10, h11, h12, h13, h14, h15, h16⟩ := h
    · simp only
      rw [if_neg h1, if_neg h2, if_neg h3, if_neg h4, if_neg h5, if_neg h6,
        if_neg (by simp only [not_or]; exact ⟨h7, h8, h9, h10, h11⟩), if_neg h12, if_neg h13,
        if_neg h14, if_neg h15, if_neg h16]


/-! ## C1, C2: round trip and corruption -/

/-- A frame that has arrived on the first poll ends the polling loop at once. -/
theorem pollLoop_first (be : Bool) (size : Nat) (bus bus2 : Bus) (d F : List Nat)
    (hrd : mxl692_opread bus d size = some (0, F, bus2))
    (harr : rd F 1 ≠ 0 ∨ load32 be F 4 ≠ 0) :
    pollLoop be size 40 bus d = some (39, 0, F, bus2) := by
  show pollLoop be size (39 + 1) bus d = some (39, 0, F, bus2)
  unfold pollLoop
  rw [hrd]
  simp only
  rw [if_neg]
  · rfl
  · intro h
    rcases harr with h1 | h1
    · exact h1 h.2.2.1
    · exact h1 h.2.2.2

/-- The validation accepts a frame that matches the request and delivers its
payload after the receive rule. -/
theorem checkResponse_valid (be : Bool) (T F : List Nat) (r : Nat) (buf : List Nat)
    (hlen : F.length = 58) (hr : r ≤ 48) (hbuf : r ≤ buf.length)
    (hst : rd F 3 = 0) (hseq : rd F 1 = rd T 1) (hopc : rd F 0 = rd T 0) (hps : rd F 2 = r)
    (hck : load32 be F 4 = mxl692_checksum be (store32 be F 4 0) (8 + r)) :
    checkResponse be T F r (some buf)
      = some (0, some (((mxl692_rx_swap be (rd F 0) F).drop 8).take r ++ buf.drop r)) := by
  have hagree : AgreeFrom8 (store32 be F 4 0) F :=
    ⟨by simp, fun j hj => rd_store32_other _ _ _ _ _ (Or.inr (by omega))⟩
  have hdrop := drop8_of_agree _ _ (agree_rx_swap be (rd F 0) _ _ hagree)
  unfold checkResponse
  rw [if_neg (by rw [hst]; simp), if_neg (by rw [hseq, hopc, hps]; simp)]
  simp only [MXL_EAGLE_HOST_MSG_HEADER_SIZE]
  rw [rd_store32_other _ _ _ _ _ (Or.inl (by omega)),
    rd_store32_other _ _ _ _ _ (Or.inl (by omega)), hps,
    if_neg (by rw [hck]; simp), rd_rx_swap_header _ _ _ _ (by omega),
    rd_store32_other _ _ _ _ _ (Or.inl (by omega)), hps, hdrop]
  by_cases h0 : r > 0
  · rw [if_pos h0]
    rw [if_neg (by omega), memcpy_zero _ _ _ hbuf (by simp [hlen]; omega)]
  · have : r = 0 := by omega
    subst this
    simp

/-- C1 fails on the code: after 255 transactions from the initialised engine the
`int` counter is at 256 (the test `seqNum == 0` that should skip 0 never fires)
and the request carries sequence byte 0; every transfer of `zeroSeqBus`
succeeds and the first poll reads `zeroSeqFrame`, whose status is 0, whose
sequence number, opcode and payload size are those of the request, and whose
checksum field (0) is the checksum of the frame, yet the call polls 40 times,
returns `-ETIMEDOUT` and leaves the caller's buffer unchanged. -/
theorem C1_zero_sequence_frame_is_not_seen :
    (issueN 255).map (fun s => s.1) = some ⟨256⟩
      ∧ (∀ rep ∈ zeroSeqBus.script, rep.ret = 1)
      ∧ ((mxl692_opwrite zeroSeqBus (txFrame false 8 (mxl692_next_seq ⟨256⟩).1 none 0) 8).bind
          (fun w => mxl692_opread w.2 rxBuffer0 (4 + 8))).map (fun x => (x.1, x.2.1))
        = some (0, zeroSeqFrame)
      ∧ rd zeroSeqFrame 3 = 0 ∧ rd zeroSeqFrame 1 = (mxl692_next_seq ⟨256⟩).1
      ∧ rd zeroSeqFrame 0 = 8 ∧ rd zeroSeqFrame 2 = 4
      ∧ load32 false zeroSeqFrame 4
        = mxl692_checksum false (store32 false zeroSeqFrame 4 0) (8 + 4)
      ∧ (mxl692_i2c_writeread false ⟨256⟩ zeroSeqBus 8 none 0 (some [0, 0, 0, 0]) 4).map
          (fun o => (o.status, pollCount o.bus.log, o.pRxPayload))
        = some (- ETIMEDOUT, 40, some [0, 0, 0, 0]) := by
  decide!

/-- A response frame that carries the request's sequence byte counts as
arrived for the polling loop whenever that byte is not 0. -/
theorem arrival_of_nonzero_sequence (be : Bool) (dev : mxl692_dev) (F : List Nat)
    (hseq : rd F 1 = (mxl692_next_seq dev).1) (hnz : (mxl692_next_seq dev).1 ≠ 0) :
    rd F 1 ≠ 0 ∨ load32 be F 4 ≠ 0 :=
  Or.inl (by rw [hseq]; exact hnz)

/-- C1 where the frame counts as arrived (see `arrival_of_nonzero_sequence`:
every case in which the request's sequence byte is not 0): for every opcode,
every request payload of at most 48 bytes, every expected response size
`r ≤ 48` and a caller buffer of at least `r` bytes, if the request is written and the first poll succeeds and reads a frame
`F` whose status is 0, whose sequence number, opcode and payload size equal the
request's sequence byte, the request's opcode and `r`, whose checksum field is
`mxl692_checksum` of the frame with the field zeroed over `8 + r` bytes, and
whose sequence number or checksum field is not 0, then `mxl692_i2c_writeread`
returns 0 and the first `r` bytes of the caller's buffer are the payload of
`F` after `mxl692_rx_swap` for the opcode, the rest of the buffer unchanged;
on a big-endian host and for every opcode without a receive rule they are the
payload bytes of `F` themselves. -/
theorem C1_round_trip (be : Bool) (dev : mxl692_dev) (bus bus1 bus2 : Bus) (opcode : Nat)
    (pTx : Option (List Nat)) (sz : Nat) (buf : List Nat) (r : Nat) (F : List Nat)
    (hop : opcode < 256) (hsz : sz ≤ 48) (hr : r ≤ 48)
    (htx : ∀ p, pTx = some p → sz ≤ p.length) (hbuf : r ≤ buf.length)
    (hw : mxl692_opwrite bus (txFrame be opcode (mxl692_next_seq dev).1 pTx sz) (sz + 8)
      = some (0, bus1))
    (hrd : mxl692_opread bus1 rxBuffer0 (r + 8) = some (0, F, bus2))
    (hst : rd F 3 = 0) (hseq : rd F 1 = (mxl692_next_seq dev).1) (hopc : rd F 0 = opcode)
    (hps : rd F 2 = r)
    (hck : load32 be F 4 = mxl692_checksum be (store32 be F 4 0) (8 + r))
    (harr : rd F 1 ≠ 0 ∨ load32 be F 4 ≠ 0) :
    mxl692_i2c_writeread be dev bus opcode pTx sz (some buf) r
        = some ⟨0, (mxl692_next_seq dev).2, bus2,
            some (((mxl692_rx_swap be opcode F).drop 8).take r ++ buf.drop r)⟩
      ∧ (be = true ∨ opcode ∉ rxRuleOpcodes →
          mxl692_i2c_writeread be dev bus opcode pTx sz (some buf) r
            = some ⟨0, (mxl692_next_seq dev).2, bus2, some ((F.drop 8).take r ++ buf.drop r)⟩) := by
  have hh := rd_txFrame_header be opcode (mxl692_next_seq dev).1 pTx sz
  have hq := next_seq_lt dev
  have hlen : F.length = 58 := by
    rw [(opread_inv _ _ _ _ _ _ hrd).1]
    simp [rxBuffer0, MXL_EAGLE_MAX_I2C_PACKET_SIZE]
  have hp := pollLoop_first be (r + 8) bus1 bus2 rxBuffer0 F hrd harr
  have hcr := checkResponse_valid be (txFrame be opcode (mxl692_next_seq dev).1 pTx sz) F r buf
    hlen hr hbuf hst (by rw [hseq, hh.2.1, Nat.mod_eq_of_lt hq])
    (by rw [hopc, hh.1, Nat.mod_eq_of_lt hop]) hps hck
  have hwr := writeread_polled be dev bus bus1 bus2 opcode pTx sz (some buf) r 39 0 F hsz htx
    hw hp
  rw [if_neg (by simp), hcr, Option.map_some', hopc] at hwr
  refine ⟨hwr, ?_⟩
  intro hno
  rw [hwr, rx_swap_no_rule be opcode F hno]

/-- Witness for C1: opcode 38 on a little-endian host, payload `01 02 03 04`
delivered as `04 03 02 01`. -/
theorem C1_round_trip_witness :
    mxl692_i2c_writeread false ⟨1⟩ echoBus 38 none 0 (some [9, 9, 9, 9, 9]) 4
        = some ⟨0, (mxl692_next_seq ⟨1⟩).2, ⟨[], echoRequest :: poll12⟩,
            some (((mxl692_rx_swap false 38 echoFrame).drop 8).take 4
              ++ [9, 9, 9, 9, 9].drop 4)⟩
      ∧ (false = true ∨ 38 ∉ rxRuleOpcodes →
          mxl692_i2c_writeread false ⟨1⟩ echoBus 38 none 0 (some [9, 9, 9, 9, 9]) 4
            = some ⟨0, (mxl692_next_seq ⟨1⟩).2, ⟨[], echoRequest :: poll12⟩,
                some ((echoFrame.drop 8).take 4 ++ [9, 9, 9, 9, 9].drop 4)⟩) :=
  C1_round_trip false ⟨1⟩ echoBus ⟨echoBus.script.tail, [echoRequest]⟩
    ⟨[], echoRequest :: poll12⟩ 38 none 0 [9, 9, 9, 9, 9] 4 echoFrame (by decide) (by decide)
    (by decide) (by intro p h; cases h) (by decide) (by decide) (by decide) (by decide)
    (by decide) (by decide) (by decide) (by decide) (by decide)

/-- The validation rejects a frame that differs in one byte from a frame that
matches the request. -/
theorem checkResponse_altered (be : Bool) (T F : List Nat) (r : Nat)
    (pRx : Option (List Nat)) (i v : Nat)
    (hF : Bytes F) (hlen : F.length = 58) (hr : r ≤ 48)
    (hst : rd F 3 = 0) (hseq : rd F 1 = rd T 1) (hopc : rd F 0 = rd T 0) (hps : rd F 2 = r)
    (hck : load32 be F 4 = mxl692_checksum be (store32 be F 4 0) (8 + r))
    (hi : i < 8 + r) (hv : v < 256) (hne : v ≠ rd F i) :
    ∃ st p, checkResponse be T (F.set i v) r pRx = some (st, p) ∧ st ≠ 0 := by
  have hil : i < F.length := by omega
  unfold checkResponse
  by_cases h3 : rd (F.set i v) 3 ≠ 0
  · rw [if_pos h3]
    exact ⟨_, _, rfl, by exact_mod_cast h3⟩
  · rw [if_neg h3]
    by_cases hm : rd (F.set i v) 1 ≠ rd T 1 ∨ rd (F.set i v) 0 ≠ rd T 0 ∨ rd (F.set i v) 2 ≠ r
    · rw [if_pos hm]
      exact ⟨_, _, rfl, by decide⟩
    · rw [if_neg hm]
      simp only [not_or, not_not] at hm h3
      have hi4 : 4 ≤ i := by
        by_contra hc
        have hcase : i = 0 ∨ i = 1 ∨ i = 2 ∨ i = 3 := by omega
        rcases hcase with h | h | h | h <;> subst h
        · rw [rd_set_eq _ _ _ hil] at hm; omega
        · rw [rd_set_eq _ _ _ hil] at hm; omega
        · rw [rd_set_eq _ _ _ hil] at hm; omega
        · rw [rd_set_eq _ _ _ hil] at h3; omega
      have hsize : rd (store32 be (F.set i v) 4 0) 2 = r := by
        rw [rd_store32_other _ _ _ _ _ (Or.inl (by omega))]
        exact hm.2.2
      simp only [MXL_EAGLE_HOST_MSG_HEADER_SIZE]
      rw [hsize]
      have hbad : load32 be (F.set i v) 4
          ≠ mxl692_checksum be (store32 be (F.set i v) 4 0) (8 + r) := by
        by_cases h8 : i < 8
        · rw [store32_set_in be F 4 0 i v hi4 (by omega), ← hck]
          exact load32_set_ne be F hF 4 i v hi4 (by omega) hil hne
        · have hl : load32 be (F.set i v) 4 = load32 be F 4 := by
            unfold load32
            rw [rd_set_ne _ _ _ _ (by omega), rd_set_ne _ _ _ _ (by omega),
              rd_set_ne _ _ _ _ (by omega), rd_set_ne _ _ _ _ (by omega)]
          rw [hl, hck, store32_set_comm be F 4 0 i v (Or.inr (by omega))]
          have hne2 : v ≠ rd (store32 be F 4 0) i := by
            rw [rd_store32_other _ _ _ _ _ (Or.inr (by omega))]
            exact hne
          exact Ne.symm (mxl692_checksum_set_ne be (store32 be F 4 0)
            (bytes_store32 _ _ _ _ hF) i v (8 + r) hi (by simp; omega) hv hne2)
      rw [if_pos hbad]
      exact ⟨_, _, rfl, by decide⟩

/-- C2: take a frame `F` that matches an accepted request (status 0, the
request's sequence byte and opcode, payload size `r`, checksum field equal to
the checksum of the frame with the field zeroed) and change any single byte
among its first `8 + r` bytes; if the request is written and each of the 40
polls succeeds and delivers the altered frame, `mxl692_i2c_writeread` returns a
non-zero result. -/
theorem C2_corruption_is_detected (be : Bool) (dev : mxl692_dev) (bus bus1 : Bus)
    (opcode : Nat) (pTx : Option (List Nat)) (sz : Nat) (pRx : Option (List Nat)) (r : Nat)
    (F : List Nat) (i v : Nat)
    (hop : opcode < 256) (hsz : sz ≤ 48) (hr : r ≤ 48)
    (htx : ∀ p, pTx = some p → sz ≤ p.length)
    (hF : ∀ b ∈ F, b < 256)
    (hst : rd F 3 = 0) (hseq : rd F 1 = (mxl692_next_seq dev).1) (hopc : rd F 0 = opcode)
    (hps : rd F 2 = r)
    (hck : load32 be F 4 = mxl692_checksum be (store32 be F 4 0) (8 + r))
    (hi : i < 8 + r) (hv : v < 256) (hne : v ≠ rd F i)
    (hw : mxl692_opwrite bus (txFrame be opcode (mxl692_next_seq dev).1 pTx sz) (sz + 8)
      = some (0, bus1))
    (hd : deliversAll (r + 8) (F.set i v) 40 bus1 rxBuffer0 = true) :
    ∃ o, mxl692_i2c_writeread be dev bus opcode pTx sz pRx r = some o ∧ o.status ≠ 0 := by
  have hh := rd_txFrame_header be opcode (mxl692_next_seq dev).1 pTx sz
  have hq := next_seq_lt dev
  obtain ⟨t, bus2, hp⟩ := pollLoop_delivers be (r + 8) 39 (F.set i v) bus1 rxBuffer0 hd
  have hlen : F.length = 58 := by
    have := (pollLoop_inv _ _ _ _ _ _ _ _ _ hp).1
    simpa [rxBuffer0, MXL_EAGLE_MAX_I2C_PACKET_SIZE] using this
  have hwr := writeread_polled be dev bus bus1 bus2 opcode pTx sz pRx r t 0 (F.set i v) hsz htx
    hw hp
  by_cases ht : t = 0
  · rw [if_pos (Or.inl ht)] at hwr
    exact ⟨_, hwr, by show (- ETIMEDOUT : Int) ≠ 0; decide⟩
  · obtain ⟨st, p, hc, hst0⟩ := checkResponse_altered be
      (txFrame be opcode (mxl692_next_seq dev).1 pTx sz) F r pRx i v (bytes_of_forall F hF) hlen
      hr hst (by rw [hseq, hh.2.1, Nat.mod_eq_of_lt hq])
      (by rw [hopc, hh.1, Nat.mod_eq_of_lt hop]) hps hck hi hv hne
    rw [if_neg (by simp [ht]), hc, Option.map_some'] at hwr
    exact ⟨_, hwr, hst0⟩

/-- Witness for C2: payload byte 0 of the valid response changed from `01` to `05`. -/
theorem C2_corruption_is_detected_witness :
    ∃ o, mxl692_i2c_writeread false ⟨1⟩ corruptBus 38 none 0 (some [9, 9, 9, 9, 9]) 4 = some o
      ∧ o.status ≠ 0 :=
  C2_corruption_is_detected false ⟨1⟩ corruptBus ⟨corruptBus.script.tail, [echoRequest]⟩ 38
    none 0 (some [9, 9, 9, 9, 9]) 4 echoFrame 8 5 (by decide) (by decide) (by decide)
    (by intro p h; cases h) (by decide) (by decide) (by decide) (by decide) (by decide)
    (by decide) (by decide) (by decide) (by decide) (by decide) (by decide)

theorem xor3 (x y : Nat) : (x ^^^ y) ^^^ (y ^^^ (x ^^^ y)) = y := by
  rw [Nat.xor_comm y (x ^^^ y), Nat.xor_cancel_right, Nat.xor_comm x y, Nat.xor_cancel_right]

theorem xor2 (x y : Nat) : y ^^^ (x ^^^ y) = x := by
  rw [Nat.xor_comm x y, Nat.xor_cancel_left]

/-- The three XOR statements exchange two distinct bytes that both lie inside
the array, and change nothing when one of them lies outside. -/
theorem rd_xorSwap (d : List Nat) (a b j : Nat) (hab : a ≠ b) :
    rd (xorSwap d a b) j
      = if a < d.length ∧ b < d.length then
          (if j = a then rd d b else if j = b then rd d a else rd d j)
        else rd d j := by
  unfold xorSwap
  simp only [rd_set, List.length_set]
  by_cases ha : a < d.length <;> by_cases hb : b < d.length
  · by_cases ja : j = a
    · subst ja
      simp [ha, hb, hab, Ne.symm hab, xor3]
    · by_cases jb : j = b
      · subst jb
        simp [ha, hb, hab, Ne.symm hab, xor2]
      · simp [ha, hb, ja, jb, Ne.symm ja, Ne.symm jb]
  · have hb0 : rd d b = 0 := rd_of_le d b (by omega)
    by_cases ja : j = a
    · subst ja
      simp [ha, hb, hab, Ne.symm hab, hb0]
    · simp [ha, hb, ja, Ne.symm ja, hb0]
  · have ha0 : rd d a = 0 := rd_of_le d a (by omega)
    by_cases jb : j = b
    · subst jb
      simp [ha, hb, hab, Ne.symm hab, ha0]
    · simp [ha, hb, jb, Ne.symm jb, ha0]
  · simp [ha, hb]

theorem xorSwap_invol (d : List Nat) (a b : Nat) (hab : a ≠ b) :
    xorSwap (xorSwap d a b) a b = d := by
  apply ext_rd
  · simp
  · intro j _
    rw [rd_xorSwap _ _ _ _ hab, length_xorSwap, rd_xorSwap _ _ _ _ hab, rd_xorSwap _ _ _ _ hab,
      rd_xorSwap _ _ _ _ hab]
    by_cases h : a < d.length ∧ b < d.length
    · simp only [h, and_self, if_true]
      by_cases ja : j = a
      · subst ja; simp [hab, Ne.symm hab]
      · by_cases jb : j = b
        · subst jb; simp [hab, Ne.symm hab]
        · simp [ja, jb]
    · simp only [h, if_false]

theorem xorSwap_comm (d : List Nat) (a b c e : Nat) (hab : a ≠ b) (hce : c ≠ e)
    (h1 : a ≠ c) (h2 : a ≠ e) (h3 : b ≠ c) (h4 : b ≠ e) :
    xorSwap (xorSwap d a b) c e = xorSwap (xorSwap d c e) a b := by
  apply ext_rd
  · simp
  · intro j _
    rw [rd_xorSwap _ _ _ _ hce, length_xorSwap, rd_xorSwap _ _ _ _ hab, rd_xorSwap _ _ _ _ hab,
      rd_xorSwap _ _ _ _ hab, rd_xorSwap _ _ _ _ hab, length_xorSwap, rd_xorSwap _ _ _ _ hce,
      rd_xorSwap _ _ _ _ hce, rd_xorSwap _ _ _ _ hce]
    have hcase : j = a ∨ j = b ∨ j = c ∨ j = e ∨ (j ≠ a ∧ j ≠ b ∧ j ≠ c ∧ j ≠ e) := by omega
    by_cases hx : a < d.length ∧ b < d.length <;> by_cases hy : c < d.length ∧ e < d.length <;>
      first
        | (simp only [hx, hy, and_self, if_true, if_false]
           done)
        | (simp only [hx, hy, and_self, if_true, if_false]
           rcases hcase with h | h | h | h | h <;>
            first
              | (subst h
                 simp [hab, hce, h1, h2, h3, h4, Ne.symm hab, Ne.symm hce, Ne.symm h1,
                   Ne.symm h2, Ne.symm h3, Ne.symm h4])
              | simp [h.1, h.2.1, h.2.2.1, h.2.2.2])

/-! ## Exchanging disjoint pairs -/

theorem applyPairs_append (l1 l2 : List (Nat × Nat)) (d : List Nat) :
    applyPairs (l1 ++ l2) d = applyPairs l2 (applyPairs l1 d) := by
  unfold applyPairs
  rw [List.foldl_append]

theorem applyPairs_comm (l : List (Nat × Nat)) (q : Nat × Nat) (d : List Nat) (hq : q.1 ≠ q.2)
    (h : ∀ r ∈ l, (q.1 ≠ r.1 ∧ q.1 ≠ r.2 ∧ q.2 ≠ r.1 ∧ q.2 ≠ r.2) ∧ r.1 ≠ r.2) :
    xorSwap (applyPairs l d) q.1 q.2 = applyPairs l (xorSwap d q.1 q.2) := by
  induction l generalizing d with
  | nil => rfl
  | cons r t ih =>
    have hr := h r (List.mem_cons_self _ _)
    show xorSwap (applyPairs t (xorSwap d r.1 r.2)) q.1 q.2
      = applyPairs t (xorSwap (xorSwap d q.1 q.2) r.1 r.2)
    rw [ih _ (fun x hx => h x (List.mem_cons_of_mem _ hx)),
      xorSwap_comm d r.1 r.2 q.1 q.2 hr.2 hq (Ne.symm hr.1.1) (Ne.symm hr.1.2.2.1)
        (Ne.symm hr.1.2.1) (Ne.symm hr.1.2.2.2)]

/-- Exchanging pairwise disjoint pairs twice restores the array. -/
theorem applyPairs_invol (l : List (Nat × Nat)) (d : List Nat) (h : DisjointPairs l) :
    applyPairs l (applyPairs l d) = d := by
  induction l generalizing d with
  | nil => rfl
  | cons q t ih =>
    obtain ⟨hp, hne⟩ := h
    rw [List.pairwise_cons] at hp
    have hq := hne q (List.mem_cons_self _ _)
    have ht : DisjointPairs t := ⟨hp.2, fun x hx => hne x (List.mem_cons_of_mem _ hx)⟩
    show applyPairs t (xorSwap (applyPairs t (xorSwap d q.1 q.2)) q.1 q.2) = d
    rw [applyPairs_comm t q _ hq
      (fun r hr => ⟨hp.1 r hr, hne r (List.mem_cons_of_mem _ hr)⟩), xorSwap_invol _ _ _ hq]
    exact ih d ht

theorem convert_endian_eq_pairs (size : Nat) (d : List Nat) (p : Nat) :
    convert_endian size d p = applyPairs (cePairs size p) d := by
  have hloop : ∀ n, (List.range n).foldl
      (fun d k => xorSwap (xorSwap d (p + 4 * k + 0) (p + 4 * k + 3)) (p + 4 * k + 1)
        (p + 4 * k + 2)) d = applyPairs (ceLoopPairs p n) d := by
    intro n
    induction n with
    | zero => rfl
    | succ n ih =>
      rw [List.range_succ, List.foldl_append, ih, ceLoopPairs, applyPairs_append]
      rfl
  unfold convert_endian cePairs
  simp only
  rw [hloop, applyPairs_append]
  have h : size % 4 = 0 ∨ size % 4 = 1 ∨ size % 4 = 2 ∨ size % 4 = 3 := by omega
  rcases h with h | h | h | h <;> rw [h] <;> rfl

theorem mem_ceLoopPairs (p n : Nat) (q : Nat × Nat) (h : q ∈ ceLoopPairs p n) :
    ∃ k, k < n ∧ (q = (p + 4 * k + 0, p + 4 * k + 3) ∨ q = (p + 4 * k + 1, p + 4 * k + 2)) := by
  induction n with
  | zero => simp [ceLoopPairs] at h
  | succ n ih =>
    rw [ceLoopPairs, List.mem_append] at h
    rcases h with h | h
    · obtain ⟨k, hk, hq⟩ := ih h
      exact ⟨k, by omega, hq⟩
    · simp only [List.mem_cons, List.mem_singleton, List.mem_nil_iff, or_false] at h
      exact ⟨n, by omega, h⟩

theorem disjoint_ceLoopPairs (p n : Nat) : DisjointPairs (ceLoopPairs p n) := by
  induction n with
  | zero => exact ⟨List.Pairwise.nil, fun q hq => by simp [ceLoopPairs] at hq⟩
  | succ n ih =>
    refine ⟨?_, ?_⟩
    · rw [ceLoopPairs, List.pairwise_append]
      refine ⟨ih.1, ?_, ?_⟩
      · simp only [List.pairwise_cons, List.mem_singleton, forall_eq, List.not_mem_nil,
          false_implies, implies_true, List.Pairwise.nil, and_true]
        omega
      · intro a ha b hb
        obtain ⟨k, hk, hq⟩ := mem_ceLoopPairs p n a ha
        simp only [List.mem_cons, List.mem_singleton, List.mem_nil_iff, or_false] at hb
        rcases hq with rfl | rfl <;> rcases hb with rfl | rfl <;> simp only <;> omega
    · intro q hq
      obtain ⟨k, _, hq⟩ := mem_ceLoopPairs p (n + 1) q hq
      rcases hq with rfl | rfl <;> simp only <;> omega

theorem disjoint_cePairs (size p : Nat) : DisjointPairs (cePairs size p) := by
  have hl := disjoint_ceLoopPairs p (size / 4)
  unfold cePairs
  split
  · refine ⟨?_, ?_⟩
    · rw [List.pairwise_append]
      refine ⟨hl.1, by simp, ?_⟩
      intro a ha b hb
      obtain ⟨k, hk, hq⟩ := mem_ceLoopPairs p _ a ha
      simp only [List.mem_singleton] at hb
      subst hb
      rcases hq with rfl | rfl <;> simp only <;> omega
    · intro q hq
      rw [List.mem_append] at hq
      rcases hq with hq | hq
      · exact hl.2 q hq
      · simp only [List.mem_singleton] at hq
        subst hq
        simp only
        omega
  · refine ⟨?_, ?_⟩
    · rw [List.pairwise_append]
      refine ⟨hl.1, by simp, ?_⟩
      intro a ha b hb
      obtain ⟨k, hk, hq⟩ := mem_ceLoopPairs p _ a ha
      simp only [List.mem_singleton] at hb
      subst hb
      rcases hq with rfl | rfl <;> simp only <;> omega
    · intro q hq
      rw [List.mem_append] at hq
      rcases hq with hq | hq
      · exact hl.2 q hq
      · simp only [List.mem_singleton] at hq
        subst hq
        simp only
        omega
  · simpa using hl

theorem convert_endian_invol (size : Nat) (d : List Nat) (p : Nat) :
    convert_endian size (convert_endian size d p) p = d := by
  rw [convert_endian_eq_pairs, convert_endian_eq_pairs]
  exact applyPairs_invol _ _ (disjoint_cePairs size p)

theorem ite_rel2 {α β : Type} (R : α → β → Prop) (c : Prop) [Decidable c] (a b : α) (a2 b2 : β)
    (ha : R a a2) (hb : R b b2) : R (if c then a else b) (if c then a2 else b2) := by
  split <;> assumption

theorem convert_endian_n_eq_pairs (n size : Nat) (d : List Nat) (p : Nat) :
    (convert_endian_n n size d p).1 = applyPairs (cenPairs n size p) d := by
  have hloop : ∀ k, (List.range k).foldl (fun d k => convert_endian size d (p + k * size)) d
      = applyPairs (cenLoopPairs size p k) d := by
    intro k
    induction k with
    | zero => rfl
    | succ k ih =>
      rw [List.range_succ, List.foldl_append, ih, cenLoopPairs, applyPairs_append]
      exact convert_endian_eq_pairs _ _ _
  unfold convert_endian_n cenPairs
  exact hloop _

theorem ce_branch (size p : Nat) (l : List (Nat × Nat)) (d : List Nat)
    (h : cePairs size p = l) : convert_endian size d p = applyPairs l d := by
  rw [convert_endian_eq_pairs, h]

theorem cen_branch (n size p : Nat) (l : List (Nat × Nat)) (d : List Nat)
    (h : cenPairs n size p = l) : (convert_endian_n n size d p).1 = applyPairs l d := by
  rw [convert_endian_n_eq_pairs, h]

theorem cen_ce_branch (n size p size2 q : Nat) (l : List (Nat × Nat)) (d : List Nat)
    (h : cenPairs n size p ++ cePairs size2 (q + (n + size - 1) / size * size) = l) :
    convert_endian size2 (convert_endian_n n size d p).1 (q + (convert_endian_n n size d p).2)
      = applyPairs l d := by
  rw [← h, applyPairs_append, ← convert_endian_n_eq_pairs, ← convert_endian_eq_pairs]
  rfl

/-- The transmit rule is the exchange of the pairs of `txPairs`. -/
theorem tx_swap_eq_pairs (be : Bool) (opcode : Nat) (d : List Nat) :
    mxl692_tx_swap be opcode d = applyPairs (txPairs be opcode) d := by
  unfold mxl692_tx_swap txPairs
  refine ite_rel2 (fun x l => x = applyPairs l d) _ _ _ _ _ rfl ?_
  refine ite_rel2 (fun x l => x = applyPairs l d) _ _ _ _ _ (ce_branch _ _ _ _ (by decide)) ?_
  exact ite_rel2 (fun x l => x = applyPairs l d) _ _ _ _ _ (ce_branch _ _ _ _ (by decide)) rfl

/-- The receive rule is the exchange of the pairs of `rxPairs`. -/
theorem rx_swap_eq_pairs (be : Bool) (opcode : Nat) (d : List Nat) :
    mxl692_rx_swap be opcode d = applyPairs (rxPairs be opcode) d := by
  unfold mxl692_rx_swap rxPairs
  refine ite_rel2 (fun x l => x = applyPairs l d) _ _ _ _ _ rfl ?_
  refine ite_rel2 (fun x l => x = applyPairs l d) _ _ _ _ _ (ce_branch _ _ _ _ (by decide)) ?_
  refine ite_rel2 (fun x l => x = applyPairs l d) _ _ _ _ _
    (cen_ce_branch _ _ _ _ _ _ _ (by decide)) ?_
  refine ite_rel2 (fun x l => x = applyPairs l d) _ _ _ _ _ (ce_branch _ _ _ _ (by decide)) ?_
  refine ite_rel2 (fun x l => x = applyPairs l d) _ _ _ _ _ (cen_branch _ _ _ _ _ (by decide)) ?_
  refine ite_rel2 (fun x l => x = applyPairs l d) _ _ _ _ _
    (cen_ce_branch _ _ _ _ _ _ _ (by decide)) ?_
  refine ite_rel2 (fun x l => x = applyPairs l d) _ _ _ _ _ (ce_branch _ _ _ _ (by decide)) ?_
  refine ite_rel2 (fun x l => x = applyPairs l d) _ _ _ _ _ (cen_branch _ _ _ _ _ (by decide)) ?_
  refine ite_rel2 (fun x l => x = applyPairs l d) _ _ _ _ _ (cen_branch _ _ _ _ _ (by decide)) ?_
  refine ite_rel2 (fun x l => x = applyPairs l d) _ _ _ _ _ (cen_branch _ _ _ _ _ (by decide)) ?_
  refine ite_rel2 (fun x l => x = applyPairs l d) _ _ _ _ _ (ce_branch _ _ _ _ (by decide)) ?_
  refine ite_rel2 (fun x l => x = applyPairs l d) _ _ _ _ _
    (cen_ce_branch _ _ _ _ _ _ _ (by decide)) ?_
  exact ite_rel2 (fun x l => x = applyPairs l d) _ _ _ _ _ (ce_branch _ _ _ _ (by decide)) rfl

theorem disjoint_txPairs (be : Bool) (opcode : Nat) : DisjointPairs (txPairs be opcode) := by
  unfold txPairs
  refine ite_pres DisjointPairs _ _ _ ⟨by decide, by decide⟩ ?_
  refine ite_pres DisjointPairs _ _ _ ⟨by decide, by decide⟩ ?_
  exact ite_pres DisjointPairs _ _ _ ⟨by decide, by decide⟩ ⟨by decide, by decide⟩

theorem disjoint_rxPairs (be : Bool) (opcode : Nat) : DisjointPairs (rxPairs be opcode) := by
  unfold rxPairs
  refine ite_pres DisjointPairs _ _ _ ⟨by decide, by decide⟩ ?_
  refine ite_pres DisjointPairs _ _ _ ⟨by decide, by decide⟩ ?_
  refine ite_pres DisjointPairs _ _ _ ⟨by decide, by decide⟩ ?_
  refine ite_pres DisjointPairs _ _ _ ⟨by decide, by decide⟩ ?_
  refine ite_pres DisjointPairs _ _ _ ⟨by decide, by decide⟩ ?_
  refine ite_pres DisjointPairs _ _ _ ⟨by decide, by decide⟩ ?_
  refine ite_pres DisjointPairs _ _ _ ⟨by decide, by decide⟩ ?_
  refine ite_pres DisjointPairs _ _ _ ⟨by decide, by decide⟩ ?_
  refine ite_pres DisjointPairs _ _ _ ⟨by decide, by decide⟩ ?_
  refine ite_pres DisjointPairs _ _ _ ⟨by decide, by decide⟩ ?_
  refine ite_pres DisjointPairs _ _ _ ⟨by decide, by decide⟩ ?_
  refine ite_pres DisjointPairs _ _ _ ⟨by decide, by decide⟩ ?_
  exact ite_pres DisjointPairs _ _ _ ⟨by decide, by decide⟩ ⟨by decide, by decide⟩

/-- C12: applying `convert_endian` twice to the same place restores the array,
for every size, every array and every offset, and `mxl692_tx_swap` applied
twice and `mxl692_rx_swap` applied twice each restore the frame, for every
opcode and both host byte orders. -/
theorem C12_swap_is_self_inverse :
    (∀ (size : Nat) (d : List Nat) (p : Nat),
        convert_endian size (convert_endian size d p) p = d)
      ∧ (∀ (be : Bool) (opcode : Nat) (d : List Nat),
        mxl692_tx_swap be opcode (mxl692_tx_swap be opcode d) = d)
      ∧ (∀ (be : Bool) (opcode : Nat) (d : List Nat),
        mxl692_rx_swap be opcode (mxl692_rx_swap be opcode d) = d) := by
  refine ⟨convert_endian_invol, ?_, ?_⟩
  · intro be opcode d
    rw [tx_swap_eq_pairs, tx_swap_eq_pairs]
    exact applyPairs_invol _ _ (disjoint_txPairs be opcode)
  · intro be opcode d
    rw [rx_swap_eq_pairs, rx_swap_eq_pairs]
    exact applyPairs_invol _ _ (disjoint_rxPairs be opcode)

/-! ## C13, C14: the two directions of the swap rules -/

theorem tx_swap_no_rule (be : Bool) (opcode : Nat) (d : List Nat)
    (h : be = true ∨ opcode ∉ txRuleOpcodes) : mxl692_tx_swap be opcode d = d := by
  unfold mxl692_tx_swap
  by_cases hbe : be = true
  · rw [if_pos hbe]
  · have h := h.resolve_left hbe
    rw [if_neg hbe]
    simp only [txRuleOpcodes, List.mem_cons, List.mem_singleton, not_or, List.mem_nil_iff,
      or_false] at h
    obtain ⟨h1, h2, h3, h4⟩ := h
    simp only
    rw [if_neg (by simp only [not_or]; exact ⟨h1, h2, h3⟩), if_neg h4]

/-- No opcode has a rule in both directions. -/
theorem no_rule_in_both (opcode : Nat) : opcode ∉ rxRuleOpcodes ∨ opcode ∉ txRuleOpcodes := by
  by_cases h : opcode ∈ txRuleOpcodes
  · left
    simp only [txRuleOpcodes, List.mem_cons, List.mem_singleton, List.mem_nil_iff,
      or_false] at h
    rcases h with h | h | h | h <;> subst h <;> decide
  · exact Or.inr h

/-- C13 as stated fails: on a little-endian host the transmit rule of
`TUNER_CHANNEL_TUNE_SET` reverses the four bytes of `freqInHz` and the receive
rule for the same opcode does nothing, so tx then rx (and rx then tx) leaves
`01 02 03 04` where the payload had `04 03 02 01`. -/
theorem C13_tune_set_round_trip_differs :
    mxl692_rx_swap false MXL_EAGLE_OPCODE_TUNER_CHANNEL_TUNE_SET
        (mxl692_tx_swap false MXL_EAGLE_OPCODE_TUNER_CHANNEL_TUNE_SET tuneFrame)
      = [10, 1, 6, 0, 0, 0, 0, 0, 1, 2, 3, 4, 1, 6] ++ List.replicate 44 0
    ∧ mxl692_tx_swap false MXL_EAGLE_OPCODE_TUNER_CHANNEL_TUNE_SET
        (mxl692_rx_swap false MXL_EAGLE_OPCODE_TUNER_CHANNEL_TUNE_SET tuneFrame)
      = [10, 1, 6, 0, 0, 0, 0, 0, 1, 2, 3, 4, 1, 6] ++ List.replicate 44 0
    ∧ mxl692_rx_swap false MXL_EAGLE_OPCODE_TUNER_CHANNEL_TUNE_SET
        (mxl692_tx_swap false MXL_EAGLE_OPCODE_TUNER_CHANNEL_TUNE_SET tuneFrame) ≠ tuneFrame := by
  decide

/-- C13 (amended): no opcode has a rule in both directions, so for every
opcode, host byte order and frame the two orders of composition agree and equal
the one rule the opcode has (`mxl692_tx_swap` alone when there is no receive
rule, `mxl692_rx_swap` alone when there is no transmit rule); tx then rx (or
rx then tx) returns the original bytes on a big-endian host and for every
opcode without a rule in either direction, and applying the composition twice
returns the original bytes for every opcode. -/
theorem C13_swap_directions (be : Bool) (opcode : Nat) (d : List Nat) :
    mxl692_rx_swap be opcode (mxl692_tx_swap be opcode d)
        = mxl692_tx_swap be opcode (mxl692_rx_swap be opcode d)
      ∧ (opcode ∉ rxRuleOpcodes ∨ opcode ∉ txRuleOpcodes)
      ∧ (opcode ∉ rxRuleOpcodes →
          mxl692_rx_swap be opcode (mxl692_tx_swap be opcode d) = mxl692_tx_swap be opcode d)
      ∧ (opcode ∉ txRuleOpcodes →
          mxl692_rx_swap be opcode (mxl692_tx_swap be opcode d) = mxl692_rx_swap be opcode d)
      ∧ (be = true ∨ (opcode ∉ txRuleOpcodes ∧ opcode ∉ rxRuleOpcodes) →
          mxl692_rx_swap be opcode (mxl692_tx_swap be opcode d) = d
            ∧ mxl692_tx_swap be opcode (mxl692_rx_swap be opcode d) = d)
      ∧ mxl692_rx_swap be opcode (mxl692_tx_swap be opcode
          (mxl692_rx_swap be opcode (mxl692_tx_swap be opcode d))) = d := by
  have hrx : opcode ∉ rxRuleOpcodes → ∀ x, mxl692_rx_swap be opcode x = x :=
    fun h x => rx_swap_no_rule be opcode x (Or.inr h)
  have htx : opcode ∉ txRuleOpcodes → ∀ x, mxl692_tx_swap be opcode x = x :=
    fun h x => tx_swap_no_rule be opcode x (Or.inr h)
  have htt : ∀ x, mxl692_tx_swap be opcode (mxl692_tx_swap be opcode x) = x := by
    intro x
    rw [tx_swap_eq_pairs, tx_swap_eq_pairs]
    exact applyPairs_invol _ _ (disjoint_txPairs be opcode)
  have hrr : ∀ x, mxl692_rx_swap be opcode (mxl692_rx_swap be opcode x) = x := by
    intro x
    rw [rx_swap_eq_pairs, rx_swap_eq_pairs]
    exact applyPairs_invol _ _ (disjoint_rxPairs be opcode)
  refine ⟨?_, no_rule_in_both opcode, ?_, ?_, ?_, ?_⟩
  · rcases no_rule_in_both opcode with h | h
    · rw [hrx h, hrx h]
    · rw [htx h, htx h]
  · intro h
    rw [hrx h]
  · intro h
    rw [htx h]
  · intro h
    rcases h with h | h
    · have a := tx_swap_no_rule be opcode d (Or.inl h)
      have b := rx_swap_no_rule be opcode d (Or.inl h)
      exact ⟨by rw [a, b], by rw [b, a]⟩
    · exact ⟨by rw [htx h.1, hrx h.2], by rw [hrx h.2, htx h.1]⟩
  · rcases no_rule_in_both opcode with h | h
    · rw [hrx h, hrx h, htt]
    · rw [htx h, htx h, hrr]

/-- Witness for C13: `SMA_RECEIVE_GET` has no transmit rule, so on a
little-endian host tx then rx is the receive rule alone. -/
theorem C13_swap_directions_witness :
    MXL_EAGLE_OPCODE_SMA_RECEIVE_GET ∉ txRuleOpcodes
      ∧ mxl692_rx_swap false MXL_EAGLE_OPCODE_SMA_RECEIVE_GET
          (mxl692_tx_swap false MXL_EAGLE_OPCODE_SMA_RECEIVE_GET smaFrame)
        = mxl692_rx_swap false MXL_EAGLE_OPCODE_SMA_RECEIVE_GET smaFrame :=
  ⟨by decide,
    (C13_swap_directions false MXL_EAGLE_OPCODE_SMA_RECEIVE_GET smaFrame).2.2.2.1 (by decide)⟩

/-- C14: an opcode value without a `case` in `mxl692_tx_swap` (any value,
whether or not it names an opcode) leaves the whole frame unchanged under
`mxl692_tx_swap`, and likewise for `mxl692_rx_swap`; in particular
`mxl692_tx_swap` is the identity for every `_GET` opcode and `mxl692_rx_swap`
is the identity for every `_SET` opcode, on both host byte orders. -/
theorem C14_rule_table_is_total (be : Bool) (opcode : Nat) (d : List Nat) :
    (opcode ∉ txRuleOpcodes → mxl692_tx_swap be opcode d = d)
      ∧ (opcode ∉ rxRuleOpcodes → mxl692_rx_swap be opcode d = d)
      ∧ (opcode ∈ getOpcodes → mxl692_tx_swap be opcode d = d)
      ∧ (opcode ∈ setOpcodes → mxl692_rx_swap be opcode d = d) := by
  have hget : ∀ op ∈ getOpcodes, op ∉ txRuleOpcodes := by decide
  have hset : ∀ op ∈ setOpcodes, op ∉ rxRuleOpcodes := by decide
  exact ⟨fun h => tx_swap_no_rule be opcode d (Or.inr h),
    fun h => rx_swap_no_rule be opcode d (Or.inr h),
    fun h => tx_swap_no_rule be opcode d (Or.inr (hget opcode h)),
    fun h => rx_swap_no_rule be opcode d (Or.inr (hset opcode h))⟩

/-- Witness for C14: the value 200 names no opcode and `DEVICE_STATUS_GET` is a
`_GET` opcode. -/
theorem C14_rule_table_is_total_witness :
    (200 ∉ txRuleOpcodes ∧ mxl692_tx_swap false 200 smaFrame = smaFrame)
      ∧ (200 ∉ rxRuleOpcodes ∧ mxl692_rx_swap false 200 smaFrame = smaFrame) :=
  ⟨⟨by decide, (C14_rule_table_is_total false 200 smaFrame).1 (by decide)⟩,
    ⟨by decide, (C14_rule_table_is_total false 200 smaFrame).2.1 (by decide)⟩⟩

/-! ## C11: the layout of the request frame -/

theorem rd_append_left (l1 l2 : List Nat) (j : Nat) (h : j < l1.length) :
    rd (l1 ++ l2) j = rd l1 j := by
  unfold rd
  rw [List.getD_eq_getElem?_getD, List.getD_eq_getElem?_getD, List.getElem?_append_left h]

theorem rd_append_right (l1 l2 : List Nat) (j : Nat) (h : l1.length ≤ j) :
    rd (l1 ++ l2) j = rd l2 (j - l1.length) := by
  unfold rd
  rw [List.getD_eq_getElem?_getD, List.getD_eq_getElem?_getD, List.getElem?_append_right h]

theorem bytes_append (l1 l2 : List Nat) (h1 : Bytes l1) (h2 : Bytes l2) : Bytes (l1 ++ l2) := by
  intro j
  by_cases h : j < l1.length
  · rw [rd_append_left _ _ _ h]; exact h1 j
  · rw [rd_append_right _ _ _ (by omega)]; exact h2 _

theorem txFrame_eq (be : Bool) (opcode seq : Nat) (p : Option (List Nat)) (sz : Nat) :
    txFrame be opcode seq p sz
      = store32 be (store32 be (mxl692_tx_swap be opcode (txFilled be opcode seq p sz)) 4 0) 4
          (mxl692_checksum be
            (store32 be (mxl692_tx_swap be opcode (txFilled be opcode seq p sz)) 4 0)
            (8 + sz)) := rfl

theorem length_txFilled (be : Bool) (opcode seq : Nat) (p : Option (List Nat)) (sz : Nat) :
    (txFilled be opcode seq p sz).length = 58 := by
  unfold txFilled MXL_EAGLE_MAX_I2C_PACKET_SIZE
  cases p with
  | none => simp
  | some q => by_cases h : sz > 0 <;> simp [h]

theorem bytes_txFilled (be : Bool) (opcode seq : Nat) (p : Option (List Nat)) (sz : Nat)
    (hp : ∀ q, p = some q → Bytes q) : Bytes (txFilled be opcode seq p sz) := by
  have h0 : Bytes ((((store32 be (List.replicate MXL_EAGLE_MAX_I2C_PACKET_SIZE 0) 4 0).set 0
      (opcode % 256)).set 2 (sz % 256)).set 1 (seq % 256)) :=
    bytes_set _ _ _ (bytes_set _ _ _ (bytes_set _ _ _
      (bytes_store32 _ _ _ _ (bytes_replicate _)) (by omega)) (by omega)) (by omega)
  unfold txFilled
  cases p with
  | none => exact h0
  | some q =>
    simp only
    split
    · exact bytes_memcpy _ _ _ _ h0 (hp q rfl)
    · exact h0

theorem rd_txFilled_header (be : Bool) (opcode seq : Nat) (p : Option (List Nat)) (sz j : Nat)
    (hj : j < 8) :
    rd (txFilled be opcode seq p sz) j = rd [opcode % 256, seq % 256, sz % 256, 0, 0, 0, 0, 0] j := by
  have h0 : rd ((((store32 be (List.replicate MXL_EAGLE_MAX_I2C_PACKET_SIZE 0) 4 0).set 0
      (opcode % 256)).set 2 (sz % 256)).set 1 (seq % 256)) j
      = rd [opcode % 256, seq % 256, sz % 256, 0, 0, 0, 0, 0] j := by
    have hc : j = 0 ∨ j = 1 ∨ j = 2 ∨ j = 3 ∨ (4 ≤ j ∧ j < 8) := by omega
    rcases hc with h | h | h | h | h
    · subst h
      rw [rd_set_ne _ _ _ _ (by omega), rd_set_ne _ _ _ _ (by omega),
        rd_set_eq _ _ _ (by simp [MXL_EAGLE_MAX_I2C_PACKET_SIZE])]
      rfl
    · subst h
      rw [rd_set_eq _ _ _ (by simp [MXL_EAGLE_MAX_I2C_PACKET_SIZE])]
      rfl
    · subst h
      rw [rd_set_ne _ _ _ _ (by omega),
        rd_set_eq _ _ _ (by simp [MXL_EAGLE_MAX_I2C_PACKET_SIZE])]
      rfl
    · subst h
      rw [rd_set_ne _ _ _ _ (by omega), rd_set_ne _ _ _ _ (by omega),
        rd_set_ne _ _ _ _ (by omega), rd_store32_other _ _ _ _ _ (Or.inl (by omega)),
        rd_replicate]
      rfl
    · rw [rd_set_ne _ _ _ _ (by omega), rd_set_ne _ _ _ _ (by omega),
        rd_set_ne _ _ _ _ (by omega)]
      have h4 : j = 4 ∨ j = 5 ∨ j = 6 ∨ j = 7 := by omega
      rcases h4 with e | e | e | e <;> subst e <;> cases be <;> rfl
  unfold txFilled
  cases p with
  | none => exact h0
  | some q =>
    simp only
    split
    · rw [rd_memcpy, if_neg (by unfold MXL_EAGLE_HOST_MSG_HEADER_SIZE; omega)]
      exact h0
    · exact h0

theorem agree_txFilled (be : Bool) (opcode seq : Nat) (p : Option (List Nat)) (sz : Nat) :
    AgreeFrom8 (txFilled be opcode seq p sz) (payloadImage p sz) := by
  refine ⟨by rw [length_txFilled]; simp [payloadImage, MXL_EAGLE_MAX_I2C_PACKET_SIZE], ?_⟩
  intro j hj
  have h0 : rd ((((store32 be (List.replicate MXL_EAGLE_MAX_I2C_PACKET_SIZE 0) 4 0).set 0
      (opcode % 256)).set 2 (sz % 256)).set 1 (seq % 256)) j = 0 := by
    rw [rd_set_ne _ _ _ _ (by omega), rd_set_ne _ _ _ _ (by omega),
      rd_set_ne _ _ _ _ (by omega), rd_store32_other _ _ _ _ _ (Or.inr (by omega)),
      rd_replicate]
  unfold txFilled payloadImage
  cases p with
  | none =>
    simp only [Option.getD_none]
    rw [h0, rd_memcpy, rd_replicate]
    split
    · unfold rd; simp
    · rfl
  | some q =>
    simp only [Option.getD_some]
    by_cases hs : sz > 0
    · rw [if_pos hs, rd_memcpy, rd_memcpy, h0, rd_replicate]
      simp
    · have hs0 : sz = 0 := by omega
      subst hs0
      rw [if_neg hs, h0, rd_memcpy, rd_replicate, if_neg (by omega)]

theorem agree_tx_swap (be : Bool) (opcode : Nat) (x y : List Nat) (h0 : AgreeFrom8 x y) :
    AgreeFrom8 (mxl692_tx_swap be opcode x) (mxl692_tx_swap be opcode y) := by
  unfold mxl692_tx_swap
  refine ite_rel AgreeFrom8 _ _ _ _ _ h0 ?_
  refine ite_rel AgreeFrom8 _ _ _ _ _ (agree_convert_endian _ _ _ _ (Nat.le_refl 8) h0) ?_
  exact ite_rel AgreeFrom8 _ _ _ _ _
    (agree_convert_endian _ _ _ _ (Nat.le_add_right 8 5) h0) h0

/-- The transmit buffer just before the checksum is stored is the
specification's unsealed frame. -/
theorem txFrame_unsealed (be : Bool) (opcode seq : Nat) (p : Option (List Nat)) (sz : Nat)
    (hop : opcode < 256) (hseq : seq < 256) (hsz : sz < 256) :
    store32 be (mxl692_tx_swap be opcode (txFilled be opcode seq p sz)) 4 0
      = unsealedLayout be opcode seq p sz := by
  have hag := agree_tx_swap be opcode _ _ (agree_txFilled be opcode seq p sz)
  have hlen : (mxl692_tx_swap be opcode (payloadImage p sz)).length = 58 := by
    rw [← hag.1, length_tx_swap, length_txFilled]
  apply ext_rd
  · unfold unsealedLayout
    simp only [length_store32, length_tx_swap, length_txFilled, List.length_append,
      List.length_drop, hlen]
    rfl
  · intro j _
    unfold unsealedLayout
    by_cases h8 : j < 8
    · rw [rd_append_left _ _ _ (by simpa using h8)]
      have hc : j < 4 ∨ (4 ≤ j ∧ j < 8) := by omega
      rcases hc with h | h
      · rw [rd_store32_other _ _ _ _ _ (Or.inl h), rd_tx_swap_header _ _ _ _ h8,
          rd_txFilled_header _ _ _ _ _ _ h8, Nat.mod_eq_of_lt hop, Nat.mod_eq_of_lt hseq,
          Nat.mod_eq_of_lt hsz]
      · rw [rd_store32_in be _ (List.replicate 58 0) 4 0 j
          (by rw [length_tx_swap, length_txFilled]; simp) h.1 h.2]
        have h4 : j = 4 ∨ j = 5 ∨ j = 6 ∨ j = 7 := by omega
        rcases h4 with e | e | e | e <;> subst e <;> cases be <;> rfl
    · rw [rd_append_right _ _ _ (by simp; omega), rd_store32_other _ _ _ _ _ (Or.inr (by omega)),
        hag.2 j (by omega), rd_drop]
      congr 1
      simp
      omega

theorem swab32_byte (x : Nat) :
    swab32 x % 256 = x / 16777216 % 256 ∧ swab32 x / 256 % 256 = x / 65536 % 256
      ∧ swab32 x / 65536 % 256 = x / 256 % 256 ∧ swab32 x / 16777216 % 256 = x % 256 := by
  unfold swab32
  have hA : x % 256 < 256 := Nat.mod_lt _ (by norm_num)
  have hB : x / 256 % 256 < 256 := Nat.mod_lt _ (by norm_num)
  have hC : x / 65536 % 256 < 256 := Nat.mod_lt _ (by norm_num)
  have hD : x / 16777216 % 256 < 256 := Nat.mod_lt _ (by norm_num)
  generalize x % 256 = A at hA ⊢
  generalize x / 256 % 256 = B at hB ⊢
  generalize x / 65536 % 256 = C at hC ⊢
  generalize x / 16777216 % 256 = D at hD ⊢
  refine ⟨?_, ?_, ?_, ?_⟩ <;> omega

theorem rd_store32_be32 (be : Bool) (d : List Nat) (off x k : Nat) (hl : off + 3 < d.length)
    (hk : k < 4) :
    rd (store32 be d off (be32_to_cpu be x)) (off + k) = rd (be32Bytes x) k := by
  have hc : k = 0 ∨ k = 1 ∨ k = 2 ∨ k = 3 := by omega
  have hs := swab32_byte x
  unfold store32 be32_to_cpu be32Bytes
  cases be
  · simp only [Bool.false_eq_true, if_false]
    rcases hc with h | h | h | h <;> subst h
    · simp only [Nat.add_zero]
      rw [rd_set_ne _ _ _ _ (by omega), rd_set_ne _ _ _ _ (by omega),
        rd_set_ne _ _ _ _ (by omega), rd_set_eq _ _ _ (by omega)]
      exact hs.1
    · rw [rd_set_ne _ _ _ _ (by omega), rd_set_ne _ _ _ _ (by omega),
        rd_set_eq _ _ _ (by simp; omega)]
      exact hs.2.1
    · rw [rd_set_ne _ _ _ _ (by omega), rd_set_eq _ _ _ (by simp; omega)]
      exact hs.2.2.1
    · rw [rd_set_eq _ _ _ (by simp; omega)]
      exact hs.2.2.2
  · simp only [if_true]
    rcases hc with h | h | h | h <;> subst h
    · simp only [Nat.add_zero]
      rw [rd_set_ne _ _ _ _ (by omega), rd_set_ne _ _ _ _ (by omega),
        rd_set_ne _ _ _ _ (by omega), rd_set_eq _ _ _ (by omega)]
      rfl
    · rw [rd_set_ne _ _ _ _ (by omega), rd_set_ne _ _ _ _ (by omega),
        rd_set_eq _ _ _ (by simp; omega)]
      rfl
    · rw [rd_set_ne _ _ _ _ (by omega), rd_set_eq _ _ _ (by simp; omega)]
      rfl
    · rw [rd_set_eq _ _ _ (by simp; omega)]
      rfl

theorem txFrame_layout (be : Bool) (opcode seq : Nat) (p : Option (List Nat)) (sz : Nat)
    (hop : opcode < 256) (hseq : seq < 256) (hsz : sz ≤ 48)
    (hp : ∀ q, p = some q → ∀ b ∈ q, b < 256) :
    txFrame be opcode seq p sz = frameLayout be opcode seq p sz := by
  have hZ := txFrame_unsealed be opcode seq p sz hop hseq (by omega)
  have hbZ : Bytes (unsealedLayout be opcode seq p sz) := by
    rw [← hZ]
    exact bytes_store32 _ _ _ _ (bytes_tx_swap _ _ _
      (bytes_txFilled be opcode seq p sz (fun q hq => bytes_of_forall q (hp q hq))))
  have hlZ : (unsealedLayout be opcode seq p sz).length = 58 := by
    rw [← hZ, length_store32, length_tx_swap, length_txFilled]
  have hc : mxl692_checksum be (unsealedLayout be opcode seq p sz) (8 + sz)
      = be32_to_cpu be (specChecksum
          ((unsealedLayout be opcode seq p sz).take ((8 + sz + 3) / 4 * 4))) := by
    rw [mxl692_checksum_eq be _ hbZ (8 + sz),
      wordSum_congr (unsealedLayout be opcode seq p sz)
        ((unsealedLayout be opcode seq p sz).take ((8 + sz + 3) / 4 * 4)) ((8 + sz + 3) / 4)
        (fun i hi => (rd_take _ _ _ hi).symm),
      wordSum_eq_beWordSum ((8 + sz + 3) / 4) _ (by rw [List.length_take, hlZ]; omega)]
    rfl
  rw [txFrame_eq, hZ, hc]
  have hD : (mxl692_tx_swap be opcode (payloadImage p sz)).length = 58 := by
    rw [length_tx_swap]
    simp [payloadImage, MXL_EAGLE_MAX_I2C_PACKET_SIZE]
  apply ext_rd
  · rw [length_store32, hlZ]
    unfold frameLayout
    simp only [List.length_append, List.length_drop, hD]
    rfl
  · intro j _
    unfold frameLayout
    have hc3 : j < 4 ∨ (4 ≤ j ∧ j < 8) ∨ 8 ≤ j := by omega
    rcases hc3 with h | h | h
    · rw [rd_store32_other _ _ _ _ _ (Or.inl h), rd_append_left _ _ _ (by simp [be32Bytes]; omega),
        rd_append_left _ _ _ (by simpa using h)]
      unfold unsealedLayout
      rw [rd_append_left _ _ _ (by simp; omega)]
      have h4 : j = 0 ∨ j = 1 ∨ j = 2 ∨ j = 3 := by omega
      rcases h4 with e | e | e | e <;> subst e <;> rfl
    · have ej : j = 4 + (j - 4) := by omega
      rw [rd_append_left _ _ _ (by simp [be32Bytes]; omega),
        rd_append_right _ _ _ (by simpa using h.1)]
      rw [ej, rd_store32_be32 be _ 4 _ (j - 4) (by omega) (by omega)]
      simp
    · rw [rd_store32_other _ _ _ _ _ (Or.inr (by omega)),
        rd_append_right _ _ _ (by simp [be32Bytes]; omega)]
      unfold unsealedLayout
      rw [rd_append_right _ _ _ (by simp; omega)]
      rfl

/-- C11: for every accepted call (opcode below 256, payload size at most 48,
payload bytes below 256) the transmit buffer handed to `mxl692_opwrite` is the
specification's frame: byte 0 the opcode, byte 1 the sequence byte, byte 2 the
payload size, byte 3 zero, bytes 4..7 the big-endian encoding of the sum of the
frame's big-endian words (bytes 4..7 zero, the payload already normalised) XOR
`0xDEADBEEF`, and from byte 8 the payload after `mxl692_tx_swap`; for an opcode
without a transmit rule the buffer is the same on both host byte orders. -/
theorem C11_request_frame_layout (be : Bool) (dev : mxl692_dev) (opcode : Nat)
    (pTx : Option (List Nat)) (sz : Nat)
    (hop : opcode < 256) (hsz : sz ≤ 48) (hp : ∀ q, pTx = some q → ∀ b ∈ q, b < 256) :
    txFrame be opcode (mxl692_next_seq dev).1 pTx sz
        = frameLayout be opcode (mxl692_next_seq dev).1 pTx sz
      ∧ (opcode ∉ txRuleOpcodes →
          txFrame true opcode (mxl692_next_seq dev).1 pTx sz
            = txFrame false opcode (mxl692_next_seq dev).1 pTx sz) := by
  have hq := next_seq_lt dev
  refine ⟨txFrame_layout be opcode _ pTx sz hop hq hsz hp, ?_⟩
  intro hno
  rw [txFrame_layout true opcode _ pTx sz hop hq hsz hp,
    txFrame_layout false opcode _ pTx sz hop hq hsz hp]
  unfold frameLayout unsealedLayout
  rw [tx_swap_no_rule true opcode _ (Or.inr hno), tx_swap_no_rule false opcode _ (Or.inr hno)]

/-- Witness for C11: `TUNER_CHANNEL_TUNE_SET` with its 6-byte payload on a
little-endian host. -/
theorem C11_request_frame_layout_witness :
    txFrame false 10 (mxl692_next_seq ⟨1⟩).1 (some [4, 3, 2, 1, 1, 6]) 6
        = frameLayout false 10 (mxl692_next_seq ⟨1⟩).1 (some [4, 3, 2, 1, 1, 6]) 6
      ∧ frameLayout false 10 (mxl692_next_seq ⟨1⟩).1 (some [4, 3, 2, 1, 1, 6]) 6
        = [10, 1, 6, 0, 0xD2, 0xA4, 0xB7, 0xEB, 1, 2, 3, 4, 1, 6] ++ List.replicate 44 0 :=
  ⟨(C11_request_frame_layout false ⟨1⟩ 10 (some [4, 3, 2, 1, 1, 6]) 6 (by decide) (by decide)
    (by intro q h; cases h; decide)).1, by decide⟩

/-! ## C15 to C18: size check, transmit failure, missing buffer -/

theorem writeread_oversize (be : Bool) (dev : mxl692_dev) (bus : Bus) (opcode : Nat)
    (pTx : Option (List Nat)) (sz : Nat) (pRx : Option (List Nat)) (r : Nat) (h : 48 < sz) :
    mxl692_i2c_writeread be dev bus opcode pTx sz pRx r = some ⟨- EINVAL, dev, bus, pRx⟩ := by
  unfold mxl692_i2c_writeread
  rw [if_pos]
  unfold MXL_EAGLE_HOST_MSG_HEADER_SIZE MXL_EAGLE_MAX_I2C_PACKET_SIZE MXL_EAGLE_I2C_PHEADER_SIZE
  omega

theorem checkResponse_status (be : Bool) (T F : List Nat) (r : Nat) (pRx : Option (List Nat))
    (st : Int) (p : Option (List Nat)) (h : checkResponse be T F r pRx = some (st, p)) :
    st = - EREMOTEIO ∨ 0 ≤ st := by
  unfold checkResponse at h
  split at h
  · simp only [Option.some.injEq, Prod.mk.injEq] at h
    right
    rw [← h.1]
    exact Int.ofNat_nonneg _
  · split at h
    · simp only [Option.some.injEq, Prod.mk.injEq] at h
      exact Or.inl h.1.symm
    · simp only at h
      split at h
      · simp only [Option.some.injEq, Prod.mk.injEq] at h
        exact Or.inl h.1.symm
      · split at h
        · split at h
          · simp only [Option.some.injEq, Prod.mk.injEq] at h
            exact Or.inl h.1.symm
          · split at h
            · exact absurd h (by simp)
            · simp only [Option.some.injEq, Prod.mk.injEq] at h
              right
              rw [← h.1]
        · simp only [Option.some.injEq, Prod.mk.injEq] at h
          right
          rw [← h.1]

/-- An accepted call consumes a sequence number and never returns `-EINVAL`. -/
theorem writeread_accepted (be : Bool) (dev : mxl692_dev) (bus : Bus) (opcode : Nat)
    (pTx : Option (List Nat)) (sz : Nat) (pRx : Option (List Nat)) (r : Nat) (o : Outcome)
    (hsz : sz ≤ 48) (h : mxl692_i2c_writeread be dev bus opcode pTx sz pRx r = some o) :
    (o.status = - EREMOTEIO ∨ o.status = - ETIMEDOUT ∨ 0 ≤ o.status)
      ∧ o.dev = (mxl692_next_seq dev).2 := by
  unfold mxl692_i2c_writeread at h
  have h1 : ¬ (sz + MXL_EAGLE_HOST_MSG_HEADER_SIZE
      > MXL_EAGLE_MAX_I2C_PACKET_SIZE - MXL_EAGLE_I2C_PHEADER_SIZE) := by
    unfold MXL_EAGLE_HOST_MSG_HEADER_SIZE MXL_EAGLE_MAX_I2C_PACKET_SIZE
      MXL_EAGLE_I2C_PHEADER_SIZE
    omega
  rw [if_neg h1] at h
  split at h
  · exact absurd h (by simp)
  · simp only at h
    split at h
    · exact absurd h (by simp)
    · split at h
      · simp only [Option.some.injEq] at h
        subst h
        exact ⟨Or.inl rfl, rfl⟩
      · split at h
        · exact absurd h (by simp)
        · split at h
          · simp only [Option.some.injEq] at h
            subst h
            exact ⟨Or.inr (Or.inl rfl), rfl⟩
          · split at h
            · exact absurd h (by simp)
            · rename_i st rx hc
              simp only [Option.some.injEq] at h
              subst h
              refine ⟨?_, rfl⟩
              rcases checkResponse_status _ _ _ _ _ _ _ hc with e | e
              · exact Or.inl e
              · exact Or.inr (Or.inr e)

/-- C15: `mxl692_i2c_writeread` returns `-EINVAL` if and only if the request
payload size exceeds 48 (payload plus the 8-byte header exceeds 56); in that
case it issues no bus transfer (the transport is unchanged), leaves the
sequence counter and the caller's buffer unchanged. -/
theorem C15_oversized_request_fails_fast (be : Bool) (dev : mxl692_dev) (bus : Bus)
    (opcode : Nat) (pTx : Option (List Nat)) (sz : Nat) (pRx : Option (List Nat)) (r : Nat) :
    ((∃ o, mxl692_i2c_writeread be dev bus opcode pTx sz pRx r = some o ∧ o.status = - EINVAL)
        ↔ 56 < sz + 8)
      ∧ (56 < sz + 8 →
          mxl692_i2c_writeread be dev bus opcode pTx sz pRx r
            = some ⟨- EINVAL, dev, bus, pRx⟩) := by
  refine ⟨⟨?_, ?_⟩, ?_⟩
  · rintro ⟨o, ho, hs⟩
    by_contra hc
    have := (writeread_accepted be dev bus opcode pTx sz pRx r o (by omega) ho).1
    rw [hs] at this
    rcases this with e | e | e
    · exact absurd e (by decide)
    · exact absurd e (by decide)
    · exact absurd e (by decide)
  · intro h
    exact ⟨_, writeread_oversize be dev bus opcode pTx sz pRx r (by omega), rfl⟩
  · intro h
    exact writeread_oversize be dev bus opcode pTx sz pRx r (by omega)

/-- Witness for C15: a request payload of 49 bytes. -/
theorem C15_oversized_request_fails_fast_witness :
    56 < 49 + 8
      ∧ mxl692_i2c_writeread false ⟨1⟩ echoBus 10 (some (List.replicate 49 0)) 49 none 0
        = some ⟨- EINVAL, ⟨1⟩, echoBus, none⟩ :=
  ⟨by decide,
    (C15_oversized_request_fails_fast false ⟨1⟩ echoBus 10 (some (List.replicate 49 0)) 49 none
      0).2 (by decide)⟩

/-- C16 fails on the code (evaluation): the expected response size is not
checked against the 58-byte `rxBuffer`. With size 49 the pipe read is of
57 bytes, rounded up to 60, and its 15th 4-byte read stores at the indices
56..59 (14 reads fit, the 15th does not); the model reports the store past the
end of the buffer as `none`. With size 48 the call completes. -/
theorem C16_receive_buffer_overflows :
    rxBuffer0.length = 58 ∧ (49 + 8 + 3) / 4 * 4 = 60
      ∧ (∀ rep ∈ overflowBus.script, rep.ret = 1)
      ∧ (opreadLoop 14 0 ⟨List.replicate 15 ⟨1, [0, 0, 0, 0]⟩, []⟩ rxBuffer0).isSome = true
      ∧ opreadLoop 15 0 ⟨List.replicate 15 ⟨1, [0, 0, 0, 0]⟩, []⟩ rxBuffer0 = none
      ∧ mxl692_i2c_writeread false ⟨1⟩ overflowBus 8 none 0 none 49 = none
      ∧ (mxl692_i2c_writeread false ⟨1⟩ overflowBus 8 none 0 none 48).isSome = true := by
  decide

theorem opwrite_log (bus bus1 : Bus) (d : List Nat) (size : Nat) (st : Int)
    (h : mxl692_opwrite bus d size = some (st, bus1)) :
    ∃ m, bus1.log = bus.log ++ [I2cMsg.write m] := by
  unfold mxl692_opwrite at h
  simp only at h
  split at h
  · exact absurd h (by simp)
  · split at h <;>
      (simp only [Option.some.injEq, Prod.mk.injEq] at h
       rw [← h.2]
       unfold mxl692_i2c_write
       exact ⟨_, log_i2c_transfer _ _⟩)

/-- C17: when the pipe write of the request of an accepted call reports a
failure, `mxl692_i2c_writeread` returns `-EREMOTEIO`, leaves the caller's
buffer alone, and the transport it leaves behind is the one the pipe write
left: the single write message of the request was issued, no poll and no
further write. -/
theorem C17_transmit_failure_is_immediate (be : Bool) (dev : mxl692_dev) (bus bus1 : Bus)
    (opcode : Nat) (pTx : Option (List Nat)) (sz : Nat) (pRx : Option (List Nat)) (r : Nat)
    (st : Int)
    (hsz : sz ≤ 48) (htx : ∀ p, pTx = some p → sz ≤ p.length)
    (hw : mxl692_opwrite bus (txFrame be opcode (mxl692_next_seq dev).1 pTx sz) (sz + 8)
      = some (st, bus1))
    (hst : st ≠ 0) :
    mxl692_i2c_writeread be dev bus opcode pTx sz pRx r
        = some ⟨- EREMOTEIO, (mxl692_next_seq dev).2, bus1, pRx⟩
      ∧ (∃ m, bus1.log = bus.log ++ [I2cMsg.write m])
      ∧ pollCount bus1.log = pollCount bus.log := by
  refine ⟨?_, opwrite_log _ _ _ _ _ hw, pollCount_opwrite _ _ _ _ _ hw⟩
  unfold mxl692_i2c_writeread
  have h1 : ¬ (sz + MXL_EAGLE_HOST_MSG_HEADER_SIZE
      > MXL_EAGLE_MAX_I2C_PACKET_SIZE - MXL_EAGLE_I2C_PHEADER_SIZE) := by
    unfold MXL_EAGLE_HOST_MSG_HEADER_SIZE MXL_EAGLE_MAX_I2C_PACKET_SIZE
      MXL_EAGLE_I2C_PHEADER_SIZE
    omega
  have h2 : ¬ ((pTx.getD []).length < sz ∧ pTx ≠ none) := by
    cases pTx with
    | none => simp
    | some p => have := htx p rfl; simp; omega
  rw [if_neg h1, if_neg h2]
  simp only [MXL_EAGLE_HOST_MSG_HEADER_SIZE] at hw ⊢
  rw [hw]
  simp only
  rw [if_pos hst]

/-- Witness for C17: the adapter fails the first transfer with `-EIO`. -/
theorem C17_transmit_failure_is_immediate_witness :
    mxl692_i2c_writeread false ⟨1⟩ deadBus 8 none 0 none 0
        = some ⟨- EREMOTEIO, (mxl692_next_seq ⟨1⟩).2, ⟨deadBus.script.tail, [statusRequest]⟩,
            none⟩
      ∧ (∃ m, (⟨deadBus.script.tail, [statusRequest]⟩ : Bus).log
          = deadBus.log ++ [I2cMsg.write m])
      ∧ pollCount (⟨deadBus.script.tail, [statusRequest]⟩ : Bus).log = pollCount deadBus.log :=
  C17_transmit_failure_is_immediate false ⟨1⟩ deadBus ⟨deadBus.script.tail, [statusRequest]⟩ 8
    none 0 none 0 (- EREMOTEIO) (by decide) (by intro p h; cases h) (by decide) (by decide)

/-- The validation of a matching frame without a caller buffer. -/
theorem checkResponse_valid_none (be : Bool) (T F : List Nat) (r : Nat) (hr : 0 < r)
    (hst : rd F 3 = 0) (hseq : rd F 1 = rd T 1) (hopc : rd F 0 = rd T 0) (hps : rd F 2 = r)
    (hck : load32 be F 4 = mxl692_checksum be (store32 be F 4 0) (8 + r)) :
    checkResponse be T F r none = some (- EREMOTEIO, none) := by
  unfold checkResponse
  rw [if_neg (by rw [hst]; simp), if_neg (by rw [hseq, hopc, hps]; simp)]
  simp only [MXL_EAGLE_HOST_MSG_HEADER_SIZE]
  rw [rd_store32_other _ _ _ _ _ (Or.inl (by omega)), hps,
    if_neg (by rw [hck]; simp), rd_rx_swap_header _ _ _ _ (by omega),
    rd_store32_other _ _ _ _ _ (Or.inl (by omega)), hps, if_pos hr]

/-- The validation of a matching frame without payload. -/
theorem checkResponse_valid_zero (be : Bool) (T F : List Nat) (pRx : Option (List Nat))
    (hst : rd F 3 = 0) (hseq : rd F 1 = rd T 1) (hopc : rd F 0 = rd T 0) (hps : rd F 2 = 0)
    (hck : load32 be F 4 = mxl692_checksum be (store32 be F 4 0) (8 + 0)) :
    checkResponse be T F 0 pRx = some (0, pRx) := by
  unfold checkResponse
  rw [if_neg (by rw [hst]; simp), if_neg (by rw [hseq, hopc, hps]; simp)]
  simp only [MXL_EAGLE_HOST_MSG_HEADER_SIZE]
  rw [rd_store32_other _ _ _ _ _ (Or.inl (by omega)), hps,
    if_neg (by rw [hck]; simp), rd_rx_swap_header _ _ _ _ (by omega),
    rd_store32_other _ _ _ _ _ (Or.inl (by omega)), hps, if_neg (by omega)]

/-- C18: when the request of an accepted call is written and the polling loop
ends with budget left on a frame that passes every check (status 0, the
request's sequence byte and opcode, payload size `r`, matching checksum), then
with `r > 0` and no caller buffer `mxl692_i2c_writeread` returns `-EREMOTEIO`,
and with `r = 0` it returns 0 and leaves the caller's buffer as it was, whether
or not there is one. -/
theorem C18_missing_caller_buffer (be : Bool) (dev : mxl692_dev) (bus bus1 bus2 : Bus)
    (opcode : Nat) (pTx : Option (List Nat)) (sz r : Nat) (t : Int) (F : List Nat)
    (hop : opcode < 256) (hsz : sz ≤ 48) (htx : ∀ p, pTx = some p → sz ≤ p.length)
    (hw : mxl692_opwrite bus (txFrame be opcode (mxl692_next_seq dev).1 pTx sz) (sz + 8)
      = some (0, bus1))
    (hp : pollLoop be (r + 8) 40 bus1 rxBuffer0 = some (t, 0, F, bus2)) (ht : t ≠ 0)
    (hst : rd F 3 = 0) (hseq : rd F 1 = (mxl692_next_seq dev).1) (hopc : rd F 0 = opcode)
    (hps : rd F 2 = r)
    (hck : load32 be F 4 = mxl692_checksum be (store32 be F 4 0) (8 + r)) :
    (0 < r → mxl692_i2c_writeread be dev bus opcode pTx sz none r
        = some ⟨- EREMOTEIO, (mxl692_next_seq dev).2, bus2, none⟩)
      ∧ (r = 0 → ∀ pRx, mxl692_i2c_writeread be dev bus opcode pTx sz pRx r
        = some ⟨0, (mxl692_next_seq dev).2, bus2, pRx⟩) := by
  have hh := rd_txFrame_header be opcode (mxl692_next_seq dev).1 pTx sz
  have hq := next_seq_lt dev
  have e1 : rd F 1 = rd (txFrame be opcode (mxl692_next_seq dev).1 pTx sz) 1 := by
    rw [hseq, hh.2.1, Nat.mod_eq_of_lt hq]
  have e0 : rd F 0 = rd (txFrame be opcode (mxl692_next_seq dev).1 pTx sz) 0 := by
    rw [hopc, hh.1, Nat.mod_eq_of_lt hop]
  refine ⟨?_, ?_⟩
  · intro hr
    have hwr := writeread_polled be dev bus bus1 bus2 opcode pTx sz none r t 0 F hsz htx hw hp
    rw [if_neg (by simp [ht]), checkResponse_valid_none be _ F r hr hst e1 e0 hps hck,
      Option.map_some'] at hwr
    exact hwr
  · intro hr pRx
    subst hr
    have hwr := writeread_polled be dev bus bus1 bus2 opcode pTx sz pRx 0 t 0 F hsz htx hw hp
    rw [if_neg (by simp [ht]), checkResponse_valid_zero be _ F pRx hst e1 e0 hps hck,
      Option.map_some'] at hwr
    exact hwr

/-- Witness for C18: the valid 4-byte response to opcode 38 with no caller
buffer, and the valid empty response to opcode 8 with a caller buffer. -/
theorem C18_missing_caller_buffer_witness :
    mxl692_i2c_writeread false ⟨1⟩ echoBus 38 none 0 none 4
        = some ⟨- EREMOTEIO, (mxl692_next_seq ⟨1⟩).2, echoPolled, none⟩
      ∧ mxl692_i2c_writeread false ⟨1⟩ (lateBus 1) 8 none 0 (some [9]) 0
        = some ⟨0, (mxl692_next_seq ⟨1⟩).2,
            ⟨(List.replicate 39 emptyPoll).flatten, statusRequest :: poll8⟩, some [9]⟩ :=
  ⟨(C18_missing_caller_buffer false ⟨1⟩ echoBus ⟨echoBus.script.tail, [echoRequest]⟩ echoPolled
      38 none 0 4 39 echoFrame (by decide) (by decide) (by intro p h; cases h) (by decide)
      (by decide) (by decide) (by decide) (by decide) (by decide) (by decide) (by decide)).1
      (by decide),
    (C18_missing_caller_buffer false ⟨1⟩ (lateBus 1)
      ⟨(lateBus 1).script.tail, [statusRequest]⟩
      ⟨(List.replicate 39 emptyPoll).flatten, statusRequest :: poll8⟩
      8 none 0 0 39 ([8, 1, 0, 0, 0xD6, 0xAC, 0xBE, 0xEF] ++ List.replicate 50 0)
      (by decide) (by decide) (by intro p h; cases h) (by decide)
      (by decide) (by decide) (by decide) (by decide) (by decide) (by decide) (by decide)).2
      rfl (some [9])⟩

/-! ## C19, C20: firmware header validation -/

theorem fwSumLoop_eq (buffer : List Nat) (n : Nat) :
    fwSumLoop buffer n = fwByteSum buffer n % 4294967296 := by
  induction n with
  | zero => rfl
  | succ n ih =>
    unfold fwSumLoop fwByteSum
    rw [ih]
    omega

theorem fwByteSum_eq_sum (buffer : List Nat) (n : Nat) (h : 16 + n ≤ buffer.length) :
    fwByteSum buffer n = ((buffer.drop 16).take n).sum := by
  induction n with
  | zero => simp [fwByteSum]
  | succ n ih =>
    have hl : n < (buffer.drop 16).length := by simp; omega
    rw [fwByteSum, ih (by omega), List.take_succ, List.sum_append, List.getElem?_eq_getElem hl]
    have e : rd buffer (16 + n) = (buffer.drop 16)[n] := by
      unfold rd
      rw [List.getD_eq_getElem?_getD, List.getElem_drop, List.getElem?_eq_getElem (by omega)]
      rfl
    rw [e]
    simp

theorem fwByteSum_congr (b1 b2 : List Nat) (n : Nat)
    (h : ∀ j, 16 ≤ j → j < 16 + n → rd b1 j = rd b2 j) : fwByteSum b1 n = fwByteSum b2 n := by
  induction n with
  | zero => rfl
  | succ n ih =>
    unfold fwByteSum
    rw [ih (fun j h1 h2 => h j h1 (by omega)), h (16 + n) (by omega) (by omega)]

theorem fwByteSum_set (buffer : List Nat) (i v n : Nat) (h1 : 16 ≤ i) (h2 : i < 16 + n)
    (hl : i < buffer.length) :
    fwByteSum (buffer.set i v) n + rd buffer i = fwByteSum buffer n + v := by
  induction n with
  | zero => omega
  | succ n ih =>
    unfold fwByteSum
    by_cases hc : i < 16 + n
    · have := ih hc
      rw [rd_set_ne _ _ _ _ (by omega)]
      omega
    · have e : i = 16 + n := by omega
      subst e
      rw [rd_set_eq _ _ _ hl,
        fwByteSum_congr _ buffer n (fun j _ hj => rd_set_ne _ _ _ _ (by omega))]
      omega

theorem take8_eq_magic (img : List Nat) (h : 8 ≤ img.length) :
    img.take 8 = fwMagic
      ↔ (rd img 0 = 0x4D ∧ rd img 1 = 0x31 ∧ rd img 2 = 0x10 ∧ rd img 3 = 0x02
        ∧ rd img 4 = 0x40 ∧ rd img 5 = 0x00 ∧ rd img 6 = 0x00 ∧ rd img 7 = 0x80) := by
  constructor
  · intro e
    have hr : ∀ j, j < 8 → rd img j = rd fwMagic j := fun j hj => by
      rw [← e, rd_take _ _ _ hj]
    exact ⟨hr 0 (by omega), hr 1 (by omega), hr 2 (by omega), hr 3 (by omega),
      hr 4 (by omega), hr 5 (by omega), hr 6 (by omega), hr 7 (by omega)⟩
  · intro e
    apply ext_rd
    · simp [fwMagic]; omega
    · intro j hj
      have hj8 : j < 8 := by simp at hj; omega
      rw [rd_take _ _ _ hj8]
      have hc : j = 0 ∨ j = 1 ∨ j = 2 ∨ j = 3 ∨ j = 4 ∨ j = 5 ∨ j = 6 ∨ j = 7 := by omega
      rcases hc with h | h | h | h | h | h | h | h <;> subst h
      · exact e.1
      · exact e.2.1
      · exact e.2.2.1
      · exact e.2.2.2.1
      · exact e.2.2.2.2.1
      · exact e.2.2.2.2.2.1
      · exact e.2.2.2.2.2.2.1
      · exact e.2.2.2.2.2.2.2

/-- What `mxl692_validate_fw_header` tests, for an image of at least 16 bytes. -/
theorem validate_fw_header_iff (be : Bool) (img : List Nat) (hb : Bytes img)
    (hn : 16 ≤ img.length) (hlen : img.length < 4294967296) :
    (mxl692_validate_fw_header be img img.length = 0
        ↔ (img.take 8 = fwMagic
          ∧ rd img 8 * 65536 + rd img 9 * 256 + rd img 10 = img.length - 16
          ∧ (img.drop 16).sum % 256 = rd img 11))
      ∧ (mxl692_validate_fw_header be img img.length = 0
        ∨ mxl692_validate_fw_header be img img.length = - EINVAL) := by
  have h8 := hb 8
  have h9 := hb 9
  have h10 := hb 10
  have h11 := hb 11
  have hsum : fwSumLoop img (img.length - 16) % 256 = (img.drop 16).sum % 256 := by
    rw [fwSumLoop_eq, fwByteSum_eq_sum img _ (by omega), List.take_of_length_le (by simp)]
    omega
  have hw : cpu_to_be32 be (load32 be img 8) / 256
      = rd img 8 * 65536 + rd img 9 * 256 + rd img 10 := by
    rw [cpu_to_be32_load32 be img 8 hb]
    show (rd img 8 * 16777216 + rd img 9 * 65536 + rd img 10 * 256 + rd img 11) / 256 = _
    omega
  have hl : (img.length + 4294967296 - 16) % 4294967296 = img.length - 16 := by omega
  rw [take8_eq_magic img (by omega)]
  unfold mxl692_validate_fw_header
  simp only [hw, hl, hsum]
  by_cases hm : rd img 0 ≠ 0x4D ∨ rd img 1 ≠ 0x31 ∨ rd img 2 ≠ 0x10 ∨ rd img 3 ≠ 0x02
      ∨ rd img 4 ≠ 0x40 ∨ rd img 5 ≠ 0x00 ∨ rd img 6 ≠ 0x00 ∨ rd img 7 ≠ 0x80
  · rw [if_pos hm]
    refine ⟨⟨fun h => absurd h (by decide), fun h => ?_⟩, Or.inr rfl⟩
    exfalso
    rcases hm with e | e | e | e | e | e | e | e
    · exact e h.1.1
    · exact e h.1.2.1
    · exact e h.1.2.2.1
    · exact e h.1.2.2.2.1
    · exact e h.1.2.2.2.2.1
    · exact e h.1.2.2.2.2.2.1
    · exact e h.1.2.2.2.2.2.2.1
    · exact e h.1.2.2.2.2.2.2.2
  · rw [if_neg hm]
    simp only [not_or, not_not] at hm
    by_cases hlf : img.length - 16 ≠ rd img 8 * 65536 + rd img 9 * 256 + rd img 10
    · rw [if_pos hlf]
      exact ⟨⟨fun h => absurd h (by decide), fun h => absurd h.2.1.symm hlf⟩, Or.inr rfl⟩
    · rw [if_neg hlf]
      simp only [not_not] at hlf
      by_cases hcs : (img.drop 16).sum % 256 ≠ rd img 11
      · rw [if_pos hcs]
        exact ⟨⟨fun h => absurd h (by decide), fun h => absurd h.2.2 hcs⟩, Or.inr rfl⟩
      · rw [if_neg hcs]
        simp only [not_not] at hcs
        exact ⟨⟨fun _ => ⟨hm, hlf.symm, hcs⟩, fun _ => rfl⟩, Or.inl rfl⟩

/-- C19: for every image of `n ≥ 16` bytes, on either host byte order,
`mxl692_validate_fw_header` returns 0 if and only if bytes 0..7 are
`4D 31 10 02 40 00 00 80`, the big-endian 24-bit value in bytes 8..10 equals
`n - 16`, and the sum of bytes 16..n-1 modulo 256 equals byte 11; otherwise it
returns `-EINVAL`. -/
theorem C19_fw_header_validation_is_exact (be : Bool) (img : List Nat)
    (hb : ∀ b ∈ img, b < 256) (hn : 16 ≤ img.length) (hlen : img.length < 4294967296) :
    (mxl692_validate_fw_header be img img.length = 0
        ↔ (img.take 8 = [0x4D, 0x31, 0x10, 0x02, 0x40, 0x00, 0x00, 0x80]
          ∧ rd img 8 * 65536 + rd img 9 * 256 + rd img 10 = img.length - 16
          ∧ (img.drop 16).sum % 256 = rd img 11))
      ∧ (mxl692_validate_fw_header be img img.length = 0
        ∨ mxl692_validate_fw_header be img img.length = - EINVAL) :=
  validate_fw_header_iff be img (bytes_of_forall img hb) hn hlen

/-- Witness for C19: a 20-byte image with the data `01 02 03 04`. -/
theorem C19_fw_header_validation_is_exact_witness :
    mxl692_validate_fw_header false goodImage goodImage.length = 0
      ∧ goodImage.take 8 = [0x4D, 0x31, 0x10, 0x02, 0x40, 0x00, 0x00, 0x80]
      ∧ rd goodImage 8 * 65536 + rd goodImage 9 * 256 + rd goodImage 10 = goodImage.length - 16
      ∧ (goodImage.drop 16).sum % 256 = rd goodImage 11 :=
  ⟨by decide,
    (C19_fw_header_validation_is_exact false goodImage (by decide) (by decide) (by decide)).1.mp
      (by decide)⟩

/-- C20: for every image of at least 16 bytes that passes
`mxl692_validate_fw_header`, changing any one byte of the magic prefix (bytes
0..7), of the length field and checksum byte (bytes 8..11) or of the data after
the 16-byte header makes validation return `-EINVAL`. -/
theorem C20_fw_single_byte_damage_detected (be : Bool) (img : List Nat) (i v : Nat)
    (hb : ∀ b ∈ img, b < 256) (hn : 16 ≤ img.length) (hlen : img.length < 4294967296)
    (hok : mxl692_validate_fw_header be img img.length = 0)
    (hi : i < img.length) (hi2 : i < 12 ∨ 16 ≤ i) (hv : v < 256) (hne : v ≠ rd img i) :
    mxl692_validate_fw_header be (img.set i v) img.length = - EINVAL := by
  have hB := bytes_of_forall img hb
  have hB2 : Bytes (img.set i v) := bytes_set _ _ _ hB hv
  have h0 := (validate_fw_header_iff be img hB hn hlen).1.mp hok
  have h1 := validate_fw_header_iff be (img.set i v) hB2 (by simpa using hn)
    (by simpa using hlen)
  rw [List.length_set] at h1
  rcases h1.2 with e | e
  · exfalso
    have h2 := h1.1.mp e
    rw [take8_eq_magic _ (by simp; omega)] at h2
    have h0m := (take8_eq_magic img (by omega)).mp h0.1
    have hbi := hB i
    have hc : i < 8 ∨ (8 ≤ i ∧ i < 11) ∨ i = 11 ∨ 16 ≤ i := by omega
    rcases hc with h | h | h | h
    · have h8 : i = 0 ∨ i = 1 ∨ i = 2 ∨ i = 3 ∨ i = 4 ∨ i = 5 ∨ i = 6 ∨ i = 7 := by omega
      rcases h8 with k | k | k | k | k | k | k | k <;> subst k
      · have := h2.1.1; rw [rd_set_eq _ _ _ hi] at this; omega
      · have := h2.1.2.1; rw [rd_set_eq _ _ _ hi] at this; omega
      · have := h2.1.2.2.1; rw [rd_set_eq _ _ _ hi] at this; omega
      · have := h2.1.2.2.2.1; rw [rd_set_eq _ _ _ hi] at this; omega
      · have := h2.1.2.2.2.2.1; rw [rd_set_eq _ _ _ hi] at this; omega
      · have := h2.1.2.2.2.2.2.1; rw [rd_set_eq _ _ _ hi] at this; omega
      · have := h2.1.2.2.2.2.2.2.1; rw [rd_set_eq _ _ _ hi] at this; omega
      · have := h2.1.2.2.2.2.2.2.2; rw [rd_set_eq _ _ _ hi] at this; omega
    · have hlf := h2.2.1
      have hlf0 := h0.2.1
      have b8 := hB 8
      have b9 := hB 9
      have b10 := hB 10
      have h3 : i = 8 ∨ i = 9 ∨ i = 10 := by omega
      rcases h3 with k | k | k <;> subst k
      · rw [rd_set_eq _ _ _ hi, rd_set_ne _ _ _ _ (by omega), rd_set_ne _ _ _ _ (by omega)]
          at hlf
        omega
      · rw [rd_set_ne _ _ _ _ (by omega), rd_set_eq _ _ _ hi, rd_set_ne _ _ _ _ (by omega)]
          at hlf
        omega
      · rw [rd_set_ne _ _ _ _ (by omega), rd_set_ne _ _ _ _ (by omega), rd_set_eq _ _ _ hi]
          at hlf
        omega
    · subst h
      have hs := h2.2.2
      have hs0 := h0.2.2
      have hd : (img.set 11 v).drop 16 = img.drop 16 := by
        apply ext_rd
        · simp
        · intro j _
          rw [rd_drop, rd_drop, rd_set_ne _ _ _ _ (by omega)]
      rw [hd, rd_set_eq _ _ _ hi] at hs
      omega
    · have hs := h2.2.2
      have hs0 := h0.2.2
      rw [rd_set_ne _ _ _ _ (by omega)] at hs
      have e1 := fwByteSum_eq_sum img (img.length - 16) (by omega)
      have e2 := fwByteSum_eq_sum (img.set i v) (img.length - 16) (by simp; omega)
      rw [List.take_of_length_le (by simp)] at e1 e2
      have e3 := fwByteSum_set img i v (img.length - 16) h (by omega) hi
      rw [← e1] at hs0
      rw [← e2] at hs
      omega
  · exact e

/-- Witness for C20: data byte 16 of the valid 20-byte image changed from `01`
to `09`. -/
theorem C20_fw_single_byte_damage_detected_witness :
    mxl692_validate_fw_header false goodImage goodImage.length = 0
      ∧ mxl692_validate_fw_header false (goodImage.set 16 9) goodImage.length = - EINVAL :=
  ⟨by decide,
    C20_fw_single_byte_damage_detected false goodImage 16 9 (by decide) (by decide) (by decide)
      (by decide) (by decide) (by decide) (by decide) (by decide)⟩

/-! ## Reversing 4-byte groups -/

@[simp] theorem length_applyPairs (l : List (Nat × Nat)) (d : List Nat) :
    (applyPairs l d).length = d.length := by
  induction l generalizing d with
  | nil => rfl
  | cons q t ih =>
    show (applyPairs t (xorSwap d q.1 q.2)).length = d.length
    rw [ih, length_xorSwap]

/-- The first `n` rounds of the loop of `convert_endian` reverse the first `n`
groups of four bytes at `p`. -/
theorem rd_ceLoop (d : List Nat) (p n j : Nat) (hl : p + 4 * n ≤ d.length) :
    rd (applyPairs (ceLoopPairs p n) d) j
      = if p ≤ j ∧ j < p + 4 * n then rd d (p + ((j - p) / 4 * 4 + (3 - (j - p) % 4)))
        else rd d j := by
  induction n generalizing j with
  | zero =>
    rw [if_neg (by omega)]
    rfl
  | succ n ih =>
    have ih := fun j => ih j (by omega : p + 4 * n ≤ d.length)
    rw [ceLoopPairs, applyPairs_append]
    show rd (xorSwap (xorSwap (applyPairs (ceLoopPairs p n) d) (p + 4 * n + 0) (p + 4 * n + 3))
      (p + 4 * n + 1) (p + 4 * n + 2)) j = _
    have hlen : (applyPairs (ceLoopPairs p n) d).length = d.length := length_applyPairs _ _
    generalize hD : applyPairs (ceLoopPairs p n) d = D at ih hlen ⊢
    have hX : ∀ i, rd (xorSwap D (p + 4 * n + 0) (p + 4 * n + 3)) i
        = if i = p + 4 * n + 0 then rd D (p + 4 * n + 3)
          else if i = p + 4 * n + 3 then rd D (p + 4 * n + 0) else rd D i := by
      intro i
      rw [rd_xorSwap _ _ _ _ (by omega), if_pos (by omega)]
    have hY : rd (xorSwap (xorSwap D (p + 4 * n + 0) (p + 4 * n + 3)) (p + 4 * n + 1)
        (p + 4 * n + 2)) j
        = if j = p + 4 * n + 1 then rd (xorSwap D (p + 4 * n + 0) (p + 4 * n + 3)) (p + 4 * n + 2)
          else if j = p + 4 * n + 2 then
            rd (xorSwap D (p + 4 * n + 0) (p + 4 * n + 3)) (p + 4 * n + 1)
          else rd (xorSwap D (p + 4 * n + 0) (p + 4 * n + 3)) j := by
      rw [rd_xorSwap _ _ _ _ (by omega), if_pos (by rw [length_xorSwap]; omega)]
    rw [hY]
    by_cases h1 : j = p + 4 * n + 1
    · rw [if_pos h1, hX, if_neg (by omega), if_neg (by omega), ih, if_neg (by omega),
        if_pos (by omega)]
      congr 1
      omega
    · rw [if_neg h1]
      by_cases h2 : j = p + 4 * n + 2
      · rw [if_pos h2, hX, if_neg (by omega), if_neg (by omega), ih, if_neg (by omega),
          if_pos (by omega)]
        congr 1
        omega
      · rw [if_neg h2, hX]
        by_cases h0 : j = p + 4 * n + 0
        · rw [if_pos h0, ih, if_neg (by omega), if_pos (by omega)]
          congr 1
          omega
        · rw [if_neg h0]
          by_cases h3 : j = p + 4 * n + 3
          · rw [if_pos h3, ih, if_neg (by omega), if_pos (by omega)]
            congr 1
            omega
          · rw [if_neg h3, ih]
            by_cases hin : p ≤ j ∧ j < p + 4 * n
            · rw [if_pos hin, if_pos (by omega)]
            · rw [if_neg hin, if_neg (by omega)]

/-- For a size that is a multiple of 4, `convert_endian(size, d + p)` reverses
every group of four bytes of the region. -/
theorem rd_convert_endian_in (size : Nat) (d : List Nat) (p i : Nat) (hs : size % 4 = 0)
    (hl : p + size ≤ d.length) (hi : i < size) :
    rd (convert_endian size d p) (p + i) = rd d (p + (i / 4 * 4 + (3 - i % 4))) := by
  rw [convert_endian_eq_pairs]
  unfold cePairs
  rw [hs]
  simp only [List.append_nil]
  rw [rd_ceLoop d p (size / 4) (p + i) (by omega), if_pos (by omega)]
  congr 2
  omega

@[simp] theorem length_reverseGroups : ∀ l : List Nat, (reverseGroups l).length = l.length
  | [] => rfl
  | [_] => rfl
  | [_, _] => rfl
  | [_, _, _] => rfl
  | _ :: _ :: _ :: _ :: rest => by
    rw [reverseGroups]
    simp [length_reverseGroups rest]

theorem rd_reverseGroups : ∀ (l : List Nat) (i : Nat), l.length % 4 = 0 → i < l.length →
    rd (reverseGroups l) i = rd l (i / 4 * 4 + (3 - i % 4))
  | [], _, _, hi => by simp at hi
  | [_], _, h, _ => by simp at h
  | [_, _], _, h, _ => by simp at h
  | [_, _, _], _, h, _ => by simp at h
  | a :: b :: c :: e :: rest, i, h, hi => by
    rw [reverseGroups]
    have hr : rest.length % 4 = 0 := by simp at h; omega
    by_cases h4 : i < 4
    · have hc : i = 0 ∨ i = 1 ∨ i = 2 ∨ i = 3 := by omega
      rcases hc with k | k | k | k <;> subst k <;> rfl
    · obtain ⟨t, rfl⟩ : ∃ t, i = t + 4 := ⟨i - 4, by omega⟩
      have ht : t < rest.length := by simp at hi; omega
      have e : (t + 4) / 4 * 4 + (3 - (t + 4) % 4) = (t / 4 * 4 + (3 - t % 4)) + 4 := by omega
      rw [e]
      show rd (reverseGroups rest) t = rd rest (t / 4 * 4 + (3 - t % 4))
      exact rd_reverseGroups rest t hr ht

theorem reverseGroups_append : ∀ (l1 l2 : List Nat), l1.length % 4 = 0 →
    reverseGroups (l1 ++ l2) = reverseGroups l1 ++ reverseGroups l2
  | [], _, _ => rfl
  | [_], _, h => by simp at h
  | [_, _], _, h => by simp at h
  | [_, _, _], _, h => by simp at h
  | a :: b :: c :: e :: rest, l2, h => by
    have hr : rest.length % 4 = 0 := by simp at h; omega
    show reverseGroups (a :: b :: c :: e :: (rest ++ l2)) = _
    rw [reverseGroups, reverseGroups, reverseGroups_append rest l2 hr]
    rfl

/-- The region `convert_endian` has worked on, as a reversed byte sequence. -/
theorem convert_endian_region (size : Nat) (d : List Nat) (p : Nat) (hs : size % 4 = 0)
    (hl : p + size ≤ d.length) :
    ((convert_endian size d p).drop p).take size = reverseGroups ((d.drop p).take size) := by
  apply ext_rd
  · simp
  · intro i hi
    have hi : i < size := by simp at hi; omega
    rw [rd_take _ _ _ hi, rd_drop, rd_convert_endian_in size d p i hs hl hi,
      rd_reverseGroups _ _ (by simp; omega) (by simp; omega), rd_take _ _ _ (by omega), rd_drop]

/-! ## Little-endian stores -/

theorem rd_store32_le32 (be : Bool) (d : List Nat) (off x k : Nat) (hl : off + 3 < d.length)
    (hk : k < 4) :
    rd (store32 be d off (cpu_to_le32 be x)) (off + k) = rd (le32Bytes x) k := by
  have hc : k = 0 ∨ k = 1 ∨ k = 2 ∨ k = 3 := by omega
  have hs := swab32_byte x
  unfold store32 cpu_to_le32 le32Bytes
  cases be
  · simp only [Bool.false_eq_true, if_false]
    rcases hc with h | h | h | h <;> subst h
    · simp only [Nat.add_zero]
      rw [rd_set_ne _ _ _ _ (by omega), rd_set_ne _ _ _ _ (by omega),
        rd_set_ne _ _ _ _ (by omega), rd_set_eq _ _ _ (by omega)]
      rfl
    · rw [rd_set_ne _ _ _ _ (by omega), rd_set_ne _ _ _ _ (by omega),
        rd_set_eq _ _ _ (by simp; omega)]
      rfl
    · rw [rd_set_ne _ _ _ _ (by omega), rd_set_eq _ _ _ (by simp; omega)]
      rfl
    · rw [rd_set_eq _ _ _ (by simp; omega)]
      rfl
  · simp only [if_true]
    rcases hc with h | h | h | h <;> subst h
    · simp only [Nat.add_zero]
      rw [rd_set_ne _ _ _ _ (by omega), rd_set_ne _ _ _ _ (by omega),
        rd_set_ne _ _ _ _ (by omega), rd_set_eq _ _ _ (by omega)]
      exact hs.2.2.2
    · rw [rd_set_ne _ _ _ _ (by omega), rd_set_ne _ _ _ _ (by omega),
        rd_set_eq _ _ _ (by simp; omega)]
      exact hs.2.2.1
    · rw [rd_set_ne _ _ _ _ (by omega), rd_set_eq _ _ _ (by simp; omega)]
      exact hs.2.1
    · rw [rd_set_eq _ _ _ (by simp; omega)]
      exact hs.1

/-! ## Transfers on the transport -/

theorem i2c_write_eq (bus : Bus) (buf : List Nat) (n : Nat) :
    mxl692_i2c_write bus buf n = (nextRet bus 0, busAfter bus 1 [I2cMsg.write (buf.take n)]) := by
  unfold mxl692_i2c_write i2c_transfer nextRet busAfter
  cases h : bus.script with
  | nil => simp
  | cons r rest => simp

theorem nextRet_busAfter (bus : Bus) (n j : Nat) (msgs : List I2cMsg) :
    nextRet (busAfter bus n msgs) j = nextRet bus (n + j) := by
  unfold nextRet busAfter
  simp only [List.getElem?_drop]

theorem busAfter_busAfter (bus : Bus) (n m : Nat) (a b : List I2cMsg) :
    busAfter (busAfter bus n a) m b = busAfter bus (n + m) (a ++ b) := by
  unfold busAfter
  simp only [List.drop_drop, List.append_assoc, Bus.mk.injEq, and_true]

theorem busAfter_zero (bus : Bus) : busAfter bus 0 [] = bus := by
  unfold busAfter
  simp

/-! ## The addressed-write envelope of a firmware chunk -/

theorem length_le32Bytes (x : Nat) : (le32Bytes x).length = 4 := rfl

/-- The bytes `mxl692_write_fw_block` hands to the bus for a chunk of `c` bytes
read at `ix`, with target address `x`. -/
theorem chunk_envelope (be : Bool) (pBuffer localBuf : List Nat) (ix x c : Nat)
    (hl : localBuf.length = 58) (hc : c ≤ 52) (hc4 : c % 4 = 0)
    (hin : ix + c ≤ pBuffer.length) :
    (convert_endian c (memcpy (store32 be ((localBuf.set 0 0xFC).set 1 ((c + 4) % 256)) 2
        (cpu_to_le32 be x)) 6 (pBuffer.drop ix) c) 6).take (c + 6)
      = [0xFC, c + 4] ++ le32Bytes x ++ reverseGroups ((pBuffer.drop ix).take c) := by
  have hS : (store32 be ((localBuf.set 0 0xFC).set 1 ((c + 4) % 256)) 2
      (cpu_to_le32 be x)).length = 58 := by
    rw [length_store32]; simp [hl]
  apply ext_rd
  · simp [hS, length_le32Bytes]
    omega
  · intro i hi
    have hi : i < c + 6 := by
      rw [List.length_take] at hi
      omega
    rw [rd_take _ _ _ hi]
    by_cases h6 : i < 6
    · rw [rd_convert_endian_other _ _ _ _ (Or.inl h6), rd_memcpy, if_neg (by omega),
        rd_append_left _ _ _ (by simp [length_le32Bytes]; omega)]
      by_cases h2 : i < 2
      · rw [rd_store32_other _ _ _ _ _ (Or.inl h2), rd_append_left _ _ _ (by simp; omega)]
        have hc2 : i = 0 ∨ i = 1 := by omega
        rcases hc2 with k | k <;> subst k
        · rw [rd_set_ne _ _ _ _ (by omega), rd_set_eq _ _ _ (by omega)]
          rfl
        · rw [rd_set_eq _ _ _ (by simp; omega), Nat.mod_eq_of_lt (by omega)]
          rfl
      · obtain ⟨k, rfl⟩ : ∃ k, i = 2 + k := ⟨i - 2, by omega⟩
        rw [rd_store32_le32 be _ 2 x k (by simp [hl]) (by omega),
          rd_append_right _ _ _ (by simp)]
        congr 1
        simp
    · obtain ⟨t, rfl⟩ : ∃ t, i = 6 + t := ⟨i - 6, by omega⟩
      have ht : t < c := by omega
      have hT : ((pBuffer.drop ix).take c).length = c := by
        rw [List.length_take, List.length_drop]
        omega
      have e6 : 6 + t - ([0xFC, c + 4] ++ le32Bytes x).length = t := by
        show 6 + t - 6 = t
        omega
      rw [rd_convert_endian_in c _ 6 t hc4 (by rw [length_memcpy, hS]; omega) ht, rd_memcpy,
        if_pos (by rw [hS]; omega),
        rd_append_right _ _ _ (by show 6 ≤ 6 + t; omega), e6,
        rd_reverseGroups _ _ (by rw [hT]; exact hc4) (by rw [hT]; exact ht),
        rd_take _ _ _ (by omega)]
      congr 1
      omega

theorem length_chunkEnvelope (pBuffer : List Nat) (start addr totalLen k : Nat)
    (h : start + 52 * k + chunkSize totalLen k ≤ pBuffer.length) :
    (chunkEnvelope pBuffer start addr totalLen k).length = chunkSize totalLen k + 6 := by
  unfold chunkEnvelope
  simp [length_le32Bytes]
  omega

/-- Chunk `k + 1` of a segment is chunk `k` of what is left after a full chunk. -/
theorem chunkEnvelope_succ (pBuffer : List Nat) (start addr totalLen k : Nat) :
    chunkEnvelope pBuffer (start + 52) (addr + 52) (totalLen - 52) k
      = chunkEnvelope pBuffer start addr totalLen (k + 1) := by
  unfold chunkEnvelope chunkSize
  have e1 : totalLen - 52 - 52 * k = totalLen - 52 * (k + 1) := by omega
  have e2 : addr + 52 + 52 * k = addr + 52 * (k + 1) := by omega
  have e3 : start + 52 + 52 * k = start + 52 * (k + 1) := by omega
  rw [e1, e2, e3]

theorem chunkCount_pos (totalLen : Nat) (h : 0 < totalLen) : 0 < chunkCount totalLen := by
  unfold chunkCount; omega

theorem chunkCount_le (totalLen : Nat) (h : totalLen ≤ 52) (h0 : 0 < totalLen) :
    chunkCount totalLen = 1 := by
  unfold chunkCount; omega

theorem chunkCount_sub (totalLen : Nat) (h : 52 < totalLen) :
    chunkCount totalLen = chunkCount (totalLen - 52) + 1 := by
  unfold chunkCount; omega

/-- The writes of the first `m` chunks of a segment. -/
theorem chunk_msgs_succ (pBuffer : List Nat) (start addr totalLen m : Nat) :
    I2cMsg.write (chunkEnvelope pBuffer start addr totalLen 0)
        :: (List.range m).map
          (fun k => I2cMsg.write (chunkEnvelope pBuffer (start + 52) (addr + 52) (totalLen - 52) k))
      = (List.range (m + 1)).map
          (fun k => I2cMsg.write (chunkEnvelope pBuffer start addr totalLen k)) := by
  rw [List.range_succ_eq_map, List.map_cons, List.map_map]
  congr 1
  apply List.map_congr_left
  intro k _
  show I2cMsg.write _ = I2cMsg.write _
  rw [chunkEnvelope_succ]


/-- One round of the loop of `mxl692_write_fw_block`. -/
theorem fwBlockLoop_step (be : Bool) (pBuffer : List Nat) (addr fuel totalLen prev ix : Nat)
    (localBuf : List Nat) (bus : Bus) (h0 : 0 < totalLen) (h4 : totalLen % 4 = 0)
    (hin : ix + chunkSize totalLen 0 ≤ pBuffer.length) (hl : localBuf.length = 58) :
    ∃ lb : List Nat, lb.length = 58 ∧
      fwBlockLoop be pBuffer addr (fuel + 1) totalLen prev ix localBuf bus
        = if nextRet bus 0 < 0 then
            some (- EREMOTEIO, ix,
              busAfter bus 1 [I2cMsg.write (chunkEnvelope pBuffer ix (addr + prev) totalLen 0)])
          else
            fwBlockLoop be pBuffer addr fuel (totalLen - chunkSize totalLen 0)
              ((prev + chunkSize totalLen 0) % 4294967296)
              ((ix + chunkSize totalLen 0) % 4294967296) lb
              (busAfter bus 1 [I2cMsg.write (chunkEnvelope pBuffer ix (addr + prev) totalLen 0)]) := by
  have hc : (if totalLen < MXL_EAGLE_MAX_I2C_PACKET_SIZE - MXL_EAGLE_I2C_MHEADER_SIZE
      then totalLen else MXL_EAGLE_MAX_I2C_PACKET_SIZE - MXL_EAGLE_I2C_MHEADER_SIZE)
      = chunkSize totalLen 0 := by
    unfold chunkSize MXL_EAGLE_MAX_I2C_PACKET_SIZE MXL_EAGLE_I2C_MHEADER_SIZE
    split <;> omega
  have hc52 : chunkSize totalLen 0 ≤ 52 := by unfold chunkSize; omega
  have hc4 : chunkSize totalLen 0 % 4 = 0 := by unfold chunkSize; omega
  have henv := chunk_envelope be pBuffer localBuf ix ((addr + prev) % 4294967296)
    (chunkSize totalLen 0) hl hc52 hc4 hin
  have he : [0xFC, chunkSize totalLen 0 + 4] ++ le32Bytes ((addr + prev) % 4294967296)
      ++ reverseGroups ((pBuffer.drop ix).take (chunkSize totalLen 0))
      = chunkEnvelope pBuffer ix (addr + prev) totalLen 0 := rfl
  rw [he] at henv
  refine ⟨convert_endian (chunkSize totalLen 0) (memcpy (store32 be ((localBuf.set 0 0xFC).set 1
    ((chunkSize totalLen 0 + 4) % 256)) 2 (cpu_to_le32 be ((addr + prev) % 4294967296))) 6
    (pBuffer.drop ix) (chunkSize totalLen 0)) 6, ?_, ?_⟩
  · rw [length_convert_endian, length_memcpy, length_store32]
    simp [hl]
  · rw [fwBlockLoop, if_pos h0]
    simp only [hc]
    rw [if_neg (by omega), i2c_write_eq]
    simp only
    rw [show chunkSize totalLen 0 + MXL_EAGLE_I2C_MHEADER_SIZE = chunkSize totalLen 0 + 6 from rfl,
      henv]

theorem chunkCount_step (totalLen : Nat) (h0 : 0 < totalLen) :
    chunkCount totalLen = chunkCount (totalLen - chunkSize totalLen 0) + 1 := by
  unfold chunkCount chunkSize
  omega

/-- The loop of `mxl692_write_fw_block` when the first `m` writes succeed and
either they are all the chunks or the next write fails. -/
theorem fwBlockLoop_run (be : Bool) (pBuffer : List Nat) (addr : Nat)
    (hlen : pBuffer.length < 4294967296) :
    ∀ (fuel totalLen prev ix m : Nat) (localBuf : List Nat) (bus : Bus),
      totalLen % 4 = 0 → totalLen ≤ fuel → ix + totalLen ≤ pBuffer.length →
      prev + totalLen < 4294967296 → localBuf.length = 58 →
      m ≤ chunkCount totalLen → (∀ j, j < m → 0 ≤ nextRet bus j) →
      (m < chunkCount totalLen → nextRet bus m < 0) →
      fwBlockLoop be pBuffer addr fuel totalLen prev ix localBuf bus
        = if m = chunkCount totalLen then
            some (0, ix + totalLen, busAfter bus m ((List.range m).map
              (fun k => I2cMsg.write (chunkEnvelope pBuffer ix (addr + prev) totalLen k))))
          else
            some (- EREMOTEIO, ix + 52 * m, busAfter bus (m + 1) ((List.range (m + 1)).map
              (fun k => I2cMsg.write (chunkEnvelope pBuffer ix (addr + prev) totalLen k)))) := by
  intro fuel
  induction fuel with
  | zero =>
    intro totalLen prev ix m localBuf bus _ hf _ _ _ hm _ _
    have ht : totalLen = 0 := by omega
    subst ht
    have hm0 : m = 0 := by
      have : chunkCount 0 = 0 := rfl
      omega
    subst hm0
    rw [fwBlockLoop, if_neg (by omega), if_pos (show 0 = chunkCount 0 from rfl)]
    simp [busAfter_zero]
  | succ fuel ih =>
    intro totalLen prev ix m localBuf bus h4 hf hin hp hl hm hok hfail
    by_cases h0 : totalLen = 0
    · subst h0
      have hm0 : m = 0 := by
        have : chunkCount 0 = 0 := rfl
        omega
      subst hm0
      rw [fwBlockLoop, if_neg (by omega), if_pos (show 0 = chunkCount 0 from rfl)]
      simp [busAfter_zero]
    · have h0 : 0 < totalLen := by omega
      have hcs : chunkSize totalLen 0 = min 52 totalLen := rfl
      have hcc := chunkCount_step totalLen h0
      obtain ⟨lb, hlb, hstep⟩ := fwBlockLoop_step be pBuffer addr fuel totalLen prev ix localBuf
        bus h0 h4 (by omega) hl
      rw [hstep]
      cases m with
      | zero =>
        rw [if_pos (hfail (by omega)), if_neg (by omega)]
        rfl
      | succ m =>
        rw [if_neg (by have := hok 0 (by omega); omega),
          Nat.mod_eq_of_lt (by omega), Nat.mod_eq_of_lt (by omega),
          ih (totalLen - chunkSize totalLen 0) (prev + chunkSize totalLen 0)
            (ix + chunkSize totalLen 0) m lb _ (by omega) (by omega) (by omega) (by omega) hlb
            (by omega)
            (fun j hj => by rw [nextRet_busAfter]; exact hok (1 + j) (by omega))
            (fun hj => by rw [nextRet_busAfter, Nat.add_comm]; exact hfail (by omega))]
        by_cases hbig : 52 < totalLen
        · have hc52 : chunkSize totalLen 0 = 52 := by omega
          rw [hc52] at hcc ⊢
          rw [busAfter_busAfter, busAfter_busAfter, ← Nat.add_assoc addr prev 52]
          simp only [List.singleton_append]
          rw [chunk_msgs_succ, chunk_msgs_succ]
          by_cases hmm : m = chunkCount (totalLen - 52)
          · rw [if_pos hmm, if_pos (by omega)]
            congr 3
            · omega
            · rw [Nat.add_comm]
          · rw [if_neg hmm, if_neg (by omega)]
            congr 3
            · omega
            · rw [Nat.add_comm]
        · have hc52 : chunkSize totalLen 0 = totalLen := by omega
          rw [hc52] at hcc ⊢
          have hz : totalLen - totalLen = 0 := by omega
          rw [hz] at hcc ⊢
          have hcz : chunkCount 0 = 0 := rfl
          have hm0 : m = 0 := by omega
          subst hm0
          rw [if_pos (show 0 = chunkCount 0 from rfl), if_pos (by omega)]
          simp [busAfter, List.range_succ]

/-! ## One firmware segment -/

theorem fwByte_eq (pBuffer : List Nat) (ix k : Nat) (h : ix + k < pBuffer.length)
    (hlen : pBuffer.length < 4294967296) : fwByte pBuffer ix k = some (rd pBuffer (ix + k)) := by
  unfold fwByte rd
  rw [Nat.mod_eq_of_lt (by omega), List.getD_eq_getElem?_getD, List.getElem?_eq_getElem h]
  rfl

theorem length_segmentWrites (pBuffer : List Nat) (ix : Nat) :
    (segmentWrites pBuffer ix).length = chunkCount (align4 (segLength pBuffer ix)) := by
  unfold segmentWrites
  simp

theorem take_segmentWrites (pBuffer : List Nat) (ix m : Nat)
    (hm : m ≤ chunkCount (align4 (segLength pBuffer ix))) :
    ((segmentWrites pBuffer ix).take m).map I2cMsg.write
      = (List.range m).map (fun k => I2cMsg.write (chunkEnvelope pBuffer (ix + 8)
          (segAddress pBuffer ix) (align4 (segLength pBuffer ix)) k)) := by
  unfold segmentWrites
  rw [← List.map_take, List.take_range, Nat.min_eq_left hm, List.map_map]
  rfl

theorem align4_mod (n : Nat) : align4 n % 4 = 0 := by
  unfold align4; omega

/-- The loop of `mxl692_write_fw_block` with the target address of its first
chunk named `base`. -/
theorem fwBlockLoop_from (be : Bool) (pBuffer : List Nat) (addr : Nat)
    (hlen : pBuffer.length < 4294967296) (fuel totalLen prev ix m base : Nat)
    (localBuf : List Nat) (bus : Bus) (hb : base = addr + prev)
    (h4 : totalLen % 4 = 0) (hf : totalLen ≤ fuel) (hin : ix + totalLen ≤ pBuffer.length)
    (hp : prev + totalLen < 4294967296) (hl : localBuf.length = 58)
    (hm : m ≤ chunkCount totalLen) (hok : ∀ j, j < m → 0 ≤ nextRet bus j)
    (hfail : m < chunkCount totalLen → nextRet bus m < 0) :
    fwBlockLoop be pBuffer addr fuel totalLen prev ix localBuf bus
      = if m = chunkCount totalLen then
          some (0, ix + totalLen, busAfter bus m ((List.range m).map
            (fun k => I2cMsg.write (chunkEnvelope pBuffer ix base totalLen k))))
        else
          some (- EREMOTEIO, ix + 52 * m, busAfter bus (m + 1) ((List.range (m + 1)).map
            (fun k => I2cMsg.write (chunkEnvelope pBuffer ix base totalLen k)))) := by
  subst hb
  exact fwBlockLoop_run be pBuffer addr hlen fuel totalLen prev ix m localBuf bus h4 hf hin hp hl
    hm hok hfail

/-- The function `mxl692_write_fw_block` on a segment that lies inside the
image, when the first `m` writes succeed and either they are all the chunks or
the next write fails. -/
theorem write_fw_block_run (be : Bool) (bus : Bus) (pBuffer : List Nat) (bufferLen ix m : Nat)
    (hlen : pBuffer.length < 4294967296) (hseg : SegmentAt pBuffer ix)
    (hm : m ≤ chunkCount (align4 (segLength pBuffer ix)))
    (hok : ∀ j, j < m → 0 ≤ nextRet bus j)
    (hfail : m < chunkCount (align4 (segLength pBuffer ix)) → nextRet bus m < 0) :
    mxl692_write_fw_block be bus pBuffer bufferLen ix
      = if m = chunkCount (align4 (segLength pBuffer ix)) then
          some (0, ix + 8 + align4 (segLength pBuffer ix),
            busAfter bus m ((segmentWrites pBuffer ix).map I2cMsg.write))
        else
          some (- EREMOTEIO, ix + 8 + 52 * m,
            busAfter bus (m + 1) (((segmentWrites pBuffer ix).take (m + 1)).map I2cMsg.write)) := by
  obtain ⟨hmk, hin⟩ := hseg
  have hA := align4_mod (segLength pBuffer ix)
  have hin' : ix + 8 + align4 (segLength pBuffer ix) ≤ pBuffer.length := hin
  have hp' : 0 + align4 (segLength pBuffer ix) < 4294967296 := by omega
  have hl' : (List.replicate MXL_EAGLE_MAX_I2C_PACKET_SIZE 0).length = 58 :=
    List.length_replicate _ _
  have hrun : fwBlockLoop be pBuffer (segAddress pBuffer ix) (align4 (segLength pBuffer ix))
      (align4 (segLength pBuffer ix)) 0 (ix + 8) (List.replicate MXL_EAGLE_MAX_I2C_PACKET_SIZE 0)
      bus
      = if m = chunkCount (align4 (segLength pBuffer ix)) then
          some (0, ix + 8 + align4 (segLength pBuffer ix), busAfter bus m ((List.range m).map
            (fun k => I2cMsg.write (chunkEnvelope pBuffer (ix + 8) (segAddress pBuffer ix)
              (align4 (segLength pBuffer ix)) k))))
        else
          some (- EREMOTEIO, ix + 8 + 52 * m, busAfter bus (m + 1) ((List.range (m + 1)).map
            (fun k => I2cMsg.write (chunkEnvelope pBuffer (ix + 8) (segAddress pBuffer ix)
              (align4 (segLength pBuffer ix)) k)))) :=
    fwBlockLoop_from be pBuffer (segAddress pBuffer ix) hlen
      (align4 (segLength pBuffer ix)) (align4 (segLength pBuffer ix)) 0 (ix + 8) m
      (segAddress pBuffer ix) (List.replicate MXL_EAGLE_MAX_I2C_PACKET_SIZE 0) bus
      (Nat.add_zero _).symm hA (Nat.le_refl _) hin' hp' hl' hm hok hfail
  unfold mxl692_write_fw_block
  rw [fwByte_eq _ _ 0 (by omega) hlen, fwByte_eq _ _ 1 (by omega) hlen,
    fwByte_eq _ _ 2 (by omega) hlen, fwByte_eq _ _ 3 (by omega) hlen,
    fwByte_eq _ _ 4 (by omega) hlen, fwByte_eq _ _ 5 (by omega) hlen,
    fwByte_eq _ _ 6 (by omega) hlen, fwByte_eq _ _ 7 (by omega) hlen]
  simp only [Nat.add_zero]
  rw [if_pos hmk]
  simp only [Option.bind_eq_bind, Option.some_bind, MXL_EAGLE_FW_SEGMENT_HEADER_SIZE]
  rw [Nat.mod_eq_of_lt (by omega)]
  have e1 : (rd pBuffer (ix + 1) * 65536 + rd pBuffer (ix + 2) * 256 + rd pBuffer (ix + 3) + 3)
      / 4 * 4 = align4 (segLength pBuffer ix) := rfl
  have e2 : rd pBuffer (ix + 4) * 16777216 + rd pBuffer (ix + 5) * 65536
      + rd pBuffer (ix + 6) * 256 + rd pBuffer (ix + 7) = segAddress pBuffer ix := rfl
  rw [e1, e2, hrun]
  by_cases hmm : m = chunkCount (align4 (segLength pBuffer ix))
  · rw [if_pos hmm, if_pos hmm, ← take_segmentWrites pBuffer ix m hm,
      List.take_of_length_le (by rw [length_segmentWrites]; omega), Nat.add_assoc]
  · rw [if_neg hmm, if_neg hmm, ← take_segmentWrites pBuffer ix (m + 1) (by omega)]

/-- The function `mxl692_write_fw_block` when every write of the segment
succeeds. -/
theorem write_fw_block_ok (be : Bool) (bus : Bus) (pBuffer : List Nat) (bufferLen ix : Nat)
    (hlen : pBuffer.length < 4294967296) (hseg : SegmentAt pBuffer ix)
    (hok : ∀ j, j < chunkCount (align4 (segLength pBuffer ix)) → 0 ≤ nextRet bus j) :
    mxl692_write_fw_block be bus pBuffer bufferLen ix
      = some (0, ix + 8 + align4 (segLength pBuffer ix),
          busAfter bus (chunkCount (align4 (segLength pBuffer ix)))
            ((segmentWrites pBuffer ix).map I2cMsg.write)) := by
  rw [write_fw_block_run be bus pBuffer bufferLen ix _ hlen hseg (Nat.le_refl _) hok
    (fun h => absurd h (Nat.lt_irrefl _)), if_pos rfl]

/-- The specification's chunk count does not see the rounding to 4 bytes. -/
theorem chunkCount_align4 (len : Nat) : chunkCount (align4 len) = chunkCount len := by
  unfold chunkCount align4
  omega

theorem chunkSize_le (totalLen k : Nat) : chunkSize totalLen k ≤ 52 := by
  unfold chunkSize; omega

theorem chunkSize_full (totalLen k : Nat) (h : k + 1 < chunkCount totalLen) :
    chunkSize totalLen k = 52 := by
  unfold chunkSize
  unfold chunkCount at h
  omega

theorem chunkSize_last (totalLen k : Nat) (h : k + 1 = chunkCount totalLen) :
    chunkSize totalLen k = totalLen - 52 * k ∧ 52 * k < totalLen := by
  unfold chunkSize
  unfold chunkCount at h
  omega

/-- Inside a segment that lies in the image every chunk is read in full. -/
theorem chunk_in_bounds (pBuffer : List Nat) (ix k : Nat) (hseg : SegmentAt pBuffer ix)
    (hk : k < chunkCount (align4 (segLength pBuffer ix))) :
    ix + 8 + 52 * k + chunkSize (align4 (segLength pBuffer ix)) k ≤ pBuffer.length := by
  have h := hseg.2
  unfold chunkSize
  unfold chunkCount at hk
  omega

/-- Write `k` of a segment, taken from the list of its writes. -/
theorem getElem_segmentWrites (pBuffer : List Nat) (ix k : Nat)
    (hk : k < (segmentWrites pBuffer ix).length) :
    (segmentWrites pBuffer ix)[k]
      = chunkEnvelope pBuffer (ix + 8) (segAddress pBuffer ix)
          (align4 (segLength pBuffer ix)) k := by
  unfold segmentWrites
  simp

theorem rd_chunkEnvelope_header (pBuffer : List Nat) (start addr totalLen k : Nat) :
    rd (chunkEnvelope pBuffer start addr totalLen k) 0 = 0xFC
      ∧ rd (chunkEnvelope pBuffer start addr totalLen k) 1 = chunkSize totalLen k + 4 :=
  ⟨rfl, rfl⟩

theorem envelopeAddress_le32 (x : Nat) (rest : List Nat) (a b : Nat) (hx : x < 4294967296) :
    envelopeAddress ([a, b] ++ le32Bytes x ++ rest) = x := by
  show x % 256 + x / 256 % 256 * 256 + x / 65536 % 256 * 65536 + x / 16777216 % 256 * 16777216 = x
  omega

theorem envelopeAddress_chunk (pBuffer : List Nat) (start addr totalLen k : Nat) :
    envelopeAddress (chunkEnvelope pBuffer start addr totalLen k)
      = (addr + 52 * k) % 4294967296 :=
  envelopeAddress_le32 _ _ _ _ (Nat.mod_lt _ (by norm_num))

theorem drop6_chunkEnvelope (pBuffer : List Nat) (start addr totalLen k : Nat) :
    (chunkEnvelope pBuffer start addr totalLen k).drop 6
      = reverseGroups ((pBuffer.drop (start + 52 * k)).take (chunkSize totalLen k)) := rfl

/-! ## Addressed writes of a register -/

/-- A 32-bit value stored by the host and read back byte by byte. -/
theorem rd_store32_host (be : Bool) (d : List Nat) (off v k : Nat) (hl : off + 3 < d.length)
    (hk : k < 4) :
    rd (store32 be d off v) (off + k)
      = if be then rd (le32Bytes v) (3 - k) else rd (le32Bytes v) k := by
  cases be
  · exact rd_store32_le32 false d off v k hl hk
  · have h := rd_store32_be32 true d off v k hl hk
    have hc : k = 0 ∨ k = 1 ∨ k = 2 ∨ k = 3 := by omega
    rw [show be32_to_cpu true v = v from rfl] at h
    rw [h]
    rcases hc with e | e | e | e <;> subst e <;> rfl

/-- The bytes `mxl692_memwrite` hands to the bus for a 4-byte host integer. -/
theorem memwrite_envelope (be : Bool) (addr v : Nat) :
    ((if be then
        convert_endian (4 + 4) (memcpy (store32 be (((List.replicate 58 0).set 0 0xFC).set 1
          ((4 + 4) % 256)) 2 addr) 6 (store32 be [0, 0, 0, 0] 0 v) 4) 2
      else
        memcpy (store32 be (((List.replicate 58 0).set 0 0xFC).set 1 ((4 + 4) % 256)) 2 addr) 6
          (store32 be [0, 0, 0, 0] 0 v) 4).take 10)
      = [0xFC, 0x08] ++ le32Bytes addr ++ le32Bytes v := by
  have hS : (store32 be (((List.replicate 58 0).set 0 0xFC).set 1 ((4 + 4) % 256)) 2
      addr).length = 58 := by
    rw [length_store32]; simp
  have hM : (memcpy (store32 be (((List.replicate 58 0).set 0 0xFC).set 1 ((4 + 4) % 256)) 2
      addr) 6 (store32 be [0, 0, 0, 0] 0 v) 4).length = 58 := by
    rw [length_memcpy, hS]
  have hA : ∀ k, k < 4 → rd (memcpy (store32 be (((List.replicate 58 0).set 0 0xFC).set 1
      ((4 + 4) % 256)) 2 addr) 6 (store32 be [0, 0, 0, 0] 0 v) 4) (2 + k)
      = if be then rd (le32Bytes addr) (3 - k) else rd (le32Bytes addr) k := by
    intro k hk
    rw [rd_memcpy, if_neg (by omega), rd_store32_host be _ 2 addr k (by simp) hk]
  have hV : ∀ k, k < 4 → rd (memcpy (store32 be (((List.replicate 58 0).set 0 0xFC).set 1
      ((4 + 4) % 256)) 2 addr) 6 (store32 be [0, 0, 0, 0] 0 v) 4) (6 + k)
      = if be then rd (le32Bytes v) (3 - k) else rd (le32Bytes v) k := by
    intro k hk
    rw [rd_memcpy, if_pos (by rw [hS]; omega)]
    have e : 6 + k - 6 = 0 + k := by omega
    rw [e, rd_store32_host be _ 0 v k (by simp) hk]
  have hH : ∀ i, i < 2 → rd (memcpy (store32 be (((List.replicate 58 0).set 0 0xFC).set 1
      ((4 + 4) % 256)) 2 addr) 6 (store32 be [0, 0, 0, 0] 0 v) 4) i
      = rd [0xFC, 0x08] i := by
    intro i hi
    rw [rd_memcpy, if_neg (by omega), rd_store32_other _ _ _ _ _ (Or.inl hi)]
    have hc : i = 0 ∨ i = 1 := by omega
    rcases hc with e | e <;> subst e
    · rw [rd_set_ne _ _ _ _ (by omega), rd_set_eq _ _ _ (by simp)]
      rfl
    · rw [rd_set_eq _ _ _ (by simp)]
      rfl
  apply ext_rd
  · cases be
    · simp only [Bool.false_eq_true, if_false]
      rw [List.length_take, hM]; rfl
    · simp only [if_true]
      rw [List.length_take, length_convert_endian, hM]; rfl
  · intro i hi
    have hi : i < 10 := by
      rw [List.length_take] at hi
      omega
    rw [rd_take _ _ _ hi]
    cases be
    · simp only [Bool.false_eq_true, if_false] at hA hV ⊢
      by_cases h2 : i < 2
      · rw [hH i h2, rd_append_left _ _ _ (by show i < 6; omega),
          rd_append_left _ _ _ (by show i < 2; omega)]
      · by_cases h6 : i < 6
        · obtain ⟨k, rfl⟩ : ∃ k, i = 2 + k := ⟨i - 2, by omega⟩
          rw [hA k (by omega), rd_append_left _ _ _ (by show 2 + k < 6; omega),
            rd_append_right _ _ _ (by show 2 ≤ 2 + k; omega)]
          congr 1
          show k = 2 + k - 2
          omega
        · obtain ⟨k, rfl⟩ : ∃ k, i = 6 + k := ⟨i - 6, by omega⟩
          rw [hV k (by omega), rd_append_right _ _ _ (by show 6 ≤ 6 + k; omega)]
          congr 1
          show k = 6 + k - 6
          omega
    · simp only [if_true] at hA hV ⊢
      by_cases h2 : i < 2
      · rw [rd_convert_endian_other _ _ _ _ (Or.inl h2), hH i h2,
          rd_append_left _ _ _ (by show i < 6; omega),
          rd_append_left _ _ _ (by show i < 2; omega)]
      · obtain ⟨t, rfl⟩ : ∃ t, i = 2 + t := ⟨i - 2, by omega⟩
        rw [rd_convert_endian_in (4 + 4) _ 2 t (by decide) (by rw [hM]; omega) (by omega)]
        by_cases h4 : t < 4
        · have e : 2 + (t / 4 * 4 + (3 - t % 4)) = 2 + (3 - t) := by omega
          rw [e, hA (3 - t) (by omega), rd_append_left _ _ _ (by show 2 + t < 6; omega),
            rd_append_right _ _ _ (by show 2 ≤ 2 + t; omega)]
          congr 1
          show 3 - (3 - t) = 2 + t - 2
          omega
        · obtain ⟨k, rfl⟩ : ∃ k, t = 4 + k := ⟨t - 4, by omega⟩
          have e : 2 + ((4 + k) / 4 * 4 + (3 - (4 + k) % 4)) = 6 + (3 - k) := by omega
          rw [e, hV (3 - k) (by omega), rd_append_right _ _ _ (by show 6 ≤ 2 + (4 + k); omega)]
          congr 1
          show 3 - (3 - k) = 2 + (4 + k) - 6
          omega

/-- The values of `totalLen` in `mxl692_memwrite` over the range of `u32`. -/
theorem memwrite_totalLen_cases (size : Nat) (hu : size < 4294967296) :
    (size < 2147483645 → memwrite_totalLen size = (((size + 3) / 4 * 4 : Nat) : Int))
      ∧ (2147483645 ≤ size → size < 2147483648 → 52 < memwrite_totalLen size)
      ∧ (2147483648 ≤ size → size < 4294967293 → memwrite_totalLen size < 0)
      ∧ (4294967293 ≤ size → memwrite_totalLen size = 0) := by
  unfold memwrite_totalLen int_of_u32
  rw [Nat.mod_eq_of_lt hu]
  refine ⟨?_, ?_, ?_, ?_⟩
  · intro h
    rw [if_pos (by omega)]
    simp only
    omega
  · intro h h2
    rw [if_pos (by omega)]
    simp only
    omega
  · intro h h2
    rw [if_neg (by omega)]
    simp only
    omega
  · intro h
    rw [if_neg (by omega)]
    simp only
    omega

/-- The function `mxl692_memwrite` for a 4-byte host integer. -/
theorem memwrite_word (be : Bool) (bus : Bus) (addr v : Nat) :
    mxl692_memwrite be bus addr (store32 be [0, 0, 0, 0] 0 v) 4
      = some (if nextRet bus 0 < 0 then - EREMOTEIO else 0,
          busAfter bus 1 [I2cMsg.write ([0xFC, 0x08] ++ le32Bytes addr ++ le32Bytes v)]) := by
  have henv := memwrite_envelope be addr v
  unfold mxl692_memwrite
  have hT : memwrite_totalLen 4 = 4 := by decide
  simp only [hT, MXL_EAGLE_MAX_I2C_PACKET_SIZE, MXL_EAGLE_I2C_MHEADER_SIZE]
  rw [if_neg (by decide)]
  have hN : (4 : Int).toNat = 4 := rfl
  simp only [hN]
  rw [if_neg (by rw [length_store32]; simp), i2c_write_eq]
  simp only
  rw [show (4 + 6 : Nat) = 10 from rfl, henv]
  split <;> rfl

/-- The function `mxl692_memwrite` for a `totalLen` that does not fit the
envelope. -/
theorem memwrite_oversize (be : Bool) (bus : Bus) (addr : Nat) (pBuffer : List Nat) (size : Nat)
    (h : memwrite_totalLen size < 0 ∨ 52 < memwrite_totalLen size) :
    mxl692_memwrite be bus addr pBuffer size = none := by
  unfold mxl692_memwrite
  simp only [MXL_EAGLE_MAX_I2C_PACKET_SIZE, MXL_EAGLE_I2C_MHEADER_SIZE]
  by_cases h0 : memwrite_totalLen size < 0
  · rw [if_pos h0]
  · rw [if_neg h0, if_pos (Or.inl (by omega))]

/-- The bytes `mxl692_memwrite` hands to the bus when `totalLen` is 0. -/
theorem memwrite_empty_envelope (be : Bool) (addr : Nat) (pBuffer : List Nat) :
    ((if be then
        convert_endian (4 + 0) (memcpy (store32 be (((List.replicate 58 0).set 0 0xFC).set 1
          ((0 + 4) % 256)) 2 addr) 6 pBuffer 0) 2
      else
        memcpy (store32 be (((List.replicate 58 0).set 0 0xFC).set 1 ((0 + 4) % 256)) 2 addr) 6
          pBuffer 0).take 6)
      = [0xFC, 0x04] ++ le32Bytes addr := by
  have hM0 : memcpy (store32 be (((List.replicate 58 0).set 0 0xFC).set 1 ((0 + 4) % 256)) 2
      addr) 6 pBuffer 0
      = store32 be (((List.replicate 58 0).set 0 0xFC).set 1 ((0 + 4) % 256)) 2 addr := rfl
  rw [hM0]
  have hS : (store32 be (((List.replicate 58 0).set 0 0xFC).set 1 ((0 + 4) % 256)) 2
      addr).length = 58 := by
    rw [length_store32]; simp
  have hA : ∀ k, k < 4 → rd (store32 be (((List.replicate 58 0).set 0 0xFC).set 1
      ((0 + 4) % 256)) 2 addr) (2 + k)
      = if be then rd (le32Bytes addr) (3 - k) else rd (le32Bytes addr) k := by
    intro k hk
    rw [rd_store32_host be _ 2 addr k (by simp) hk]
  have hH : ∀ i, i < 2 → rd (store32 be (((List.replicate 58 0).set 0 0xFC).set 1
      ((0 + 4) % 256)) 2 addr) i = rd [0xFC, 0x04] i := by
    intro i hi
    rw [rd_store32_other _ _ _ _ _ (Or.inl hi)]
    have hc : i = 0 ∨ i = 1 := by omega
    rcases hc with e | e <;> subst e
    · rw [rd_set_ne _ _ _ _ (by omega), rd_set_eq _ _ _ (by simp)]
      rfl
    · rw [rd_set_eq _ _ _ (by simp)]
      rfl
  apply ext_rd
  · cases be
    · simp only [Bool.false_eq_true, if_false]
      rw [List.length_take, hS]; rfl
    · simp only [if_true]
      rw [List.length_take, length_convert_endian, hS]; rfl
  · intro i hi
    have hi : i < 6 := by
      rw [List.length_take] at hi
      omega
    rw [rd_take _ _ _ hi]
    cases be
    · simp only [Bool.false_eq_true, if_false] at hA ⊢
      by_cases h2 : i < 2
      · rw [hH i h2, rd_append_left _ _ _ (by show i < 2; omega)]
      · obtain ⟨k, rfl⟩ : ∃ k, i = 2 + k := ⟨i - 2, by omega⟩
        rw [hA k (by omega), rd_append_right _ _ _ (by show 2 ≤ 2 + k; omega)]
        congr 1
        show k = 2 + k - 2
        omega
    · simp only [if_true] at hA ⊢
      by_cases h2 : i < 2
      · rw [rd_convert_endian_other _ _ _ _ (Or.inl h2), hH i h2,
          rd_append_left _ _ _ (by show i < 2; omega)]
      · obtain ⟨t, rfl⟩ : ∃ t, i = 2 + t := ⟨i - 2, by omega⟩
        rw [rd_convert_endian_in (4 + 0) _ 2 t (by decide) (by rw [hS]; omega) (by omega)]
        have e : 2 + (t / 4 * 4 + (3 - t % 4)) = 2 + (3 - t) := by omega
        rw [e, hA (3 - t) (by omega), rd_append_right _ _ _ (by show 2 ≤ 2 + t; omega)]
        congr 1
        show 3 - (3 - t) = 2 + t - 2
        omega

/-- The function `mxl692_memwrite` when `totalLen` is 0: one 6-byte write. -/
theorem memwrite_empty (be : Bool) (bus : Bus) (addr : Nat) (pBuffer : List Nat) (size : Nat)
    (h : memwrite_totalLen size = 0) :
    mxl692_memwrite be bus addr pBuffer size
      = some (if nextRet bus 0 < 0 then - EREMOTEIO else 0,
          busAfter bus 1 [I2cMsg.write ([0xFC, 0x04] ++ le32Bytes addr)]) := by
  have henv := memwrite_empty_envelope be addr pBuffer
  unfold mxl692_memwrite
  simp only [h, MXL_EAGLE_MAX_I2C_PACKET_SIZE, MXL_EAGLE_I2C_MHEADER_SIZE]
  rw [if_neg (by decide)]
  have hN : (0 : Int).toNat = 0 := rfl
  simp only [hN]
  rw [if_neg (by simp), i2c_write_eq]
  simp only
  rw [show (0 + 6 : Nat) = 6 from rfl, henv]
  split <;> rfl

/-! ## The transaction always returns, and only adds to the message log -/

theorem opreadLoop_total (n ix : Nat) (bus : Bus) (d : List Nat) (h : ix + 4 * n ≤ d.length) :
    ∃ r, opreadLoop n ix bus d = some r := by
  induction n generalizing ix bus d with
  | zero => exact ⟨_, rfl⟩
  | succ n ih =>
    unfold opreadLoop
    rw [if_neg (by omega)]
    simp only
    split
    · exact ⟨_, rfl⟩
    · exact ih _ _ _ (by rw [length_i2c_read]; omega)

theorem opread_total (bus : Bus) (d : List Nat) (size : Nat)
    (h : (size + 3) / 4 * 4 ≤ d.length) : ∃ r, mxl692_opread bus d size = some r := by
  unfold mxl692_opread
  simp only
  split
  · obtain ⟨r, hr⟩ := opreadLoop_total ((size + 3) / 4 * 4 / 4) 0
      (mxl692_i2c_write bus [0xFD, 0] MXL_EAGLE_I2C_PHEADER_SIZE).2 d (by omega)
    rw [hr]
    obtain ⟨st, buf, bus2⟩ := r
    simp only
    split
    · exact ⟨_, rfl⟩
    · exact ⟨_, rfl⟩
  · exact ⟨_, rfl⟩

theorem pollLoop_total (be : Bool) (size n : Nat) (bus : Bus) (d : List Nat)
    (h : (size + 3) / 4 * 4 ≤ d.length) : ∃ r, pollLoop be size n bus d = some r := by
  induction n generalizing bus d with
  | zero =>
    obtain ⟨r, hr⟩ := opread_total bus d size h
    obtain ⟨st, rx, bus1⟩ := r
    unfold pollLoop
    rw [hr]
    exact ⟨_, rfl⟩
  | succ n ih =>
    obtain ⟨r, hr⟩ := opread_total bus d size h
    obtain ⟨st, rx, bus1⟩ := r
    unfold pollLoop
    rw [hr]
    simp only
    split
    · exact ih _ _ (by rw [(opread_inv _ _ _ _ _ _ hr).1]; exact h)
    · exact ⟨_, rfl⟩

theorem opwrite_total (bus : Bus) (d : List Nat) (size : Nat) (h1 : (size + 3) / 4 * 4 + 2 ≤ 58)
    (h2 : (size + 3) / 4 * 4 ≤ d.length) : ∃ r, mxl692_opwrite bus d size = some r := by
  unfold mxl692_opwrite
  simp only [MXL_EAGLE_MAX_I2C_PACKET_SIZE]
  rw [if_neg (by omega)]
  split
  · exact ⟨_, rfl⟩
  · exact ⟨_, rfl⟩

theorem checkResponse_total (be : Bool) (T F : List Nat) (r : Nat) (pRx : Option (List Nat))
    (h : ∀ b, pRx = some b → r ≤ b.length) : ∃ x, checkResponse be T F r pRx = some x := by
  unfold checkResponse
  split
  · exact ⟨_, rfl⟩
  · split
    · exact ⟨_, rfl⟩
    · rename_i hm
      simp only [not_or, not_not] at hm
      simp only
      split
      · exact ⟨_, rfl⟩
      · have h2 : rd (mxl692_rx_swap be (rd (store32 be F 4 0) 0) (store32 be F 4 0)) 2 = r := by
          rw [rd_rx_swap_header _ _ _ _ (by omega),
            rd_store32_other _ _ _ _ _ (Or.inl (by omega))]
          exact hm.2.2
        rw [h2]
        split
        · cases pRx with
          | none => exact ⟨_, rfl⟩
          | some b =>
            simp only
            rw [if_neg (by have := h b rfl; omega)]
            exact ⟨_, rfl⟩
        · exact ⟨_, rfl⟩

/-- The transaction returns for every transport behaviour, whenever the sizes
fit the buffers. -/
theorem writeread_total (be : Bool) (dev : mxl692_dev) (bus : Bus) (opcode : Nat)
    (pTx : Option (List Nat)) (sz : Nat) (pRx : Option (List Nat)) (r : Nat)
    (htx : ∀ p, pTx = some p → sz ≤ p.length) (hr : r ≤ 48)
    (hrx : ∀ b, pRx = some b → r ≤ b.length) :
    ∃ o, mxl692_i2c_writeread be dev bus opcode pTx sz pRx r = some o := by
  unfold mxl692_i2c_writeread
  simp only [MXL_EAGLE_HOST_MSG_HEADER_SIZE, MXL_EAGLE_MAX_I2C_PACKET_SIZE,
    MXL_EAGLE_I2C_PHEADER_SIZE]
  split
  · exact ⟨_, rfl⟩
  · rename_i hsz
    have h2 : ¬ ((pTx.getD []).length < sz ∧ pTx ≠ none) := by
      cases pTx with
      | none => simp
      | some p => have := htx p rfl; simp; omega
    rw [if_neg h2]
    obtain ⟨w, hw⟩ := opwrite_total bus (txFrame be opcode (mxl692_next_seq dev).1 pTx sz)
      (sz + 8) (by omega) (by rw [length_txFrame]; omega)
    obtain ⟨st, bus1⟩ := w
    rw [hw]
    simp only
    split
    · exact ⟨_, rfl⟩
    · obtain ⟨q, hq⟩ := pollLoop_total be (r + 8) 40 bus1 (List.replicate 58 0)
        (by rw [List.length_replicate]; omega)
      obtain ⟨t, st2, F, bus2⟩ := q
      rw [hq]
      simp only
      split
      · exact ⟨_, rfl⟩
      · obtain ⟨x, hx⟩ := checkResponse_total be
          (txFrame be opcode (mxl692_next_seq dev).1 pTx sz) F r pRx hrx
        rw [hx]
        exact ⟨_, rfl⟩

theorem i2c_read_log (bus : Bus) (d : List Nat) (off len : Nat) :
    ∃ m, (mxl692_i2c_read bus d off len).2.2.log = bus.log ++ m := by
  unfold mxl692_i2c_read
  exact ⟨_, log_i2c_transfer _ _⟩

theorem opreadLoop_log (n ix : Nat) (bus : Bus) (d : List Nat) (r : Int × List Nat × Bus)
    (h : opreadLoop n ix bus d = some r) : ∃ m, r.2.2.log = bus.log ++ m := by
  induction n generalizing ix bus d with
  | zero =>
    simp only [opreadLoop, Option.some.injEq] at h
    subst h
    exact ⟨[], by simp⟩
  | succ n ih =>
    unfold opreadLoop at h
    split at h
    · exact absurd h (by simp)
    · simp only at h
      obtain ⟨m1, h1⟩ := i2c_read_log bus d ix 4
      split at h
      · simp only [Option.some.injEq] at h
        subst h
        exact ⟨m1, h1⟩
      · obtain ⟨m2, h2⟩ := ih _ _ _ h
        exact ⟨m1 ++ m2, by rw [h2, h1, List.append_assoc]⟩

theorem opread_log (bus : Bus) (d : List Nat) (size : Nat) (r : Int × List Nat × Bus)
    (h : mxl692_opread bus d size = some r) : ∃ m, r.2.2.log = bus.log ++ m := by
  have hw : (mxl692_i2c_write bus [0xFD, 0] MXL_EAGLE_I2C_PHEADER_SIZE).2.log
      = bus.log ++ [I2cMsg.write ([0xFD, 0].take MXL_EAGLE_I2C_PHEADER_SIZE)] := by
    unfold mxl692_i2c_write
    exact log_i2c_transfer _ _
  unfold mxl692_opread at h
  simp only at h
  split at h
  · split at h
    · exact absurd h (by simp)
    · rename_i st2 buf2 bus2 hloop
      obtain ⟨m2, h2⟩ := opreadLoop_log _ _ _ _ _ hloop
      simp only at h2
      split at h
      · simp only [Option.some.injEq] at h
        subst h
        exact ⟨[I2cMsg.write ([0xFD, 0].take MXL_EAGLE_I2C_PHEADER_SIZE)] ++ m2,
          by simp only; rw [h2, hw, List.append_assoc]⟩
      · simp only [Option.some.injEq] at h
        subst h
        exact ⟨[I2cMsg.write ([0xFD, 0].take MXL_EAGLE_I2C_PHEADER_SIZE)] ++ m2,
          by simp only; rw [h2, hw, List.append_assoc]⟩
  · simp only [Option.some.injEq] at h
    subst h
    exact ⟨_, hw⟩

theorem pollLoop_log (be : Bool) (size n : Nat) (bus : Bus) (d : List Nat)
    (r : Int × Int × List Nat × Bus) (h : pollLoop be size n bus d = some r) :
    ∃ m, r.2.2.2.log = bus.log ++ m := by
  induction n generalizing bus d with
  | zero =>
    unfold pollLoop at h
    split at h
    · exact absurd h (by simp)
    · rename_i st rx bus1 hop
      obtain ⟨m, hm⟩ := opread_log _ _ _ _ hop
      simp only [Option.some.injEq] at h
      subst h
      exact ⟨m, hm⟩
  | succ n ih =>
    unfold pollLoop at h
    split at h
    · exact absurd h (by simp)
    · rename_i st rx bus1 hop
      obtain ⟨m, hm⟩ := opread_log _ _ _ _ hop
      simp only at hm
      split at h
      · obtain ⟨m2, h2⟩ := ih _ _ h
        exact ⟨m ++ m2, by rw [h2, hm, List.append_assoc]⟩
      · simp only [Option.some.injEq] at h
        subst h
        exact ⟨m, hm⟩

/-- The transaction keeps the messages issued before it and adds its own after
them. -/
theorem writeread_log (be : Bool) (dev : mxl692_dev) (bus : Bus) (opcode : Nat)
    (pTx : Option (List Nat)) (sz : Nat) (pRx : Option (List Nat)) (r : Nat) (o : Outcome)
    (h : mxl692_i2c_writeread be dev bus opcode pTx sz pRx r = some o) :
    ∃ m, o.bus.log = bus.log ++ m := by
  unfold mxl692_i2c_writeread at h
  split at h
  · simp only [Option.some.injEq] at h
    subst h
    exact ⟨[], by simp⟩
  · split at h
    · exact absurd h (by simp)
    · simp only at h
      split at h
      · exact absurd h (by simp)
      · rename_i st bus1 hw
        obtain ⟨m1, h1⟩ := opwrite_log _ _ _ _ _ hw
        split at h
        · simp only [Option.some.injEq] at h
          subst h
          exact ⟨_, h1⟩
        · split at h
          · exact absurd h (by simp)
          · rename_i t st2 F bus2 hp
            obtain ⟨m2, h2⟩ := pollLoop_log _ _ _ _ _ _ hp
            simp only at h2
            split at h
            · simp only [Option.some.injEq] at h
              subst h
              exact ⟨[I2cMsg.write m1] ++ m2, by simp only; rw [h2, h1, List.append_assoc]⟩
            · split at h
              · exact absurd h (by simp)
              · simp only [Option.some.injEq] at h
                subst h
                exact ⟨[I2cMsg.write m1] ++ m2, by simp only; rw [h2, h1, List.append_assoc]⟩

/-! ## C21, C26 to C29: the download sequence -/

theorem validate_fw_header_cases (be : Bool) (buffer : List Nat) (bufferLen : Nat) :
    mxl692_validate_fw_header be buffer bufferLen = 0
      ∨ mxl692_validate_fw_header be buffer bufferLen = - EINVAL := by
  unfold mxl692_validate_fw_header
  split
  · exact Or.inr rfl
  · simp only
    split
    · exact Or.inr rfl
    · split
      · exact Or.inr rfl
      · exact Or.inl rfl

/-- The download of an image that passes the size check and the validation:
what is left is the two segments, the CPU release and the liveness
transaction. -/
theorem fwdownload_valid (be : Bool) (dev : mxl692_dev) (bus : Bus) (img : List Nat)
    (h16 : 16 ≤ img.length) (hmax : img.length ≤ 76000)
    (hv : mxl692_validate_fw_header be img img.length = 0) :
    mxl692_fwdownload be dev bus img img.length
      = match mxl692_write_fw_block be bus img img.length 16 with
        | none => none
        | some (status, ix, bus1) =>
          if status ≠ 0 then some (status, dev, bus1)
          else
            match mxl692_write_fw_block be bus1 img img.length ix with
            | none => none
            | some (status, _, bus2) =>
              if status ≠ 0 then some (status, dev, bus2)
              else
                match mxl692_memwrite be bus2 0x70000018 (store32 be [0, 0, 0, 0] 0 0x1) 4 with
                | none => none
                | some (status, bus3) =>
                  if status ≠ 0 then some (status, dev, bus3)
                  else
                    match mxl692_i2c_writeread be dev bus3 MXL_EAGLE_OPCODE_DEVICE_STATUS_GET
                        none 0 (some (List.replicate MXL_EAGLE_MAX_I2C_PACKET_SIZE 0)) 4 with
                    | none => none
                    | some o => some (o.status, o.dev, o.bus) := by
  unfold mxl692_fwdownload
  rw [if_neg (by
    unfold MXL_EAGLE_FW_HEADER_SIZE MXL_EAGLE_FW_MAX_SIZE_IN_KB
    omega), if_neg (Nat.lt_irrefl _)]
  simp only [hv, ne_eq, not_true_eq_false, if_false]

/-- The two segments of a download when the first `n1 + n2` writes succeed. -/
theorem fwdownload_segments (be : Bool) (bus : Bus) (img : List Nat) (bufferLen : Nat)
    (hlen : img.length < 4294967296)
    (h1 : SegmentAt img 16) (h2 : SegmentAt img (secondSegment img))
    (hok : ∀ j, j < chunkCount (segLength img 16)
      + chunkCount (segLength img (secondSegment img)) → 0 ≤ nextRet bus j) :
    mxl692_write_fw_block be bus img bufferLen 16
        = some (0, secondSegment img, busAfter bus (chunkCount (segLength img 16))
            ((segmentWrites img 16).map I2cMsg.write))
      ∧ mxl692_write_fw_block be (busAfter bus (chunkCount (segLength img 16))
            ((segmentWrites img 16).map I2cMsg.write)) img bufferLen (secondSegment img)
        = some (0, secondSegment img + 8 + align4 (segLength img (secondSegment img)),
            busAfter bus (chunkCount (segLength img 16)
              + chunkCount (segLength img (secondSegment img)))
              ((segmentWrites img 16 ++ segmentWrites img (secondSegment img)).map
                I2cMsg.write)) := by
  refine ⟨?_, ?_⟩
  · rw [write_fw_block_ok be bus img bufferLen 16 hlen h1
      (fun j hj => hok j (by rw [chunkCount_align4] at hj; omega)), chunkCount_align4]
    rfl
  · rw [write_fw_block_ok be _ img bufferLen (secondSegment img) hlen h2
      (fun j hj => by
        rw [nextRet_busAfter]
        exact hok _ (by rw [chunkCount_align4] at hj; omega)),
      chunkCount_align4, busAfter_busAfter, List.map_append]

/-- C21: when the image is shorter than 16 bytes, longer than 76000 bytes or
fails `mxl692_validate_fw_header`, `mxl692_fwdownload` returns `-EINVAL` and
the transport is as it was: no message was issued and no reply consumed. -/
theorem C21_bad_image_no_bus_traffic (be : Bool) (dev : mxl692_dev) (bus : Bus)
    (pFwBuffer : List Nat) (bufferLen : Nat) (hlen : bufferLen ≤ pFwBuffer.length)
    (hbad : bufferLen < 16 ∨ 76000 < bufferLen
      ∨ mxl692_validate_fw_header be pFwBuffer bufferLen ≠ 0) :
    mxl692_fwdownload be dev bus pFwBuffer bufferLen = some (- EINVAL, dev, bus) := by
  unfold mxl692_fwdownload
  by_cases hs : bufferLen < MXL_EAGLE_FW_HEADER_SIZE
      ∨ bufferLen > MXL_EAGLE_FW_MAX_SIZE_IN_KB * 1000
  · rw [if_pos hs]
  · rw [if_neg hs, if_neg (by omega)]
    have hv : mxl692_validate_fw_header be pFwBuffer bufferLen ≠ 0 := by
      rcases hbad with h | h | h
      · exact absurd (Or.inl h) hs
      · exact absurd (Or.inr h) hs
      · exact h
    simp only
    rw [if_pos hv]
    rcases validate_fw_header_cases be pFwBuffer bufferLen with e | e
    · exact absurd e hv
    · rw [e]

/-- Witness for C21: the valid 20-byte image with its data byte 16 changed. -/
theorem C21_bad_image_no_bus_traffic_witness :
    mxl692_fwdownload false ⟨1⟩ aliveBus (goodImage.set 16 9) 20
      = some (- EINVAL, ⟨1⟩, aliveBus) :=
  C21_bad_image_no_bus_traffic false ⟨1⟩ aliveBus (goodImage.set 16 9) 20 (by decide)
    (Or.inr (Or.inr (by decide)))

/-- C27: for an image that passes the size check and the validation and whose
two segments start with `53` and lie inside it, when the writes of all chunks
and of the CPU release succeed, `mxl692_fwdownload` issues the chunk writes of
the segment at 16, then those of the segment right after its aligned data, then
the CPU release `FC 08 18 00 00 70 01 00 00 00`, and then runs one
`DEVICE_STATUS_GET` transaction without request payload and with expected
response size 4, whose messages come last; the transaction returns, and the
result of the download is the result of that transaction. -/
theorem C27_download_order (be : Bool) (dev : mxl692_dev) (bus : Bus) (img : List Nat)
    (h16 : 16 ≤ img.length) (hmax : img.length ≤ 76000)
    (hv : mxl692_validate_fw_header be img img.length = 0)
    (h1 : SegmentAt img 16) (h2 : SegmentAt img (secondSegment img))
    (hok : ∀ j, j < chunkCount (segLength img 16)
      + chunkCount (segLength img (secondSegment img)) + 1 → 0 ≤ nextRet bus j) :
    ∃ o : Outcome,
      mxl692_i2c_writeread be dev
          (busAfter bus (chunkCount (segLength img 16)
            + chunkCount (segLength img (secondSegment img)) + 1)
            ((segmentWrites img 16 ++ segmentWrites img (secondSegment img)
              ++ [cpuRelease]).map I2cMsg.write))
          MXL_EAGLE_OPCODE_DEVICE_STATUS_GET none 0 (some (List.replicate 58 0)) 4 = some o
        ∧ mxl692_fwdownload be dev bus img img.length = some (o.status, o.dev, o.bus)
        ∧ (mxl692_fwdownload be dev bus img img.length = some (0, o.dev, o.bus) ↔ o.status = 0)
        ∧ (∃ m, o.bus.log = bus.log ++ (segmentWrites img 16
            ++ segmentWrites img (secondSegment img) ++ [cpuRelease]).map I2cMsg.write ++ m)
        ∧ cpuRelease = [0xFC, 0x08] ++ le32Bytes 0x70000018 ++ le32Bytes 1 := by
  have hlen : img.length < 4294967296 := by omega
  obtain ⟨o, ho⟩ := writeread_total be dev
    (busAfter bus (chunkCount (segLength img 16)
      + chunkCount (segLength img (secondSegment img)) + 1)
      ((segmentWrites img 16 ++ segmentWrites img (secondSegment img)
        ++ [cpuRelease]).map I2cMsg.write))
    MXL_EAGLE_OPCODE_DEVICE_STATUS_GET none 0 (some (List.replicate 58 0)) 4
    (fun p h => by cases h) (by omega) (fun b h => by cases h; simp)
  have hseg := fwdownload_segments be bus img img.length hlen h1 h2
    (fun j hj => hok j (by omega))
  have hdl : mxl692_fwdownload be dev bus img img.length = some (o.status, o.dev, o.bus) := by
    rw [fwdownload_valid be dev bus img h16 hmax hv, hseg.1]
    simp only [ne_eq, not_true_eq_false, if_false]
    rw [hseg.2]
    simp only [ne_eq, not_true_eq_false, if_false]
    rw [memwrite_word, nextRet_busAfter, Nat.add_zero,
      if_neg (by have := hok (chunkCount (segLength img 16)
        + chunkCount (segLength img (secondSegment img))) (by omega); omega)]
    simp only [ne_eq, not_true_eq_false, if_false]
    rw [busAfter_busAfter,
      show [I2cMsg.write ([0xFC, 0x08] ++ le32Bytes 0x70000018 ++ le32Bytes 0x1)]
        = [cpuRelease].map I2cMsg.write from rfl, ← List.map_append]
    rw [show List.replicate MXL_EAGLE_MAX_I2C_PACKET_SIZE 0 = List.replicate 58 0 from rfl, ho]
  refine ⟨o, ho, hdl, ?_, ?_, rfl⟩
  · rw [hdl]
    constructor
    · intro h
      simp only [Option.some.injEq, Prod.mk.injEq, and_true] at h
      exact h
    · intro h
      rw [h]
  · obtain ⟨m, hm⟩ := writeread_log _ _ _ _ _ _ _ _ _ ho
    exact ⟨m, hm⟩

/-- Witness for C27: the 92-byte image on a transport that accepts every write
and answers the first poll with a valid status response. -/
theorem C27_download_order_witness :
    ∃ o : Outcome,
      mxl692_i2c_writeread false ⟨1⟩
          (busAfter aliveBus (chunkCount (segLength twoSegmentImage 16)
            + chunkCount (segLength twoSegmentImage (secondSegment twoSegmentImage)) + 1)
            ((segmentWrites twoSegmentImage 16
              ++ segmentWrites twoSegmentImage (secondSegment twoSegmentImage)
              ++ [cpuRelease]).map I2cMsg.write))
          MXL_EAGLE_OPCODE_DEVICE_STATUS_GET none 0 (some (List.replicate 58 0)) 4 = some o
        ∧ mxl692_fwdownload false ⟨1⟩ aliveBus twoSegmentImage twoSegmentImage.length
          = some (o.status, o.dev, o.bus)
        ∧ (mxl692_fwdownload false ⟨1⟩ aliveBus twoSegmentImage twoSegmentImage.length
          = some (0, o.dev, o.bus) ↔ o.status = 0)
        ∧ (∃ m, o.bus.log = aliveBus.log ++ (segmentWrites twoSegmentImage 16
            ++ segmentWrites twoSegmentImage (secondSegment twoSegmentImage)
            ++ [cpuRelease]).map I2cMsg.write ++ m)
        ∧ cpuRelease = [0xFC, 0x08] ++ le32Bytes 0x70000018 ++ le32Bytes 1 :=
  C27_download_order false ⟨1⟩ aliveBus twoSegmentImage (by decide) (by decide)
    ((validate_fw_header_iff false twoSegmentImage (bytes_of_forall _ (by decide)) (by decide)
      (by decide)).1.mpr ⟨by decide, by decide, by decide⟩)
    ⟨by decide, by decide⟩ ⟨by decide, by decide⟩ (by decide)

/-- C28: `mxl692_memwrite` of a 4-byte host integer `v` to the address `a`
issues one bus write of exactly 10 bytes, `FC 08`, the little-endian bytes of
`a` and the little-endian bytes of `v`, the same on both host byte orders, and
returns 0 or, when the transfer fails, `-EREMOTEIO`; for the address
`0x70000018` and the value 1 the bytes are `FC 08 18 00 00 70 01 00 00 00`. -/
theorem C28_cpu_release_on_the_wire (be : Bool) (bus : Bus) (a v : Nat) :
    mxl692_memwrite be bus a (store32 be [0, 0, 0, 0] 0 v) 4
        = some (if nextRet bus 0 < 0 then - EREMOTEIO else 0,
            ⟨bus.script.drop 1, bus.log
              ++ [I2cMsg.write ([0xFC, 0x08] ++ le32Bytes a ++ le32Bytes v)]⟩)
      ∧ ([0xFC, 0x08] ++ le32Bytes a ++ le32Bytes v).length = 10
      ∧ mxl692_memwrite true bus a (store32 true [0, 0, 0, 0] 0 v) 4
        = mxl692_memwrite false bus a (store32 false [0, 0, 0, 0] 0 v) 4
      ∧ [0xFC, 0x08] ++ le32Bytes 0x70000018 ++ le32Bytes 1
        = [0xFC, 0x08, 0x18, 0x00, 0x00, 0x70, 0x01, 0x00, 0x00, 0x00] := by
  refine ⟨memwrite_word be bus a v, rfl, ?_, by decide⟩
  rw [memwrite_word, memwrite_word]

/-- C29 fails on the code: for every `u32` size whose 4-byte-aligned length
exceeds 52, `mxl692_memwrite` does not return an error; its size test only
prints a message. Below `2^32 - 3` the value of `totalLen` is above 52 or
negative and `memcpy` then stores from index 6 of the 58-byte `localBuf` past
its end, which the model reports as `none`; up to `2^31 - 4` the value is the
aligned length itself. For the three sizes from `2^32 - 3` the `int` value
`totalLen` is 0: nothing is copied, and the call issues the 6-byte write
`FC 04` + address and returns 0, or `-EREMOTEIO` when the transfer fails. -/
theorem C29_oversized_memwrite_overflows (be : Bool) (bus : Bus) (addr : Nat)
    (pBuffer : List Nat) (size : Nat) (hu : size < 4294967296)
    (h : 52 < (size + 3) / 4 * 4) :
    (size < 4294967293 →
        mxl692_memwrite be bus addr pBuffer size = none
          ∧ (memwrite_totalLen size < 0 ∨ 52 < memwrite_totalLen size))
      ∧ (size < 2147483645 →
        memwrite_totalLen size = (((size + 3) / 4 * 4 : Nat) : Int)
          ∧ MXL_EAGLE_MAX_I2C_PACKET_SIZE < 6 + (size + 3) / 4 * 4)
      ∧ (4294967293 ≤ size →
        memwrite_totalLen size = 0
          ∧ mxl692_memwrite be bus addr pBuffer size
            = some (if nextRet bus 0 < 0 then - EREMOTEIO else 0,
                ⟨bus.script.drop 1,
                  bus.log ++ [I2cMsg.write ([0xFC, 0x04] ++ le32Bytes addr)]⟩)) := by
  obtain ⟨c1, c2, c3, c4⟩ := memwrite_totalLen_cases size hu
  refine ⟨?_, ?_, ?_⟩
  · intro hs
    have ht : memwrite_totalLen size < 0 ∨ 52 < memwrite_totalLen size := by
      by_cases h1 : size < 2147483645
      · right
        rw [c1 h1]
        omega
      · by_cases h2 : size < 2147483648
        · exact Or.inr (c2 (by omega) h2)
        · exact Or.inl (c3 (by omega) hs)
    exact ⟨memwrite_oversize be bus addr pBuffer size ht, ht⟩
  · intro hs
    refine ⟨c1 hs, ?_⟩
    unfold MXL_EAGLE_MAX_I2C_PACKET_SIZE
    omega
  · intro hs
    exact ⟨c4 hs, memwrite_empty be bus addr pBuffer size (c4 hs)⟩

/-- Witness for C29: 53 bytes of data, aligned to 56, on a transport that
would accept the write; and the size `0xFFFFFFFF`, for which `totalLen` is 0
and the write `FC 04 18 00 00 70` goes out. -/
theorem C29_oversized_memwrite_overflows_witness :
    (mxl692_memwrite false aliveBus 0x70000018 (List.replicate 56 0) 53 = none
        ∧ (memwrite_totalLen 53 < 0 ∨ 52 < memwrite_totalLen 53))
      ∧ memwrite_totalLen 4294967295 = 0
      ∧ mxl692_memwrite false aliveBus 0x70000018 [] 4294967295
        = some (if nextRet aliveBus 0 < 0 then - EREMOTEIO else 0,
            ⟨aliveBus.script.drop 1,
              aliveBus.log ++ [I2cMsg.write ([0xFC, 0x04] ++ le32Bytes 0x70000018)]⟩)
      ∧ [0xFC, 0x04] ++ le32Bytes 0x70000018 = [0xFC, 0x04, 0x18, 0x00, 0x00, 0x70] :=
  ⟨(C29_oversized_memwrite_overflows false aliveBus 0x70000018 (List.replicate 56 0) 53
      (by decide) (by decide)).1 (by decide),
    ((C29_oversized_memwrite_overflows false aliveBus 0x70000018 [] 4294967295
      (by decide) (by decide)).2.2 (by decide)).1,
    ((C29_oversized_memwrite_overflows false aliveBus 0x70000018 [] 4294967295
      (by decide) (by decide)).2.2 (by decide)).2,
    by decide⟩

/-! ## C22 to C25: the chunks of one segment -/

/-- What `mxl692_write_fw_block` leaves behind, on either host byte order, when
every chunk write of the segment succeeds: the segment's writes. -/
theorem write_fw_block_writes (bus : Bus) (pBuffer : List Nat) (bufferLen ix : Nat)
    (hlen : pBuffer.length < 4294967296) (hseg : SegmentAt pBuffer ix)
    (hok : ∀ j, j < chunkCount (segLength pBuffer ix) → 0 ≤ nextRet bus j) (be : Bool) :
    mxl692_write_fw_block be bus pBuffer bufferLen ix
      = some (0, ix + 8 + align4 (segLength pBuffer ix),
          ⟨bus.script.drop (segmentWrites pBuffer ix).length,
            bus.log ++ (segmentWrites pBuffer ix).map I2cMsg.write⟩) := by
  rw [write_fw_block_ok be bus pBuffer bufferLen ix hlen hseg
    (fun j hj => hok j (by rw [chunkCount_align4] at hj; exact hj)), length_segmentWrites]
  rfl

/-- The concatenated chunks of a byte sequence, each with its 4-byte groups
reversed, are the sequence with its 4-byte groups reversed. -/
theorem flatten_chunks (n : Nat) : ∀ (T : Nat) (D : List Nat), D.length = T → T % 4 = 0 →
    n = chunkCount T →
    ((List.range n).map
      (fun k => reverseGroups ((D.drop (52 * k)).take (chunkSize T k)))).flatten
      = reverseGroups D := by
  induction n with
  | zero =>
    intro T D hD _ hn
    have : T = 0 := by unfold chunkCount at hn; omega
    subst this
    rw [List.length_eq_zero] at hD
    subst hD
    rfl
  | succ n ih =>
    intro T D hD h4 hn
    rw [List.range_succ_eq_map, List.map_cons, List.map_map, List.flatten_cons]
    by_cases hbig : 52 < T
    · have hc0 : chunkSize T 0 = 52 := by unfold chunkSize; omega
      have hrest := ih (T - 52) (D.drop 52) (by rw [List.length_drop]; omega) (by omega)
        (by unfold chunkCount at hn ⊢; omega)
      have hmap : (List.range n).map
          ((fun k => reverseGroups ((D.drop (52 * k)).take (chunkSize T k))) ∘ Nat.succ)
          = (List.range n).map
            (fun k => reverseGroups (((D.drop 52).drop (52 * k)).take (chunkSize (T - 52) k))) := by
        apply List.map_congr_left
        intro k _
        show reverseGroups ((D.drop (52 * (k + 1))).take (chunkSize T (k + 1))) = _
        rw [List.drop_drop]
        have e1 : 52 * (k + 1) = 52 + 52 * k := by omega
        have e2 : chunkSize T (k + 1) = chunkSize (T - 52) k := by
          unfold chunkSize
          omega
        rw [e1, e2]
      rw [hmap, hrest, hc0, Nat.mul_zero, List.drop_zero,
        ← reverseGroups_append _ _ (by rw [List.length_take]; omega), List.take_append_drop]
    · have hn0 : n = 0 := by unfold chunkCount at hn; omega
      subst hn0
      have hc0 : chunkSize T 0 = T := by
        unfold chunkSize chunkCount at *
        omega
      rw [hc0, Nat.mul_zero, List.drop_zero, List.take_of_length_le (by omega)]
      simp

theorem segment_chunk_data (pBuffer : List Nat) (start T k : Nat)
    (h : start + 52 * k + chunkSize T k ≤ pBuffer.length) (hk : 52 * k + chunkSize T k ≤ T) :
    (pBuffer.drop (start + 52 * k)).take (chunkSize T k)
      = (((pBuffer.drop start).take T).drop (52 * k)).take (chunkSize T k) := by
  apply ext_rd
  · simp only [List.length_take, List.length_drop]
    omega
  · intro i hi
    have hi : i < chunkSize T k := by
      rw [List.length_take] at hi
      omega
    rw [rd_take _ _ _ hi, rd_take _ _ _ hi, rd_drop, rd_drop, rd_take _ _ _ (by omega), rd_drop]
    congr 1
    omega

theorem get_segmentWrites (pBuffer : List Nat) (ix k : Nat)
    (hk : k < (segmentWrites pBuffer ix).length) :
    (segmentWrites pBuffer ix).get ⟨k, hk⟩
      = chunkEnvelope pBuffer (ix + 8) (segAddress pBuffer ix)
          (align4 (segLength pBuffer ix)) k :=
  getElem_segmentWrites pBuffer ix k hk

theorem beWord_lt (d : List Nat) (off : Nat) (hd : Bytes d) : beWord d off < 4294967296 := by
  have h0 := hd off
  have h1 := hd (off + 1)
  have h2 := hd (off + 2)
  have h3 := hd (off + 3)
  unfold beWord
  omega

/-- C22: for a segment with marker `53` and declared length `L` that lies
inside the image, when the next `ceil(L / 52)` transfers succeed
`mxl692_write_fw_block` returns 0 with the index behind the segment after
exactly `ceil(L / 52)` bus writes; each write is 6 bytes longer than its
payload, starts with `FC` and has the payload length plus 4 as its second byte;
no payload is longer than 52 bytes and every payload but the last is 52 bytes
long. -/
theorem C22_chunk_count (be : Bool) (bus : Bus) (pBuffer : List Nat) (bufferLen ix : Nat)
    (hlen : pBuffer.length < 4294967296) (hseg : SegmentAt pBuffer ix)
    (hok : ∀ j, j < chunkCount (segLength pBuffer ix) → 0 ≤ nextRet bus j) :
    ∃ msgs : List (List Nat),
      mxl692_write_fw_block be bus pBuffer bufferLen ix
          = some (0, ix + 8 + align4 (segLength pBuffer ix),
              ⟨bus.script.drop msgs.length, bus.log ++ msgs.map I2cMsg.write⟩)
        ∧ msgs.length = (segLength pBuffer ix + 51) / 52
        ∧ ∀ (k : Nat) (hk : k < msgs.length),
            6 ≤ (msgs.get ⟨k, hk⟩).length
              ∧ (msgs.get ⟨k, hk⟩).length - 6 ≤ 52
              ∧ (k + 1 < msgs.length → (msgs.get ⟨k, hk⟩).length - 6 = 52)
              ∧ rd (msgs.get ⟨k, hk⟩) 0 = 0xFC
              ∧ rd (msgs.get ⟨k, hk⟩) 1 = (msgs.get ⟨k, hk⟩).length - 6 + 4 := by
  refine ⟨segmentWrites pBuffer ix,
    write_fw_block_writes bus pBuffer bufferLen ix hlen hseg hok be, ?_, ?_⟩
  · rw [length_segmentWrites, chunkCount_align4]
    rfl
  · intro k hk
    have hk2 : k < chunkCount (align4 (segLength pBuffer ix)) := by
      rw [length_segmentWrites] at hk
      exact hk
    have hl := length_chunkEnvelope pBuffer (ix + 8) (segAddress pBuffer ix)
      (align4 (segLength pBuffer ix)) k (chunk_in_bounds pBuffer ix k hseg hk2)
    have hle := chunkSize_le (align4 (segLength pBuffer ix)) k
    have hh := rd_chunkEnvelope_header pBuffer (ix + 8) (segAddress pBuffer ix)
      (align4 (segLength pBuffer ix)) k
    rw [get_segmentWrites, hl]
    refine ⟨by omega, by omega, ?_, hh.1, ?_⟩
    · intro hk1
      rw [length_segmentWrites] at hk1
      have := chunkSize_full _ _ hk1
      omega
    · rw [hh.2]
      omega

/-- Witness for C22: the first segment of the 92-byte image, declared length
54, goes out in two writes. -/
theorem C22_chunk_count_witness :
    ∃ msgs : List (List Nat),
      mxl692_write_fw_block false aliveBus twoSegmentImage 92 16
          = some (0, 16 + 8 + align4 (segLength twoSegmentImage 16),
              ⟨aliveBus.script.drop msgs.length, aliveBus.log ++ msgs.map I2cMsg.write⟩)
        ∧ msgs.length = (segLength twoSegmentImage 16 + 51) / 52
        ∧ ∀ (k : Nat) (hk : k < msgs.length),
            6 ≤ (msgs.get ⟨k, hk⟩).length
              ∧ (msgs.get ⟨k, hk⟩).length - 6 ≤ 52
              ∧ (k + 1 < msgs.length → (msgs.get ⟨k, hk⟩).length - 6 = 52)
              ∧ rd (msgs.get ⟨k, hk⟩) 0 = 0xFC
              ∧ rd (msgs.get ⟨k, hk⟩) 1 = (msgs.get ⟨k, hk⟩).length - 6 + 4 :=
  C22_chunk_count false aliveBus twoSegmentImage 92 16 (by decide) ⟨by decide, by decide⟩
    (by decide)

/-- C23 as stated fails: a segment of declared length 50, which is not a
multiple of 52, is rounded up to 52 bytes and goes out in one write that
carries 52 payload bytes. -/
theorem C23_length_50_fills_the_chunk :
    segLength segment50 0 = 50 ∧ 50 % 52 ≠ 0
      ∧ mxl692_write_fw_block false ⟨[⟨1, []⟩], []⟩ segment50 60 0
        = some (0, 60,
            ⟨[], [I2cMsg.write ([0xFC, 56, 0, 0, 0, 0x20] ++ List.replicate 52 7)]⟩)
      ∧ ([0xFC, 56, 0, 0, 0, 0x20] ++ List.replicate 52 7).length - 6 = 52 := by
  decide

/-- C23 (amended): for a segment of declared length `L` that lies inside the
image, when every chunk write succeeds, the last write of
`mxl692_write_fw_block` carries `align4 L % 52` payload bytes, fewer than 52,
if `L` rounded up to 4 is not a multiple of 52, and carries 52 bytes if it is;
the rounded length is a multiple of 52 exactly when `L % 52` is 0, 49, 50 or
51. -/
theorem C23_final_chunk (be : Bool) (bus : Bus) (pBuffer : List Nat) (bufferLen ix : Nat)
    (hlen : pBuffer.length < 4294967296) (hseg : SegmentAt pBuffer ix)
    (hok : ∀ j, j < chunkCount (segLength pBuffer ix) → 0 ≤ nextRet bus j) :
    ∃ msgs : List (List Nat),
      mxl692_write_fw_block be bus pBuffer bufferLen ix
          = some (0, ix + 8 + align4 (segLength pBuffer ix),
              ⟨bus.script.drop msgs.length, bus.log ++ msgs.map I2cMsg.write⟩)
        ∧ (0 < segLength pBuffer ix → msgs ≠ [])
        ∧ (∀ hne : msgs ≠ [],
            (align4 (segLength pBuffer ix) % 52 ≠ 0 →
              (msgs.getLast hne).length - 6 = align4 (segLength pBuffer ix) % 52
                ∧ (msgs.getLast hne).length - 6 < 52)
            ∧ (align4 (segLength pBuffer ix) % 52 = 0 → (msgs.getLast hne).length - 6 = 52))
        ∧ (align4 (segLength pBuffer ix) % 52 = 0
            ↔ segLength pBuffer ix % 52 = 0 ∨ 49 ≤ segLength pBuffer ix % 52) := by
  refine ⟨segmentWrites pBuffer ix,
    write_fw_block_writes bus pBuffer bufferLen ix hlen hseg hok be, ?_, ?_, ?_⟩
  · intro hL hnil
    have := length_segmentWrites pBuffer ix
    rw [hnil, chunkCount_align4] at this
    unfold chunkCount at this
    simp at this
    omega
  · intro hne
    have hpos : 0 < (segmentWrites pBuffer ix).length := List.length_pos.mpr hne
    have hn := length_segmentWrites pBuffer ix
    have hk : (segmentWrites pBuffer ix).length - 1
        < chunkCount (align4 (segLength pBuffer ix)) := by omega
    have hl := length_chunkEnvelope pBuffer (ix + 8) (segAddress pBuffer ix)
      (align4 (segLength pBuffer ix)) _ (chunk_in_bounds pBuffer ix _ hseg hk)
    have hlast := chunkSize_last (align4 (segLength pBuffer ix))
      ((segmentWrites pBuffer ix).length - 1) (by omega)
    rw [List.getLast_eq_getElem, getElem_segmentWrites, hl, hlast.1]
    rw [hn] at hlast ⊢
    have hcc : chunkCount (align4 (segLength pBuffer ix))
        = (align4 (segLength pBuffer ix) + 51) / 52 := rfl
    rw [hn] at hpos
    constructor
    · intro h
      omega
    · intro h
      omega
  · unfold align4
    omega

/-- Witness for C23: the first segment of the 92-byte image, declared length
54, ends with a write of 4 payload bytes. -/
theorem C23_final_chunk_witness :
    ∃ msgs : List (List Nat),
      mxl692_write_fw_block false aliveBus twoSegmentImage 92 16
          = some (0, 16 + 8 + align4 (segLength twoSegmentImage 16),
              ⟨aliveBus.script.drop msgs.length, aliveBus.log ++ msgs.map I2cMsg.write⟩)
        ∧ (0 < segLength twoSegmentImage 16 → msgs ≠ [])
        ∧ (∀ hne : msgs ≠ [],
            (align4 (segLength twoSegmentImage 16) % 52 ≠ 0 →
              (msgs.getLast hne).length - 6 = align4 (segLength twoSegmentImage 16) % 52
                ∧ (msgs.getLast hne).length - 6 < 52)
            ∧ (align4 (segLength twoSegmentImage 16) % 52 = 0 →
              (msgs.getLast hne).length - 6 = 52))
        ∧ (align4 (segLength twoSegmentImage 16) % 52 = 0
            ↔ segLength twoSegmentImage 16 % 52 = 0 ∨ 49 ≤ segLength twoSegmentImage 16 % 52) :=
  C23_final_chunk false aliveBus twoSegmentImage 92 16 (by decide) ⟨by decide, by decide⟩
    (by decide)

/-- C24: for a segment that lies inside the image, when every chunk write
succeeds, on both host byte orders the bytes 2..5 of each write of
`mxl692_write_fw_block` are the little-endian encoding of the chunk's target
address; the first address is the big-endian 32-bit value of the sub-header
bytes 4..7 and each later address is the previous address plus the previous
payload length, modulo `2 ^ 32`. -/
theorem C24_chunk_addresses (bus : Bus) (pBuffer : List Nat) (bufferLen ix : Nat)
    (hb : ∀ b ∈ pBuffer, b < 256)
    (hlen : pBuffer.length < 4294967296) (hseg : SegmentAt pBuffer ix)
    (hok : ∀ j, j < chunkCount (segLength pBuffer ix) → 0 ≤ nextRet bus j) :
    ∃ msgs : List (List Nat),
      (∀ be : Bool, mxl692_write_fw_block be bus pBuffer bufferLen ix
          = some (0, ix + 8 + align4 (segLength pBuffer ix),
              ⟨bus.script.drop msgs.length, bus.log ++ msgs.map I2cMsg.write⟩))
        ∧ (∀ h0 : 0 < msgs.length,
            envelopeAddress (msgs.get ⟨0, h0⟩)
              = rd pBuffer (ix + 4) * 16777216 + rd pBuffer (ix + 5) * 65536
                + rd pBuffer (ix + 6) * 256 + rd pBuffer (ix + 7))
        ∧ (∀ (k : Nat) (hk : k + 1 < msgs.length),
            envelopeAddress (msgs.get ⟨k + 1, hk⟩)
              = (envelopeAddress (msgs.get ⟨k, Nat.lt_of_succ_lt hk⟩)
                + ((msgs.get ⟨k, Nat.lt_of_succ_lt hk⟩).length - 6)) % 4294967296)
        ∧ (∀ (k : Nat) (hk : k < msgs.length),
            ((msgs.get ⟨k, hk⟩).drop 2).take 4
              = le32Bytes (envelopeAddress (msgs.get ⟨k, hk⟩))) := by
  refine ⟨segmentWrites pBuffer ix,
    write_fw_block_writes bus pBuffer bufferLen ix hlen hseg hok, ?_, ?_, ?_⟩
  · intro h0
    rw [get_segmentWrites, envelopeAddress_chunk, Nat.mul_zero, Nat.add_zero]
    show beWord pBuffer (ix + 4) % 4294967296 = _
    rw [Nat.mod_eq_of_lt (beWord_lt _ _ (bytes_of_forall _ hb))]
    rfl
  · intro k hk
    have hk2 : k + 1 < chunkCount (align4 (segLength pBuffer ix)) := by
      rw [length_segmentWrites] at hk
      exact hk
    have hl := length_chunkEnvelope pBuffer (ix + 8) (segAddress pBuffer ix)
      (align4 (segLength pBuffer ix)) k (chunk_in_bounds pBuffer ix k hseg (by omega))
    have hfull := chunkSize_full _ _ hk2
    rw [get_segmentWrites, get_segmentWrites, envelopeAddress_chunk, envelopeAddress_chunk, hl,
      hfull]
    omega
  · intro k hk
    rw [get_segmentWrites, envelopeAddress_chunk]
    rfl

/-- Witness for C24: the first segment of the 92-byte image, for the address
`0xFFFFFFF0`; the second chunk goes to `0x00000024`. -/
theorem C24_chunk_addresses_witness :
    ∃ msgs : List (List Nat),
      (∀ be : Bool, mxl692_write_fw_block be aliveBus twoSegmentImage 92 16
          = some (0, 16 + 8 + align4 (segLength twoSegmentImage 16),
              ⟨aliveBus.script.drop msgs.length, aliveBus.log ++ msgs.map I2cMsg.write⟩))
        ∧ (∀ h0 : 0 < msgs.length,
            envelopeAddress (msgs.get ⟨0, h0⟩)
              = rd twoSegmentImage (16 + 4) * 16777216 + rd twoSegmentImage (16 + 5) * 65536
                + rd twoSegmentImage (16 + 6) * 256 + rd twoSegmentImage (16 + 7))
        ∧ (∀ (k : Nat) (hk : k + 1 < msgs.length),
            envelopeAddress (msgs.get ⟨k + 1, hk⟩)
              = (envelopeAddress (msgs.get ⟨k, Nat.lt_of_succ_lt hk⟩)
                + ((msgs.get ⟨k, Nat.lt_of_succ_lt hk⟩).length - 6)) % 4294967296)
        ∧ (∀ (k : Nat) (hk : k < msgs.length),
            ((msgs.get ⟨k, hk⟩).drop 2).take 4
              = le32Bytes (envelopeAddress (msgs.get ⟨k, hk⟩))) :=
  C24_chunk_addresses aliveBus twoSegmentImage 92 16 (by decide) (by decide)
    ⟨by decide, by decide⟩ (by decide)

/-- C25: for a segment that lies inside the image, when every chunk write
succeeds, the payloads of the writes of `mxl692_write_fw_block` (each write
without its 6 envelope bytes), put one after the other, are the segment's data,
declared length rounded up to 4, with every 4-byte group reversed; the writes
are the same on both host byte orders. -/
theorem C25_chunking_preserves_data (bus : Bus) (pBuffer : List Nat) (bufferLen ix : Nat)
    (hlen : pBuffer.length < 4294967296) (hseg : SegmentAt pBuffer ix)
    (hok : ∀ j, j < chunkCount (segLength pBuffer ix) → 0 ≤ nextRet bus j) :
    ∃ msgs : List (List Nat),
      (∀ be : Bool, mxl692_write_fw_block be bus pBuffer bufferLen ix
          = some (0, ix + 8 + align4 (segLength pBuffer ix),
              ⟨bus.script.drop msgs.length, bus.log ++ msgs.map I2cMsg.write⟩))
        ∧ (msgs.map (fun e => e.drop 6)).flatten
          = reverseGroups ((pBuffer.drop (ix + 8)).take (align4 (segLength pBuffer ix))) := by
  refine ⟨segmentWrites pBuffer ix,
    write_fw_block_writes bus pBuffer bufferLen ix hlen hseg hok, ?_⟩
  have hT : ((pBuffer.drop (ix + 8)).take (align4 (segLength pBuffer ix))).length
      = align4 (segLength pBuffer ix) := by
    rw [List.length_take, List.length_drop]
    have := hseg.2
    omega
  rw [← flatten_chunks (chunkCount (align4 (segLength pBuffer ix)))
    (align4 (segLength pBuffer ix)) _ hT (align4_mod _) rfl]
  unfold segmentWrites
  rw [List.map_map]
  congr 1
  apply List.map_congr_left
  intro k hk
  have hk : k < chunkCount (align4 (segLength pBuffer ix)) := List.mem_range.mp hk
  show (chunkEnvelope pBuffer (ix + 8) (segAddress pBuffer ix)
    (align4 (segLength pBuffer ix)) k).drop 6 = _
  rw [drop6_chunkEnvelope, segment_chunk_data pBuffer (ix + 8) _ k
    (chunk_in_bounds pBuffer ix k hseg hk) (by
      unfold chunkSize
      unfold chunkCount at hk
      omega)]

/-- Witness for C25: the first segment of the 92-byte image. -/
theorem C25_chunking_preserves_data_witness :
    ∃ msgs : List (List Nat),
      (∀ be : Bool, mxl692_write_fw_block be aliveBus twoSegmentImage 92 16
          = some (0, 16 + 8 + align4 (segLength twoSegmentImage 16),
              ⟨aliveBus.script.drop msgs.length, aliveBus.log ++ msgs.map I2cMsg.write⟩))
        ∧ (msgs.map (fun e => e.drop 6)).flatten
          = reverseGroups ((twoSegmentImage.drop (16 + 8)).take
              (align4 (segLength twoSegmentImage 16))) :=
  C25_chunking_preserves_data aliveBus twoSegmentImage 92 16 (by decide) ⟨by decide, by decide⟩
    (by decide)

/-! ## C30: the receive rule of `ATSC_STATUS_GET` -/

/-- C30 fails on the code: on a little-endian host `mxl692_rx_swap` for
`ATSC_STATUS_GET` reverses the payload bytes 0..1 (`snrDbTenths`) and then the
payload bytes 2..5 as one group of four, because `convert_endian_n(2,
sizeof(u16), ...)` runs its loop once: `timingOffset` (payload bytes 2..3)
receives the first two bytes of `carrierOffsetHz` and the payload bytes 6..7
stay where they are. The three lock flags are unchanged. -/
theorem C30_atsc_status_fields_are_mixed (d : List Nat) (h : 19 ≤ d.length) :
    rd (mxl692_rx_swap false MXL_EAGLE_OPCODE_ATSC_STATUS_GET d) 8 = rd d 9
      ∧ rd (mxl692_rx_swap false MXL_EAGLE_OPCODE_ATSC_STATUS_GET d) 9 = rd d 8
      ∧ rd (mxl692_rx_swap false MXL_EAGLE_OPCODE_ATSC_STATUS_GET d) 10 = rd d 13
      ∧ rd (mxl692_rx_swap false MXL_EAGLE_OPCODE_ATSC_STATUS_GET d) 11 = rd d 12
      ∧ rd (mxl692_rx_swap false MXL_EAGLE_OPCODE_ATSC_STATUS_GET d) 12 = rd d 11
      ∧ rd (mxl692_rx_swap false MXL_EAGLE_OPCODE_ATSC_STATUS_GET d) 13 = rd d 10
      ∧ rd (mxl692_rx_swap false MXL_EAGLE_OPCODE_ATSC_STATUS_GET d) 14 = rd d 14
      ∧ rd (mxl692_rx_swap false MXL_EAGLE_OPCODE_ATSC_STATUS_GET d) 15 = rd d 15
      ∧ rd (mxl692_rx_swap false MXL_EAGLE_OPCODE_ATSC_STATUS_GET d) 16 = rd d 16
      ∧ rd (mxl692_rx_swap false MXL_EAGLE_OPCODE_ATSC_STATUS_GET d) 17 = rd d 17
      ∧ rd (mxl692_rx_swap false MXL_EAGLE_OPCODE_ATSC_STATUS_GET d) 18 = rd d 18 := by
  have hp : rxPairs false MXL_EAGLE_OPCODE_ATSC_STATUS_GET = [(8, 9), (10, 13), (11, 12)] := by
    decide
  have X1 : ∀ j, rd (xorSwap d 8 9) j
      = if j = 8 then rd d 9 else if j = 9 then rd d 8 else rd d j := by
    intro j
    rw [rd_xorSwap _ _ _ _ (by decide), if_pos (by omega)]
  have X2 : ∀ j, rd (xorSwap (xorSwap d 8 9) 10 13) j
      = if j = 10 then rd (xorSwap d 8 9) 13 else if j = 13 then rd (xorSwap d 8 9) 10
        else rd (xorSwap d 8 9) j := by
    intro j
    rw [rd_xorSwap _ _ _ _ (by decide), if_pos (by rw [length_xorSwap]; omega)]
  have X3 : ∀ j, rd (xorSwap (xorSwap (xorSwap d 8 9) 10 13) 11 12) j
      = if j = 11 then rd (xorSwap (xorSwap d 8 9) 10 13) 12
        else if j = 12 then rd (xorSwap (xorSwap d 8 9) 10 13) 11
        else rd (xorSwap (xorSwap d 8 9) 10 13) j := by
    intro j
    rw [rd_xorSwap _ _ _ _ (by decide), if_pos (by rw [length_xorSwap, length_xorSwap]; omega)]
  have hA : applyPairs [(8, 9), (10, 13), (11, 12)] d
      = xorSwap (xorSwap (xorSwap d 8 9) 10 13) 11 12 := rfl
  rw [rx_swap_eq_pairs, hp, hA]
  simp only [X3, X2, X1]
  simp

/-- Witness for C30: the wire payload `00 F1 | 00 05 | 00 01 86 A0 | 01 01 01`
comes out as `F1 00 | 01 00 | 05 00 86 A0 | 01 01 01`, where reversing each
field in place would give `F1 00 | 05 00 | A0 86 01 00 | 01 01 01`. -/
theorem C30_atsc_status_fields_are_mixed_witness :
    mxl692_rx_swap false MXL_EAGLE_OPCODE_ATSC_STATUS_GET atscFrame
        = [15, 1, 11, 0, 0, 0, 0, 0, 0xF1, 0x00, 0x01, 0x00, 0x05, 0x00, 0x86, 0xA0, 1, 1, 1]
          ++ List.replicate 39 0
      ∧ rd (mxl692_rx_swap false MXL_EAGLE_OPCODE_ATSC_STATUS_GET atscFrame) 10
        = rd atscFrame 13 :=
  ⟨by decide, (C30_atsc_status_fields_are_mixed atscFrame (by decide)).2.2.1⟩

/-! ## C31, C32: single swap rules -/

/-- C31 fails on the code: on a little-endian host `mxl692_rx_swap` for
`TUNER_AGC_STATUS_GET` leaves payload byte 0 alone and reverses the payload
bytes 1..4 as one group of four, because the rule calls
`convert_endian(2 * sizeof(u16), ...)`: `rawAgcGain` (payload bytes 1..2)
receives the two bytes of `rxPowerDbHundredths` and the other way round. -/
theorem C31_agc_fields_are_exchanged (d : List Nat) (h : 13 ≤ d.length) :
    rd (mxl692_rx_swap false MXL_EAGLE_OPCODE_TUNER_AGC_STATUS_GET d) 8 = rd d 8
      ∧ rd (mxl692_rx_swap false MXL_EAGLE_OPCODE_TUNER_AGC_STATUS_GET d) 9 = rd d 12
      ∧ rd (mxl692_rx_swap false MXL_EAGLE_OPCODE_TUNER_AGC_STATUS_GET d) 10 = rd d 11
      ∧ rd (mxl692_rx_swap false MXL_EAGLE_OPCODE_TUNER_AGC_STATUS_GET d) 11 = rd d 10
      ∧ rd (mxl692_rx_swap false MXL_EAGLE_OPCODE_TUNER_AGC_STATUS_GET d) 12 = rd d 9 := by
  have hp : rxPairs false MXL_EAGLE_OPCODE_TUNER_AGC_STATUS_GET = [(9, 12), (10, 11)] := by
    decide
  have X1 : ∀ j, rd (xorSwap d 9 12) j
      = if j = 9 then rd d 12 else if j = 12 then rd d 9 else rd d j := by
    intro j
    rw [rd_xorSwap _ _ _ _ (by decide), if_pos (by omega)]
  have X2 : ∀ j, rd (xorSwap (xorSwap d 9 12) 10 11) j
      = if j = 10 then rd (xorSwap d 9 12) 11 else if j = 11 then rd (xorSwap d 9 12) 10
        else rd (xorSwap d 9 12) j := by
    intro j
    rw [rd_xorSwap _ _ _ _ (by decide), if_pos (by rw [length_xorSwap]; omega)]
  have hA : applyPairs [(9, 12), (10, 11)] d = xorSwap (xorSwap d 9 12) 10 11 := rfl
  rw [rx_swap_eq_pairs, hp, hA]
  simp only [X2, X1]
  simp

/-- Witness for C31: the wire payload `01 | 12 34 | 56 78` comes out as
`01 | 78 56 | 34 12`, where reversing each field in place would give
`01 | 34 12 | 78 56`. -/
theorem C31_agc_fields_are_exchanged_witness :
    mxl692_rx_swap false MXL_EAGLE_OPCODE_TUNER_AGC_STATUS_GET agcFrame
        = [12, 1, 5, 0, 0, 0, 0, 0, 0x01, 0x78, 0x56, 0x34, 0x12] ++ List.replicate 45 0
      ∧ rd (mxl692_rx_swap false MXL_EAGLE_OPCODE_TUNER_AGC_STATUS_GET agcFrame) 9
        = rd agcFrame 12 :=
  ⟨by decide, (C31_agc_fields_are_exchanged agcFrame (by decide)).2.1⟩

theorem tx_swap_word (opcode : Nat) (d : List Nat)
    (h : opcode = MXL_EAGLE_OPCODE_DEVICE_INTR_MASK_SET
      ∨ opcode = MXL_EAGLE_OPCODE_TUNER_CHANNEL_TUNE_SET
      ∨ opcode = MXL_EAGLE_OPCODE_SMA_TRANSMIT_SET) :
    mxl692_tx_swap false opcode d = convert_endian 4 d 8 := by
  unfold mxl692_tx_swap
  rw [if_neg (by decide)]
  simp only
  rw [if_pos h]
  rfl

theorem tx_swap_qam (d : List Nat) :
    mxl692_tx_swap false MXL_EAGLE_OPCODE_QAM_PARAMS_SET d = convert_endian 8 d 13 := by
  unfold mxl692_tx_swap
  rw [if_neg (by decide)]
  simp only
  rw [if_pos trivial]
  rfl

/-- C32: on a little-endian host, for a frame of at least 21 bytes,
`mxl692_tx_swap` reverses the frame bytes 8..11 (payload bytes 0..3) for
`DEVICE_INTR_MASK_SET`, `TUNER_CHANNEL_TUNE_SET` and `SMA_TRANSMIT_SET`, and
reverses the frame bytes 13..16 and 17..20 (payload bytes 5..8 and 9..12), each
group on its own, for `QAM_PARAMS_SET`; every other byte of the frame, the
header included, and the length of the frame are unchanged. -/
theorem C32_tx_rules_touch_the_words_only (opcode : Nat) (d : List Nat) (h : 21 ≤ d.length) :
    (opcode = MXL_EAGLE_OPCODE_DEVICE_INTR_MASK_SET
        ∨ opcode = MXL_EAGLE_OPCODE_TUNER_CHANNEL_TUNE_SET
        ∨ opcode = MXL_EAGLE_OPCODE_SMA_TRANSMIT_SET →
      (mxl692_tx_swap false opcode d).length = d.length
        ∧ ∀ j, rd (mxl692_tx_swap false opcode d) j
          = if 8 ≤ j ∧ j < 12 then rd d (19 - j) else rd d j)
      ∧ (opcode = MXL_EAGLE_OPCODE_QAM_PARAMS_SET →
        (mxl692_tx_swap false opcode d).length = d.length
          ∧ ∀ j, rd (mxl692_tx_swap false opcode d) j
            = if 13 ≤ j ∧ j < 17 then rd d (29 - j)
              else if 17 ≤ j ∧ j < 21 then rd d (37 - j) else rd d j) := by
  refine ⟨?_, ?_⟩
  · intro ho
    rw [tx_swap_word opcode d ho]
    refine ⟨length_convert_endian _ _ _, ?_⟩
    intro j
    by_cases hj : 8 ≤ j ∧ j < 12
    · rw [if_pos hj]
      obtain ⟨i, rfl⟩ : ∃ i, j = 8 + i := ⟨j - 8, by omega⟩
      rw [rd_convert_endian_in 4 d 8 i (by decide) (by omega) (by omega)]
      congr 1
      omega
    · rw [if_neg hj, rd_convert_endian_other _ _ _ _ (by omega)]
  · intro ho
    subst ho
    rw [tx_swap_qam]
    refine ⟨length_convert_endian _ _ _, ?_⟩
    intro j
    by_cases hj : 13 ≤ j ∧ j < 21
    · obtain ⟨i, rfl⟩ : ∃ i, j = 13 + i := ⟨j - 13, by omega⟩
      rw [rd_convert_endian_in 8 d 13 i (by decide) (by omega) (by omega)]
      by_cases h1 : 13 ≤ 13 + i ∧ 13 + i < 17
      · rw [if_pos h1]
        congr 1
        omega
      · rw [if_neg h1, if_pos (by omega)]
        congr 1
        omega
    · rw [if_neg (by omega), if_neg (by omega), rd_convert_endian_other _ _ _ _ (by omega)]

/-- Witness for C32: a `QAM_PARAMS_SET` frame with the payload
`01 02 03 04 05 | 11 12 13 14 | 21 22 23 24`. -/
theorem C32_tx_rules_touch_the_words_only_witness :
    mxl692_tx_swap false MXL_EAGLE_OPCODE_QAM_PARAMS_SET qamFrame
        = [19, 1, 13, 0, 0, 0, 0, 0, 1, 2, 3, 4, 5, 0x14, 0x13, 0x12, 0x11, 0x24, 0x23, 0x22,
            0x21] ++ List.replicate 37 0
      ∧ (mxl692_tx_swap false MXL_EAGLE_OPCODE_QAM_PARAMS_SET qamFrame).length = qamFrame.length
      ∧ ∀ j, rd (mxl692_tx_swap false MXL_EAGLE_OPCODE_QAM_PARAMS_SET qamFrame) j
          = if 13 ≤ j ∧ j < 17 then rd qamFrame (29 - j)
            else if 17 ≤ j ∧ j < 21 then rd qamFrame (37 - j) else rd qamFrame j :=
  ⟨by decide,
    (C32_tx_rules_touch_the_words_only MXL_EAGLE_OPCODE_QAM_PARAMS_SET qamFrame (by decide)).2
      rfl⟩

/-! ## C35: the pipe envelope -/

/-- The bytes `mxl692_opwrite` hands to the bus for a frame whose aligned
length is `a`. -/
theorem opwrite_envelope (pBuffer : List Nat) (a : Nat) (ha : a ≤ 56) (ha4 : a % 4 = 0)
    (hl : a ≤ pBuffer.length) :
    (convert_endian a (memcpy (((List.replicate 58 0).set 0 0xFE).set 1 (a % 256)) 2 pBuffer a)
        2).take (a + 2)
      = [0xFE, a] ++ reverseGroups (pBuffer.take a) := by
  have hT : (pBuffer.take a).length = a := by
    rw [List.length_take]
    omega
  apply ext_rd
  · simp [hT]
    omega
  · intro i hi
    have hi : i < a + 2 := by
      rw [List.length_take] at hi
      omega
    rw [rd_take _ _ _ hi]
    by_cases h2 : i < 2
    · rw [rd_convert_endian_other _ _ _ _ (Or.inl h2), rd_memcpy, if_neg (by omega),
        rd_append_left _ _ _ (by show i < 2; omega)]
      have hc : i = 0 ∨ i = 1 := by omega
      rcases hc with k | k <;> subst k
      · rw [rd_set_ne _ _ _ _ (by omega), rd_set_eq _ _ _ (by simp)]
        rfl
      · rw [rd_set_eq _ _ _ (by simp), Nat.mod_eq_of_lt (by omega)]
        rfl
    · obtain ⟨t, rfl⟩ : ∃ t, i = 2 + t := ⟨i - 2, by omega⟩
      have ht : t < a := by omega
      have e2 : 2 + t - ([0xFE, a] : List Nat).length = t := by
        show 2 + t - 2 = t
        omega
      rw [rd_convert_endian_in a _ 2 t ha4 (by rw [length_memcpy]; simp; omega) ht, rd_memcpy,
        if_pos (by simp; omega), rd_append_right _ _ _ (by show 2 ≤ 2 + t; omega), e2,
        rd_reverseGroups _ _ (by rw [hT]; exact ha4) (by rw [hT]; exact ht),
        rd_take _ _ _ (by omega)]
      congr 1
      omega

/-- C35: for a frame of `n ≤ 56` bytes in a buffer that holds the aligned
length `a = align4 n`, `mxl692_opwrite` issues one bus write of `2 + a` bytes:
`FE`, the byte `a`, and the first `a` bytes of the buffer with every 4-byte
group reversed; it returns 0, or `-EREMOTEIO` when the transfer fails. The
function does not look at the host byte order. The write is at most 58 bytes
long, as is every write for a payload size that `mxl692_i2c_writeread`
accepts. -/
theorem C35_pipe_envelope (bus : Bus) (pBuffer : List Nat) (n : Nat) (hn : n ≤ 56)
    (hl : align4 n ≤ pBuffer.length) :
    mxl692_opwrite bus pBuffer n
        = some (if nextRet bus 0 < 0 then - EREMOTEIO else 0,
            ⟨bus.script.drop 1, bus.log
              ++ [I2cMsg.write ([0xFE, align4 n] ++ reverseGroups (pBuffer.take (align4 n)))]⟩)
      ∧ ([0xFE, align4 n] ++ reverseGroups (pBuffer.take (align4 n))).length = 2 + align4 n
      ∧ 2 + align4 n ≤ 58
      ∧ ∀ sz, sz ≤ 48 → 2 + align4 (sz + 8) ≤ 58 := by
  have ha : align4 n ≤ 56 := by unfold align4; omega
  have ha4 := align4_mod n
  have hT : (pBuffer.take (align4 n)).length = align4 n := by
    rw [List.length_take]
    omega
  refine ⟨?_, ?_, by omega, ?_⟩
  · have henv := opwrite_envelope pBuffer (align4 n) ha ha4 hl
    unfold mxl692_opwrite
    have e : (n + 3) / 4 * 4 = align4 n := rfl
    simp only [e, MXL_EAGLE_MAX_I2C_PACKET_SIZE, MXL_EAGLE_I2C_PHEADER_SIZE]
    rw [if_neg (by omega), i2c_write_eq]
    simp only
    rw [henv]
    split <;> rfl
  · simp [hT]
    omega
  · intro sz hsz
    unfold align4
    omega

/-- Witness for C35: the 8-byte request of opcode 8 with sequence number 1. -/
theorem C35_pipe_envelope_witness :
    mxl692_opwrite aliveBus (txFrame false 8 1 none 0) 8
        = some (if nextRet aliveBus 0 < 0 then - EREMOTEIO else 0,
            ⟨aliveBus.script.drop 1, aliveBus.log
              ++ [I2cMsg.write ([0xFE, align4 8]
                ++ reverseGroups ((txFrame false 8 1 none 0).take (align4 8)))]⟩)
      ∧ ([0xFE, align4 8] ++ reverseGroups ((txFrame false 8 1 none 0).take (align4 8))).length
        = 2 + align4 8
      ∧ 2 + align4 8 ≤ 58
      ∧ ∀ sz, sz ≤ 48 → 2 + align4 (sz + 8) ≤ 58 :=
  C35_pipe_envelope aliveBus (txFrame false 8 1 none 0) 8 (by decide) (by decide)

/-! ## C36: the segment marker -/

theorem write_fw_block_marker (be : Bool) (bus : Bus) (pBuffer : List Nat) (bufferLen ix : Nat)
    (hlen : pBuffer.length < 4294967296) (hix : ix < pBuffer.length)
    (hm : rd pBuffer ix ≠ 0x53) :
    mxl692_write_fw_block be bus pBuffer bufferLen ix = some (- EINVAL, ix, bus) := by
  unfold mxl692_write_fw_block
  rw [fwByte_eq _ _ 0 (by omega) hlen]
  simp only [Nat.add_zero]
  rw [if_neg hm]

/-- C36: for an index inside the image, when the byte there is not `53`
`mxl692_write_fw_block` returns `-EINVAL` with the index and the transport as
they were; when it is `53`, the segment lies inside the image and every chunk
write succeeds, the function returns 0 and the index has advanced by 8 plus the
declared length rounded up to 4. -/
theorem C36_segment_marker_check (be : Bool) (bus : Bus) (pBuffer : List Nat)
    (bufferLen ix : Nat) (hlen : pBuffer.length < 4294967296) (hix : ix < pBuffer.length) :
    (rd pBuffer ix ≠ 0x53 →
        mxl692_write_fw_block be bus pBuffer bufferLen ix = some (- EINVAL, ix, bus))
      ∧ (SegmentAt pBuffer ix →
        (∀ j, j < chunkCount (segLength pBuffer ix) → 0 ≤ nextRet bus j) →
        ∃ bus1, mxl692_write_fw_block be bus pBuffer bufferLen ix
          = some (0, ix + (8 + (segLength pBuffer ix + 3) / 4 * 4), bus1)) := by
  refine ⟨write_fw_block_marker be bus pBuffer bufferLen ix hlen hix, ?_⟩
  intro hseg hok
  refine ⟨⟨bus.script.drop (segmentWrites pBuffer ix).length,
    bus.log ++ (segmentWrites pBuffer ix).map I2cMsg.write⟩, ?_⟩
  rw [write_fw_block_writes bus pBuffer bufferLen ix hlen hseg hok be, ← Nat.add_assoc]
  rfl

/-- Witness for C36: in the 92-byte image the index 24 holds the data byte
`01`, and the index 16 starts a segment of declared length 54. -/
theorem C36_segment_marker_check_witness :
    mxl692_write_fw_block false aliveBus twoSegmentImage 92 24 = some (- EINVAL, 24, aliveBus)
      ∧ ∃ bus1, mxl692_write_fw_block false aliveBus twoSegmentImage 92 16
          = some (0, 16 + (8 + (segLength twoSegmentImage 16 + 3) / 4 * 4), bus1) :=
  ⟨(C36_segment_marker_check false aliveBus twoSegmentImage 92 24 (by decide) (by decide)).1
      (by decide),
    (C36_segment_marker_check false aliveBus twoSegmentImage 92 16 (by decide) (by decide)).2
      ⟨by decide, by decide⟩ (by decide)⟩

/-! ## C38: the caller's buffer -/

theorem eremoteio_ne_zero : (- EREMOTEIO : Int) ≠ 0 := by decide

theorem checkResponse_buffer (be : Bool) (T F : List Nat) (r : Nat) (pRx : Option (List Nat))
    (st : Int) (p : Option (List Nat)) (h : checkResponse be T F r pRx = some (st, p)) :
    (st ≠ 0 → p = pRx)
      ∧ (st = 0 → r = 0 → p = pRx)
      ∧ (st = 0 → 0 < r → ∃ buf buf2, pRx = some buf ∧ p = some buf2 ∧ r ≤ buf.length
          ∧ buf2.length = buf.length ∧ ∀ i, r ≤ i → rd buf2 i = rd buf i) := by
  unfold checkResponse at h
  split at h
  · rename_i hs
    simp only [Option.some.injEq, Prod.mk.injEq] at h
    obtain ⟨rfl, rfl⟩ := h
    have : ((rd F 3 : Nat) : Int) ≠ 0 := by exact_mod_cast hs
    exact ⟨fun _ => rfl, fun h0 => absurd h0 this, fun h0 => absurd h0 this⟩
  · split at h
    · simp only [Option.some.injEq, Prod.mk.injEq] at h
      obtain ⟨rfl, rfl⟩ := h
      exact ⟨fun _ => rfl, fun h0 => absurd h0 eremoteio_ne_zero,
        fun h0 => absurd h0 eremoteio_ne_zero⟩
    · rename_i hm
      simp only [not_or, not_not] at hm
      simp only at h
      split at h
      · simp only [Option.some.injEq, Prod.mk.injEq] at h
        obtain ⟨rfl, rfl⟩ := h
        exact ⟨fun _ => rfl, fun h0 => absurd h0 eremoteio_ne_zero,
          fun h0 => absurd h0 eremoteio_ne_zero⟩
      · have h2 : rd (mxl692_rx_swap be (rd (store32 be F 4 0) 0) (store32 be F 4 0)) 2 = r := by
          rw [rd_rx_swap_header _ _ _ _ (by omega),
            rd_store32_other _ _ _ _ _ (Or.inl (by omega))]
          exact hm.2.2
        rw [h2] at h
        split at h
        · rename_i hr
          cases pRx with
          | none =>
            simp only [Option.some.injEq, Prod.mk.injEq] at h
            obtain ⟨rfl, rfl⟩ := h
            exact ⟨fun _ => rfl, fun h0 => absurd h0 eremoteio_ne_zero,
              fun h0 => absurd h0 eremoteio_ne_zero⟩
          | some buf =>
            simp only at h
            split at h
            · exact absurd h (by simp)
            · rename_i hb
              simp only [Option.some.injEq, Prod.mk.injEq] at h
              obtain ⟨rfl, rfl⟩ := h
              refine ⟨fun h0 => absurd rfl h0, fun _ h0 => by omega, fun _ _ => ?_⟩
              refine ⟨buf, _, rfl, rfl, by omega, length_memcpy _ _ _ _, ?_⟩
              intro i hi
              rw [rd_memcpy, if_neg (by omega)]
        · rename_i hr
          simp only [Option.some.injEq, Prod.mk.injEq] at h
          obtain ⟨rfl, rfl⟩ := h
          exact ⟨fun _ => rfl, fun _ _ => rfl, fun _ h0 => by omega⟩

/-- C38: for every transport behaviour, whenever `mxl692_i2c_writeread`
returns a non-zero result the caller's receive buffer is as it was (also when
there is none); when it returns 0 with expected size 0 the buffer is as it
was, and when it returns 0 with expected size `r > 0` there is a buffer of at
least `r` bytes, it keeps its length and every byte from index `r` on. -/
theorem C38_buffer_written_only_on_success (be : Bool) (dev : mxl692_dev) (bus : Bus)
    (opcode : Nat) (pTx : Option (List Nat)) (sz : Nat) (pRx : Option (List Nat)) (r : Nat)
    (o : Outcome) (h : mxl692_i2c_writeread be dev bus opcode pTx sz pRx r = some o) :
    (o.status ≠ 0 → o.pRxPayload = pRx)
      ∧ (o.status = 0 → r = 0 → o.pRxPayload = pRx)
      ∧ (o.status = 0 → 0 < r → ∃ buf buf2, pRx = some buf ∧ o.pRxPayload = some buf2
          ∧ r ≤ buf.length ∧ buf2.length = buf.length ∧ ∀ i, r ≤ i → rd buf2 i = rd buf i) := by
  have hE : (- EINVAL : Int) ≠ 0 := by decide
  have hT : (- ETIMEDOUT : Int) ≠ 0 := by decide
  unfold mxl692_i2c_writeread at h
  split at h
  · simp only [Option.some.injEq] at h
    subst h
    exact ⟨fun _ => rfl, fun h0 => absurd h0 hE, fun h0 => absurd h0 hE⟩
  · split at h
    · exact absurd h (by simp)
    · simp only at h
      split at h
      · exact absurd h (by simp)
      · split at h
        · simp only [Option.some.injEq] at h
          subst h
          exact ⟨fun _ => rfl, fun h0 => absurd h0 eremoteio_ne_zero,
            fun h0 => absurd h0 eremoteio_ne_zero⟩
        · split at h
          · exact absurd h (by simp)
          · split at h
            · simp only [Option.some.injEq] at h
              subst h
              exact ⟨fun _ => rfl, fun h0 => absurd h0 hT, fun h0 => absurd h0 hT⟩
            · split at h
              · exact absurd h (by simp)
              · rename_i st rx hc
                simp only [Option.some.injEq] at h
                subst h
                exact checkResponse_buffer _ _ _ _ _ _ _ hc

/-- Witness for C38: the valid 4-byte response to opcode 38 delivered into a
caller buffer of 6 bytes. -/
theorem C38_buffer_written_only_on_success_witness :
    mxl692_i2c_writeread false ⟨1⟩ echoBus 38 none 0 (some [9, 9, 9, 9, 9, 9]) 4
        = some ⟨0, (mxl692_next_seq ⟨1⟩).2, echoPolled, some [4, 3, 2, 1, 9, 9]⟩
      ∧ ∃ buf buf2, some [9, 9, 9, 9, 9, 9] = some buf
        ∧ (⟨0, (mxl692_next_seq ⟨1⟩).2, echoPolled, some [4, 3, 2, 1, 9, 9]⟩ : Outcome).pRxPayload
          = some buf2
        ∧ 4 ≤ buf.length ∧ buf2.length = buf.length ∧ ∀ i, 4 ≤ i → rd buf2 i = rd buf i :=
  ⟨by decide,
    (C38_buffer_written_only_on_success false ⟨1⟩ echoBus 38 none 0 (some [9, 9, 9, 9, 9, 9]) 4
      ⟨0, (mxl692_next_seq ⟨1⟩).2, echoPolled, some [4, 3, 2, 1, 9, 9]⟩ (by decide)).2.2 rfl
      (by decide)⟩

/-! ## C39: reads of the image -/

/-- C39 fails on the code (evaluation): the segment lengths are not checked
against the image and `mxl692_write_fw_block` does not use `bufferLen`. A
16-byte image with length field 0 passes the size check and the validation,
and the first segment's marker is then read at index 16; a 28-byte image whose
segment declares 8 data bytes but is followed by 4 has its chunk copied from
the indices 24..31. The model reports the reads outside the image as `none`. -/
theorem C39_segment_reads_leave_the_image :
    headerOnlyImage.length = 16
      ∧ mxl692_validate_fw_header false headerOnlyImage 16 = 0
      ∧ fwByte headerOnlyImage 16 0 = none
      ∧ mxl692_fwdownload false ⟨1⟩ aliveBus headerOnlyImage 16 = none
      ∧ shortImage.length = 28
      ∧ mxl692_validate_fw_header false shortImage 28 = 0
      ∧ rd shortImage 16 = 0x53 ∧ segLength shortImage 16 = 8 ∧ 28 < 16 + 8 + 8
      ∧ mxl692_write_fw_block false aliveBus shortImage 28 16 = none
      ∧ mxl692_fwdownload false ⟨1⟩ aliveBus shortImage 28 = none := by
  decide

/-! ## C33, C34: the polls on the bus -/

theorem i2c_read_log_eq (bus : Bus) (d : List Nat) (off len : Nat) :
    (mxl692_i2c_read bus d off len).2.2.log = bus.log ++ [I2cMsg.read len] := by
  unfold mxl692_i2c_read
  exact log_i2c_transfer _ _

/-- A read loop that ends with status 0 has made all its reads. -/
theorem opreadLoop_ok_log (n ix : Nat) (bus : Bus) (d buf : List Nat) (bus1 : Bus)
    (h : opreadLoop n ix bus d = some (0, buf, bus1)) :
    bus1.log = bus.log ++ List.replicate n (I2cMsg.read 4) := by
  induction n generalizing ix bus d with
  | zero =>
    simp only [opreadLoop, Option.some.injEq, Prod.mk.injEq, true_and] at h
    rw [← h.2]
    simp
  | succ n ih =>
    unfold opreadLoop at h
    split at h
    · exact absurd h (by simp)
    · simp only at h
      split at h
      · simp only [Option.some.injEq, Prod.mk.injEq] at h
        exact absurd h.1 eremoteio_ne_zero
      · rw [ih _ _ _ h, i2c_read_log_eq, List.append_assoc]
        rfl

/-- A pipe read that returns 0 has put the command `FD 00` and then
`ceil(size / 4)` reads of 4 bytes on the bus. -/
theorem opread_ok_log (bus : Bus) (d : List Nat) (size : Nat) (buf : List Nat) (bus1 : Bus)
    (h : mxl692_opread bus d size = some (0, buf, bus1)) :
    bus1.log = bus.log
      ++ (I2cMsg.write [0xFD, 0] :: List.replicate ((size + 3) / 4) (I2cMsg.read 4)) := by
  have hw : (mxl692_i2c_write bus [0xFD, 0] MXL_EAGLE_I2C_PHEADER_SIZE).2.log
      = bus.log ++ [I2cMsg.write [0xFD, 0]] := by
    unfold mxl692_i2c_write
    exact log_i2c_transfer _ _
  have e : (size + 3) / 4 * 4 / 4 = (size + 3) / 4 := by omega
  unfold mxl692_opread at h
  simp only at h
  split at h
  · split at h
    · exact absurd h (by simp)
    · rename_i st2 buf2 bus2 hloop
      split at h
      · rename_i hst
        subst hst
        simp only [Option.some.injEq, Prod.mk.injEq, true_and] at h
        rw [← h.2, opreadLoop_ok_log _ _ _ _ _ _ hloop, hw, e, List.append_assoc]
        rfl
      · rename_i hst
        simp only [Option.some.injEq, Prod.mk.injEq] at h
        exact absurd h.1 hst
  · simp only [Option.some.injEq, Prod.mk.injEq] at h
    exact absurd h.1 eremoteio_ne_zero

/-- The polling loop on a transport that shows empty headers: every poll puts
the same messages on the bus. -/
theorem pollLoop_empty_log (be : Bool) (size n : Nat) (bus : Bus) (d : List Nat)
    (h : emptyPolls be size (n + 1) bus d = true) :
    ∃ buf bus1, pollLoop be size (n + 1) bus d = some (0, 0, buf, bus1)
      ∧ bus1.log = bus.log ++ (List.replicate (n + 1)
          (I2cMsg.write [0xFD, 0] :: List.replicate ((size + 3) / 4) (I2cMsg.read 4))).flatten := by
  induction n generalizing bus d with
  | zero =>
    unfold emptyPolls at h
    unfold pollLoop
    cases hr : mxl692_opread bus d size with
    | none => rw [hr] at h; exact absurd h (by simp)
    | some r =>
      obtain ⟨st, rx, bus1⟩ := r
      rw [hr] at h
      simp only [Bool.and_eq_true, decide_eq_true_eq] at h
      have hst : st = 0 := h.1.1.1
      subst hst
      refine ⟨rx, bus1, by simp, ?_⟩
      rw [opread_ok_log _ _ _ _ _ hr]
      simp
  | succ n ih =>
    unfold emptyPolls at h
    unfold pollLoop
    cases hr : mxl692_opread bus d size with
    | none => rw [hr] at h; exact absurd h (by simp)
    | some r =>
      obtain ⟨st, rx, bus1⟩ := r
      rw [hr] at h
      simp only [Bool.and_eq_true, decide_eq_true_eq] at h
      have hst : st = 0 := h.1.1.1
      subst hst
      obtain ⟨buf, bus2, h2, h3⟩ := ih bus1 rx h.2
      refine ⟨buf, bus2, ?_, ?_⟩
      · simp only [h.1.1.2, h.1.2, and_self, and_true, Nat.succ_pos, if_true]
        simpa using h2
      · rw [h3, opread_ok_log _ _ _ _ _ hr, List.append_assoc,
          List.replicate_succ (n := n + 1), List.flatten_cons]

/-- The polling loop entered with a budget of `n` makes at most `n` polls (one
when `n` is 0). -/
theorem pollLoop_polls_le (be : Bool) (size n : Nat) (bus : Bus) (d : List Nat)
    (r : Int × Int × List Nat × Bus) (h : pollLoop be size n bus d = some r) :
    pollCount r.2.2.2.log ≤ pollCount bus.log + max n 1 := by
  induction n generalizing bus d with
  | zero =>
    unfold pollLoop at h
    split at h
    · exact absurd h (by simp)
    · rename_i st rx bus1 hop
      simp only [Option.some.injEq] at h
      subst h
      have := (opread_inv _ _ _ _ _ _ hop).2.2
      simp only
      omega
  | succ n ih =>
    unfold pollLoop at h
    split at h
    · exact absurd h (by simp)
    · rename_i st rx bus1 hop
      have h1 := (opread_inv _ _ _ _ _ _ hop).2.2
      split at h
      · rename_i hc
        have h2 := ih _ _ h
        have : 0 < n := hc.1
        omega
      · simp only [Option.some.injEq] at h
        subst h
        simp only
        omega

/-- The transaction makes at most 40 polls. -/
theorem writeread_polls_le (be : Bool) (dev : mxl692_dev) (bus : Bus) (opcode : Nat)
    (pTx : Option (List Nat)) (sz : Nat) (pRx : Option (List Nat)) (r : Nat) (o : Outcome)
    (h : mxl692_i2c_writeread be dev bus opcode pTx sz pRx r = some o) :
    pollCount o.bus.log ≤ pollCount bus.log + 40 := by
  unfold mxl692_i2c_writeread at h
  split at h
  · simp only [Option.some.injEq] at h
    subst h
    simp
  · split at h
    · exact absurd h (by simp)
    · simp only at h
      split at h
      · exact absurd h (by simp)
      · rename_i st bus1 hw
        have h1 := pollCount_opwrite _ _ _ _ _ hw
        split at h
        · simp only [Option.some.injEq] at h
          subst h
          simp only
          omega
        · split at h
          · exact absurd h (by simp)
          · rename_i t st2 F bus2 hp
            have h2 := pollLoop_polls_le _ _ _ _ _ _ hp
            simp only at h2
            split at h
            · simp only [Option.some.injEq] at h
              subst h
              simp only
              omega
            · split at h
              · exact absurd h (by simp)
              · simp only [Option.some.injEq] at h
                subst h
                simp only
                omega

/-- C33: when the request is written and each of the 40 polls succeeds and
reads a header with sequence number 0 and checksum 0, `mxl692_i2c_writeread`
returns `-ETIMEDOUT` after exactly 40 polls, each being the command `FD 00`
followed by `ceil((8 + r) / 4)` reads of 4 bytes, and nothing else on the bus;
and for every transport behaviour the call returns after at most 40 polls when
the expected size is at most 48. -/
theorem C33_exact_poll_budget (be : Bool) (dev : mxl692_dev) (bus bus1 : Bus)
    (opcode : Nat) (pTx : Option (List Nat)) (sz : Nat) (pRx : Option (List Nat)) (r : Nat)
    (hsz : sz ≤ 48) (htx : ∀ p, pTx = some p → sz ≤ p.length)
    (hw : mxl692_opwrite bus (txFrame be opcode (mxl692_next_seq dev).1 pTx sz) (sz + 8)
      = some (0, bus1))
    (he : emptyPolls be (r + 8) 40 bus1 rxBuffer0 = true) :
    (∃ o, mxl692_i2c_writeread be dev bus opcode pTx sz pRx r = some o
        ∧ o.status = - ETIMEDOUT
        ∧ o.bus.log = bus1.log ++ (List.replicate 40 (pollMessages r)).flatten
        ∧ pollCount o.bus.log = pollCount bus.log + 40)
      ∧ (∀ (b : Bus) (r2 : Nat), r2 ≤ 48 → (∀ q, pRx = some q → r2 ≤ q.length) →
          ∃ o, mxl692_i2c_writeread be dev b opcode pTx sz pRx r2 = some o
            ∧ pollCount o.bus.log ≤ pollCount b.log + 40) := by
  refine ⟨?_, ?_⟩
  · obtain ⟨buf, bus2, hp, hl⟩ := pollLoop_empty_log be (r + 8) 39 bus1 rxBuffer0 he
    obtain ⟨buf3, bus3, hp3, hc⟩ := pollLoop_empty be (r + 8) 39 bus1 rxBuffer0 he
    rw [hp] at hp3
    simp only [Option.some.injEq, Prod.mk.injEq, true_and] at hp3
    have hwr := writeread_polled be dev bus bus1 bus2 opcode pTx sz pRx r 0 0 buf hsz htx hw hp
    rw [if_pos (Or.inl rfl)] at hwr
    refine ⟨_, hwr, rfl, ?_, ?_⟩
    · show bus2.log = _
      rw [hl]
      have e : (r + 8 + 3) / 4 = (8 + r + 3) / 4 := by omega
      rw [e]
      rfl
    · show pollCount bus2.log = pollCount bus.log + 40
      rw [hp3.2, hc, pollCount_opwrite _ _ _ _ _ hw]
  · intro b r2 hr2 hq
    obtain ⟨o, ho⟩ := writeread_total be dev b opcode pTx sz pRx r2 htx hr2 hq
    exact ⟨o, ho, writeread_polls_le _ _ _ _ _ _ _ _ _ ho⟩

/-- Witness for C33: opcode 8 on a transport that shows 40 empty headers. -/
theorem C33_exact_poll_budget_witness :
    (∃ o, mxl692_i2c_writeread false ⟨1⟩ silentBus 8 none 0 none 0 = some o
        ∧ o.status = - ETIMEDOUT
        ∧ o.bus.log = (⟨silentBus.script.tail, [statusRequest]⟩ : Bus).log
            ++ (List.replicate 40 (pollMessages 0)).flatten
        ∧ pollCount o.bus.log = pollCount silentBus.log + 40)
      ∧ (∀ (b : Bus) (r2 : Nat), r2 ≤ 48 → (∀ q, (none : Option (List Nat)) = some q →
          r2 ≤ q.length) →
          ∃ o, mxl692_i2c_writeread false ⟨1⟩ b 8 none 0 none r2 = some o
            ∧ pollCount o.bus.log ≤ pollCount b.log + 40) :=
  C33_exact_poll_budget false ⟨1⟩ silentBus ⟨silentBus.script.tail, [statusRequest]⟩
    8 none 0 none 0 (by decide) (by intro p h; cases h) (by decide) (by decide)

theorem lockAfter_bus (l : List I2cMsg) (rest : List Ev) (held : Bool) :
    lockAfter (l.map Ev.bus ++ rest) held = lockAfter rest held := by
  induction l with
  | nil => rfl
  | cons m t ih => exact ih

theorem busUnderLock_bus (l : List I2cMsg) (rest : List Ev) :
    busUnderLock (l.map Ev.bus ++ rest) true = busUnderLock rest true := by
  induction l with
  | nil => rfl
  | cons m t ih =>
    show (true && busUnderLock (t.map Ev.bus ++ rest) true) = _
    rw [ih]
    rfl

theorem busMessages_bus (l : List I2cMsg) (rest : List Ev) :
    busMessages (l.map Ev.bus ++ rest) = l ++ busMessages rest := by
  induction l with
  | nil => rfl
  | cons m t ih =>
    show m :: busMessages (t.map Ev.bus ++ rest) = _
    rw [ih]
    rfl

theorem newMessages_of_log (bus bus1 : Bus) (m : List I2cMsg) (h : bus1.log = bus.log ++ m) :
    newMessages bus bus1 = m := by
  unfold newMessages
  rw [h, List.drop_left]

theorem newMessages_self (bus : Bus) : newMessages bus bus = [] := by
  unfold newMessages
  simp

/-- A call that takes the lock, talks to the bus and releases the lock. -/
theorem locked_section (l : List I2cMsg) :
    lockAfter ([Ev.lock] ++ l.map Ev.bus ++ [Ev.unlock]) false = some false
      ∧ busUnderLock ([Ev.lock] ++ l.map Ev.bus ++ [Ev.unlock]) false = true
      ∧ busMessages ([Ev.lock] ++ l.map Ev.bus ++ [Ev.unlock]) = l := by
  refine ⟨?_, ?_, ?_⟩
  · show lockAfter (l.map Ev.bus ++ [Ev.unlock]) true = some false
    rw [lockAfter_bus]
    rfl
  · show busUnderLock (l.map Ev.bus ++ [Ev.unlock]) true = true
    rw [busUnderLock_bus]
    rfl
  · show busMessages (l.map Ev.bus ++ [Ev.unlock]) = l
    rw [busMessages_bus]
    show l ++ [] = l
    simp

theorem lockAfter_append (a b : List Ev) (h0 h1 : Bool) (h : lockAfter a h0 = some h1) :
    lockAfter (a ++ b) h0 = lockAfter b h1 := by
  induction a generalizing h0 with
  | nil =>
    simp only [lockAfter, Option.some.injEq] at h
    subst h
    rfl
  | cons e t ih =>
    cases e with
    | lock =>
      cases h0 with
      | true => simp [lockAfter] at h
      | false =>
        simp only [lockAfter, Bool.false_eq_true, if_false] at h
        show lockAfter (t ++ b) true = _
        exact ih true h
    | unlock =>
      cases h0 with
      | false => simp [lockAfter] at h
      | true =>
        simp only [lockAfter, if_true] at h
        show lockAfter (t ++ b) false = _
        exact ih false h
    | bus m =>
      show lockAfter (t ++ b) h0 = _
      exact ih h0 h

theorem busUnderLock_append (a b : List Ev) (h0 h1 : Bool) (h : lockAfter a h0 = some h1)
    (ha : busUnderLock a h0 = true) (hb : busUnderLock b h1 = true) :
    busUnderLock (a ++ b) h0 = true := by
  induction a generalizing h0 with
  | nil =>
    simp only [lockAfter, Option.some.injEq] at h
    subst h
    exact hb
  | cons e t ih =>
    cases e with
    | lock =>
      cases h0 with
      | true => simp [lockAfter] at h
      | false =>
        simp only [lockAfter, Bool.false_eq_true, if_false] at h
        exact ih true h ha
    | unlock =>
      cases h0 with
      | false => simp [lockAfter] at h
      | true =>
        simp only [lockAfter, if_true] at h
        exact ih false h ha
    | bus m =>
      simp only [busUnderLock, Bool.and_eq_true] at ha
      show (h0 && busUnderLock (t ++ b) h0) = true
      rw [ih h0 h ha.2, ha.1]
      rfl

/-- The events of a transaction: the lock, the messages it put on the bus, the
release; and what it leaves behind is what `mxl692_i2c_writeread` leaves. -/
theorem writeread_events_spec (be : Bool) (dev : mxl692_dev) (bus : Bus) (opcode : Nat)
    (pTx : Option (List Nat)) (sz : Nat) (pRx : Option (List Nat)) (r : Nat)
    (tr : List Ev) (o : Outcome)
    (h : mxl692_i2c_writeread_events be dev bus opcode pTx sz pRx r = some (tr, o)) :
    tr = [Ev.lock] ++ (newMessages bus o.bus).map Ev.bus ++ [Ev.unlock]
      ∧ o.bus.log = bus.log ++ newMessages bus o.bus := by
  unfold mxl692_i2c_writeread_events err_finish at h
  split at h
  · simp only [Option.some.injEq, Prod.mk.injEq] at h
    obtain ⟨rfl, rfl⟩ := h
    simp [newMessages_self]
  · split at h
    · exact absurd h (by simp)
    · simp only at h
      split at h
      · exact absurd h (by simp)
      · rename_i st bus1 hw
        obtain ⟨m1, h1⟩ := opwrite_log _ _ _ _ _ hw
        have n1 := newMessages_of_log _ _ _ h1
        split at h
        · simp only [Option.some.injEq, Prod.mk.injEq] at h
          obtain ⟨rfl, rfl⟩ := h
          exact ⟨rfl, by rw [n1]; exact h1⟩
        · split at h
          · exact absurd h (by simp)
          · rename_i t st2 F bus2 hp
            obtain ⟨m2, h2⟩ := pollLoop_log _ _ _ _ _ _ hp
            simp only at h2
            have n2 := newMessages_of_log _ _ _ h2
            have h12 : bus2.log = bus.log ++ ([I2cMsg.write m1] ++ m2) := by
              rw [h2, h1, List.append_assoc]
            have n12 := newMessages_of_log _ _ _ h12
            split at h
            · simp only [Option.some.injEq, Prod.mk.injEq] at h
              obtain ⟨rfl, rfl⟩ := h
              refine ⟨?_, by rw [n12]; exact h12⟩
              rw [n1, n2, n12]
              simp
            · split at h
              · exact absurd h (by simp)
              · simp only [Option.some.injEq, Prod.mk.injEq] at h
                obtain ⟨rfl, rfl⟩ := h
                refine ⟨?_, by rw [n12]; exact h12⟩
                rw [n1, n2, n12]
                simp

/-- Leaving out the events gives `mxl692_i2c_writeread`. -/
theorem writeread_events_result (be : Bool) (dev : mxl692_dev) (bus : Bus) (opcode : Nat)
    (pTx : Option (List Nat)) (sz : Nat) (pRx : Option (List Nat)) (r : Nat) :
    (mxl692_i2c_writeread_events be dev bus opcode pTx sz pRx r).map Prod.snd
      = mxl692_i2c_writeread be dev bus opcode pTx sz pRx r := by
  unfold mxl692_i2c_writeread_events mxl692_i2c_writeread err_finish
  split
  · rfl
  · split
    · rfl
    · simp only
      cases mxl692_opwrite bus (txFrame be opcode (mxl692_next_seq dev).1 pTx sz)
          (sz + MXL_EAGLE_HOST_MSG_HEADER_SIZE) with
      | none => rfl
      | some w =>
        obtain ⟨st, bus1⟩ := w
        simp only
        split
        · rfl
        · cases pollLoop be (r + MXL_EAGLE_HOST_MSG_HEADER_SIZE) 40 bus1
              (List.replicate MXL_EAGLE_MAX_I2C_PACKET_SIZE 0) with
          | none => rfl
          | some q =>
            obtain ⟨t, st2, F, bus2⟩ := q
            simp only
            split
            · rfl
            · cases checkResponse be (txFrame be opcode (mxl692_next_seq dev).1 pTx sz) F r
                  pRx with
              | none => rfl
              | some x => rfl

/-- Leaving out the events gives `mxl692_fwdownload`. -/
theorem fwdownload_events_result (be : Bool) (dev : mxl692_dev) (bus : Bus) (pFw : List Nat)
    (bufferLen : Nat) :
    (mxl692_fwdownload_events be dev bus pFw bufferLen).map Prod.snd
      = mxl692_fwdownload be dev bus pFw bufferLen := by
  unfold mxl692_fwdownload_events mxl692_fwdownload err_finish
  split
  · rfl
  · split
    · rfl
    · simp only
      split
      · rfl
      · cases mxl692_write_fw_block be bus pFw bufferLen 16 with
        | none => rfl
        | some w1 =>
          obtain ⟨s1, ix, bus1⟩ := w1
          simp only
          split
          · rfl
          · cases mxl692_write_fw_block be bus1 pFw bufferLen ix with
            | none => rfl
            | some w2 =>
              obtain ⟨s2, ix2, bus2⟩ := w2
              simp only
              split
              · rfl
              · cases mxl692_memwrite be bus2 0x70000018 (store32 be [0, 0, 0, 0] 0 0x1) 4 with
                | none => rfl
                | some w3 =>
                  obtain ⟨s3, bus3⟩ := w3
                  simp only
                  split
                  · rfl
                  · have hr := writeread_events_result be dev bus3
                      MXL_EAGLE_OPCODE_DEVICE_STATUS_GET none 0
                      (some (List.replicate MXL_EAGLE_MAX_I2C_PACKET_SIZE 0)) 4
                    cases he : mxl692_i2c_writeread_events be dev bus3
                        MXL_EAGLE_OPCODE_DEVICE_STATUS_GET none 0
                        (some (List.replicate MXL_EAGLE_MAX_I2C_PACKET_SIZE 0)) 4 with
                    | none =>
                      rw [he] at hr
                      rw [← hr]
                      rfl
                    | some q =>
                      rw [he] at hr
                      rw [← hr]
                      rfl

/-- The events of a download leave the lock free, and every bus message of the
download is issued while the lock is held. -/
theorem fwdownload_events_spec (be : Bool) (dev : mxl692_dev) (bus : Bus) (pFw : List Nat)
    (bufferLen : Nat) (tr : List Ev) (x : Int × mxl692_dev × Bus)
    (h : mxl692_fwdownload_events be dev bus pFw bufferLen = some (tr, x)) :
    lockAfter tr false = some false ∧ busUnderLock tr false = true := by
  have hsec : ∀ l : List I2cMsg,
      lockAfter ([Ev.lock] ++ l.map Ev.bus ++ [Ev.unlock]) false = some false
        ∧ busUnderLock ([Ev.lock] ++ l.map Ev.bus ++ [Ev.unlock]) false = true :=
    fun l => ⟨(locked_section l).1, (locked_section l).2.1⟩
  unfold mxl692_fwdownload_events err_finish at h
  split at h
  · simp only [Option.some.injEq, Prod.mk.injEq] at h
    obtain ⟨rfl, _⟩ := h
    exact ⟨rfl, rfl⟩
  · split at h
    · exact absurd h (by simp)
    · simp only at h
      split at h
      · simp only [Option.some.injEq, Prod.mk.injEq] at h
        obtain ⟨rfl, _⟩ := h
        exact ⟨rfl, rfl⟩
      · split at h
        · exact absurd h (by simp)
        · rename_i s1 ix bus1 _
          split at h
          · simp only [Option.some.injEq, Prod.mk.injEq] at h
            obtain ⟨rfl, _⟩ := h
            exact hsec _
          · split at h
            · exact absurd h (by simp)
            · rename_i s2 ix2 bus2 _
              split at h
              · simp only [Option.some.injEq, Prod.mk.injEq] at h
                obtain ⟨rfl, _⟩ := h
                have := hsec (newMessages bus bus1 ++ newMessages bus1 bus2)
                simpa using this
              · split at h
                · exact absurd h (by simp)
                · rename_i s3 bus3 _
                  have h3 := hsec (newMessages bus bus1 ++ newMessages bus1 bus2
                    ++ newMessages bus2 bus3)
                  simp only [List.map_append, List.append_assoc] at h3
                  split at h
                  · simp only [Option.some.injEq, Prod.mk.injEq] at h
                    obtain ⟨rfl, _⟩ := h
                    simpa using h3
                  · split at h
                    · exact absurd h (by simp)
                    · rename_i ev2 o he
                      simp only [Option.some.injEq, Prod.mk.injEq] at h
                      obtain ⟨rfl, _⟩ := h
                      have hw := (writeread_events_spec _ _ _ _ _ _ _ _ _ _ he).1
                      have h4 := locked_section (newMessages bus3 o.bus)
                      rw [← hw] at h4
                      simp only [List.append_assoc] at h3 ⊢
                      refine ⟨?_, ?_⟩
                      · have := lockAfter_append _ ev2 false false h3.1
                        simp only [List.append_assoc] at this
                        rw [this]
                        exact h4.1
                      · have := busUnderLock_append _ ev2 false false h3.1 h3.2 h4.2.1
                        simpa using this

/-- C37: with the lock operations of the source put back into the model (the
results stay those of `mxl692_i2c_writeread` and `mxl692_fwdownload`), every
call of `mxl692_i2c_writeread` that returns, on whatever path, has taken the
lock once, then put all its bus messages on the bus while holding it, then
released it; and every call of `mxl692_fwdownload` that returns leaves the lock
free, never takes it while held, and issues its bus messages while holding
it. -/
theorem C37_lock_is_balanced (be : Bool) (dev : mxl692_dev) (bus : Bus) (opcode : Nat)
    (pTx : Option (List Nat)) (sz : Nat) (pRx : Option (List Nat)) (r : Nat)
    (pFw : List Nat) (bufferLen : Nat) :
    (mxl692_i2c_writeread_events be dev bus opcode pTx sz pRx r).map Prod.snd
        = mxl692_i2c_writeread be dev bus opcode pTx sz pRx r
      ∧ (∀ tr o, mxl692_i2c_writeread_events be dev bus opcode pTx sz pRx r = some (tr, o) →
          lockAfter tr false = some false ∧ busUnderLock tr false = true
            ∧ o.bus.log = bus.log ++ busMessages tr)
      ∧ (mxl692_fwdownload_events be dev bus pFw bufferLen).map Prod.snd
        = mxl692_fwdownload be dev bus pFw bufferLen
      ∧ (∀ tr x, mxl692_fwdownload_events be dev bus pFw bufferLen = some (tr, x) →
          lockAfter tr false = some false ∧ busUnderLock tr false = true) := by
  refine ⟨writeread_events_result _ _ _ _ _ _ _ _, ?_, fwdownload_events_result _ _ _ _ _,
    fun tr x h => fwdownload_events_spec _ _ _ _ _ _ _ h⟩
  intro tr o h
  obtain ⟨htr, hlog⟩ := writeread_events_spec _ _ _ _ _ _ _ _ _ _ h
  have hs := locked_section (newMessages bus o.bus)
  rw [← htr] at hs
  refine ⟨hs.1, hs.2.1, ?_⟩
  rw [hs.2.2]
  exact hlog

/-- Witness for C37: a transaction whose first read fails, and a download whose
first chunk write fails with `-EIO`. -/
theorem C37_lock_is_balanced_witness :
    (mxl692_i2c_writeread_events false ⟨1⟩ readFailBus 8 none 0 none 0).map Prod.fst
        = some [Ev.lock, Ev.bus statusRequest, Ev.bus (I2cMsg.write [0xFD, 0]),
            Ev.bus (I2cMsg.read 4), Ev.unlock]
      ∧ (mxl692_i2c_writeread_events false ⟨1⟩ readFailBus 8 none 0 none 0).map Prod.snd
        = mxl692_i2c_writeread false ⟨1⟩ readFailBus 8 none 0 none 0
      ∧ (mxl692_fwdownload_events false ⟨1⟩ (failAfter 0) oneSegmentImage 28).map Prod.fst
        = some [Ev.lock, Ev.bus (I2cMsg.write [0xFC, 8, 0, 0, 0, 0x20, 4, 3, 2, 1]), Ev.unlock]
      ∧ (mxl692_fwdownload_events false ⟨1⟩ (failAfter 0) oneSegmentImage 28).map Prod.snd
        = mxl692_fwdownload false ⟨1⟩ (failAfter 0) oneSegmentImage 28
      ∧ mxl692_fwdownload false ⟨1⟩ (failAfter 0) oneSegmentImage 28
        = some (- EREMOTEIO, ⟨1⟩,
            ⟨[⟨1, []⟩], [I2cMsg.write [0xFC, 8, 0, 0, 0, 0x20, 4, 3, 2, 1]]⟩) :=
  ⟨by decide,
    (C37_lock_is_balanced false ⟨1⟩ readFailBus 8 none 0 none 0 goodImage 20).1,
    by decide,
    (C37_lock_is_balanced false ⟨1⟩ (failAfter 0) 8 none 0 none 0 oneSegmentImage 28).2.2.1,
    by decide⟩

end Mxl692
